import Mathlib

/-!
Reverse engineering of XOR hash functions: the solver of `hash_function.cpp`

A shallow embedding of `src/reverse_engineering/hash_function.cpp` and the
properties of it that are settled here.

Conventions of the embedding

* `int` values are `Int`, `uintptr_t`, `uint64_t` and `size_t` values are `Nat`
  reduced modulo `2 ^ 64` wherever the C arithmetic can wrap.  The increments
  of `permute_hypothesis` are checked against `INT_MAX`: an `int` overflow has
  no result.
* A `solution_t` (array `indexes[MAX_NUM_INDEX]` plus `depth`) is the list of
  its first `depth` entries; `depth` is the length of that list.
* A function returns `none` where the C program has no result: a failed
  `assert`, a shift whose count is outside `[0, 64)`, an `int` overflow, an
  out-of-bounds array access, or a loop that does not end.  Loops that are not counted loops run
  on a fuel that is computed from their arguments; running out of fuel is
  `none`.
* `std::vector::push_back` appends at the end of a list.  The `push_back`s on
  `perm_sarray`, which `hash_reduce` guards with `try`/`catch`, can throw: the
  argument `alloc_fails` says, for each size of `perm_sarray`, whether the
  `push_back` on a vector of that size throws.
* The oracle `check_partition_pair` is a pure function of the two addresses.
* Messages written to `stderr` are collected in a list of `diagnostic`s;
  the progress output on `stdout` is not kept.
-/

namespace HashFunction

/-! ## Data model -/

/-- Maximum physical address bits currently is 64. -/
def MAX_NUM_INDEX : Nat := 64

/-- The C type `solution_t`: the first `depth` entries of `indexes`. -/
structure solution_t where
  indexes : List Int
  deriving DecidableEq, Repr

/-- The field `depth` of a solution. -/
def solution_t.depth (s : solution_t) : Nat := s.indexes.length

/-- The C type `hash_context_t`. -/
structure hash_context_t where
  min_bit : Int
  max_bit : Int
  start_addr : Nat
  end_addr : Nat
  unexplored_bits : Nat
  global_unexplored_bits : Nat
  cur_bit_to_explore : Int
  is_valid_pair : Bool
  test_addr : Nat
  base_addr : Nat
  keys : List (Nat × Nat)
  solutions : List solution_t
  deriving DecidableEq, Repr

/-- The messages the solver writes to `stderr`. -/
inductive diagnostic where
  | no_pair_found
  | no_base_solution
  | too_many_base_solutions
  | something_went_wrong
  | out_of_memory
  deriving DecidableEq, Repr

/-- The largest value of the C type `int`. -/
def INT_MAX : Int := 2147483647

/-- The value `2 ^ 64`, the modulus of `uintptr_t` arithmetic. -/
def WORD : Nat := 2 ^ 64

/-- The C expression `1ULL << n`, defined for `0 ≤ n < 64` only. -/
def shl1 (n : Int) : Option Nat :=
  if 0 ≤ n ∧ n < 64 then some (2 ^ n.toNat) else none

/-! ## Solution primitives -/

/-- The loop of `are_solutions_same`: compares the entries pairwise. -/
def are_solutions_same_loop : List Int → List Int → Int
  | x :: xs, y :: ys => if x ≠ y then 0 else are_solutions_same_loop xs ys
  | _, _ => 1

/-- Compare equivalence of two solutions. -/
def are_solutions_same (a b : solution_t) : Int :=
  if a.depth ≠ b.depth then 0 else are_solutions_same_loop a.indexes b.indexes

/-- Add new bit in a solution; returns `< 0` if it can not insert.  Reading
`indexes[depth - 1]` of a solution of depth 0 is out of bounds. -/
def insert_bit_in_solutions (s : solution_t) (bit : Int) : Option (Int × solution_t) :=
  if s.depth = MAX_NUM_INDEX then some (-1, s)
  else
    match s.indexes.getLast? with
    | none => none
    | some last =>
      if last ≥ bit then some (-1, s)
      else some (0, ⟨s.indexes ++ [bit]⟩)

/-- The `while` loop of `xor_solutions`.  The first two lists are the entries
of `s1` from `i` on and of `s2` from `j` on, `r` holds the `k` entries written
so far.  Each round ends with `assert(k < MAX_NUM_INDEX)`. -/
def xor_solutions_loop : Nat → List Int → List Int → List Int → Option (List Int)
  | _, [], [], r => some r
  | 0, _, _, _ => none
  | fuel + 1, a :: t1, [], r =>
    if (r ++ [a]).length < MAX_NUM_INDEX then xor_solutions_loop fuel t1 [] (r ++ [a]) else none
  | fuel + 1, [], b :: t2, r =>
    if (r ++ [b]).length < MAX_NUM_INDEX then xor_solutions_loop fuel [] t2 (r ++ [b]) else none
  | fuel + 1, a :: t1, b :: t2, r =>
    if a < b then
      if (r ++ [a]).length < MAX_NUM_INDEX then xor_solutions_loop fuel t1 (b :: t2) (r ++ [a])
      else none
    else if a > b then
      if (r ++ [b]).length < MAX_NUM_INDEX then xor_solutions_loop fuel (a :: t1) t2 (r ++ [b])
      else none
    else
      if r.length < MAX_NUM_INDEX then xor_solutions_loop fuel t1 t2 r else none

/-- Combine two solutions.  Every round of the loop advances `i` or `j`, so
`s1.depth + s2.depth` rounds are enough. -/
def xor_solutions (s1 s2 : solution_t) : Option solution_t :=
  (xor_solutions_loop (s1.depth + s2.depth) s1.indexes s2.indexes []).map solution_t.mk

/-- The `while` loop of `xor_solutions` with its stores recorded: the last list
holds the positions `k` of the stores `r.indexes[k] = ..` made so far, in order;
the second component is the result of the loop (`none` when an
`assert(k < MAX_NUM_INDEX)` fails). -/
def xor_solutions_stores :
    Nat → List Int → List Int → List Int → List Nat → List Nat × Option (List Int)
  | _, [], [], r, w => (w, some r)
  | 0, _, _, _, w => (w, none)
  | fuel + 1, a :: t1, [], r, w =>
    if (r ++ [a]).length < MAX_NUM_INDEX then
      xor_solutions_stores fuel t1 [] (r ++ [a]) (w ++ [r.length])
    else (w ++ [r.length], none)
  | fuel + 1, [], b :: t2, r, w =>
    if (r ++ [b]).length < MAX_NUM_INDEX then
      xor_solutions_stores fuel [] t2 (r ++ [b]) (w ++ [r.length])
    else (w ++ [r.length], none)
  | fuel + 1, a :: t1, b :: t2, r, w =>
    if a < b then
      if (r ++ [a]).length < MAX_NUM_INDEX then
        xor_solutions_stores fuel t1 (b :: t2) (r ++ [a]) (w ++ [r.length])
      else (w ++ [r.length], none)
    else if a > b then
      if (r ++ [b]).length < MAX_NUM_INDEX then
        xor_solutions_stores fuel (a :: t1) t2 (r ++ [b]) (w ++ [r.length])
      else (w ++ [r.length], none)
    else
      if r.length < MAX_NUM_INDEX then xor_solutions_stores fuel t1 t2 r w else (w, none)

/-- The positions of `r.indexes` that a call `xor_solutions(s1, s2, r)` stores
to, in order. -/
def xor_solutions_store_positions (s1 s2 : solution_t) : List Nat :=
  (xor_solutions_stores (s1.depth + s2.depth) s1.indexes s2.indexes [] []).1

/-- The `for` loop of `add_solution_with_permuations`: the first list holds the
entries `perm_sarray[i]`, `i < old_num_solutions`, that are still to be
combined with `new_s`, the second list is `perm_sarray`.  The result is
`some none` when a `push_back` throws. -/
def add_solution_with_permuations_loop (alloc_fails : Nat → Bool) (new_s : solution_t) :
    List solution_t → List solution_t → Option (Option (List solution_t))
  | [], perm_sarray => some (some perm_sarray)
  | p :: rest, perm_sarray =>
    match xor_solutions p new_s with
    | none => none
    | some permuted =>
      if alloc_fails perm_sarray.length then some none
      else add_solution_with_permuations_loop alloc_fails new_s rest (perm_sarray ++ [permuted])

/-- Add solution and permutation of solutions with prior solutions.  The result
is `some none` when a `push_back` throws. -/
def add_solution_with_permuations (alloc_fails : Nat → Bool) (perm_sarray : List solution_t)
    (new_s : solution_t) : Option (Option (List solution_t)) :=
  if alloc_fails perm_sarray.length then some none
  else add_solution_with_permuations_loop alloc_fails new_s perm_sarray (perm_sarray ++ [new_s])

/-- The loop of `get_partition_num`; a shift count outside `[0, 64)` has no
C meaning. -/
def get_partition_num_loop (key : Nat) : List Int → Nat → Option Nat
  | [], partition => some partition
  | idx :: rest, partition =>
    if 0 ≤ idx ∧ idx < 64 then
      get_partition_num_loop key rest (partition ^^^ ((key >>> idx.toNat) &&& 1))
    else none

/-- Returns the partition number according to the key and hypothesis. -/
def get_partition_num (key : Nat) (s : solution_t) : Option Nat :=
  if s.depth > 0 then get_partition_num_loop key s.indexes 0 else none

/-- The loop of `is_solution_correct` over the keys. -/
def is_solution_correct_loop (s : solution_t) : List (Nat × Nat) → Option Bool
  | [] => some true
  | (k1, k2) :: rest =>
    match get_partition_num k1 s, get_partition_num k2 s with
    | some partition1, some partition2 =>
      if partition1 ≠ partition2 then some false else is_solution_correct_loop s rest
    | _, _ => none

/-- Checks if a solution is valid for all the keys. -/
def is_solution_correct (keys : List (Nat × Nat)) (s : solution_t) : Option Bool :=
  if s.depth ≥ 1 then is_solution_correct_loop s keys else none

/-! ## Hypothesis enumeration -/

/-- The inner `for` loop of `permute_hypothesis`: `array[i] = array[i - 1] + 1`
for `i` up to `size - 1`, leaving with `valid = 0` at the first entry above
`max_val`.  The first argument counts the rounds that are left.  The sum
`array[i - 1] + 1` has no result when it is above `INT_MAX`. -/
def permute_hypothesis_inner (max_val : Int) : Nat → Nat → List Int → Option (Bool × List Int)
  | 0, _, array => some (true, array)
  | n + 1, i, array =>
    match array[i - 1]? with
    | none => none
    | some prev =>
      if i < array.length then
        if prev + 1 > INT_MAX then none
        else if prev + 1 > max_val then some (false, array.set i (prev + 1))
        else permute_hypothesis_inner max_val n (i + 1) (array.set i (prev + 1))
      else none

/-- The outer `for` loop of `permute_hypothesis`; the counter is
`start_index + 1`, so that `0` stands for `start_index < 0`.  The increment
`array[start_index]++` has no result when it goes above `INT_MAX`. -/
def permute_hypothesis_outer (size : Nat) (max_val : Int) : Nat → List Int → Option (Int × List Int)
  | 0, array => some (-1, array)
  | start_index + 1, array =>
    match array[start_index]? with
    | none => none
    | some v =>
      if v + 1 > INT_MAX then none
      else
        match permute_hypothesis_inner max_val (size - (start_index + 1)) (start_index + 1)
            (array.set start_index (v + 1)) with
        | none => none
        | some (valid, array') =>
          if valid then some (0, array')
          else permute_hypothesis_outer size max_val start_index array'

/-- The list `v, v + 1, .., v + n - 1`: what the loop
`for (i = 0; i < size; i++) array[i] = min_val + i` writes. -/
def ramp (v : Int) (n : Nat) : List Int := (List.range n).map (fun (i : Nat) => v + (i : Int))

/-- Create arbitary hash function.  The caller keeps calling this function till
it returns negative.  `array` is the `size` entries the function works on;
`min_val` and `max_val` are `int` values (at most `INT_MAX`), so that the sums
`min_val + i` up to `max_val` and the increment of an entry below `max_val` do
not overflow. -/
def permute_hypothesis (array : List Int) (size : Nat) (min_val max_val : Int) (isfirst : Int) :
    Option (Int × List Int) :=
  if size < 1 then none
  else if array.length ≠ size then none
  else if isfirst ≠ 0 then
    if min_val + ((size - 1 : Nat) : Int) ≤ max_val then
      some (0, ramp min_val size)
    else none
  else
    match array[size - 1]? with
    | none => none
    | some last =>
      if last < max_val then some (0, array.set (size - 1) (last + 1))
      else permute_hypothesis_outer size max_val (size - 1) array

/-- The `while (1)` loop of `find_new_solutions` for one depth.  The local
`solution_t s` keeps its entries from one round to the next (the program
relies on it: with `isFirst = 0` the enumerator reads the tuple it wrote in
the round before). -/
def find_new_solutions_while (keys : List (Nat × Nat)) (min_bit max_bit : Int) (depth : Nat) :
    Nat → List Int → Int → List solution_t → Int → Option (List solution_t × Int)
  | 0, _, _, _, _ => none
  | fuel + 1, array, isFirst, solutions, solutions_found =>
    match permute_hypothesis array depth min_bit max_bit isFirst with
    | none => none
    | some (r, array') =>
      if r < 0 then some (solutions, solutions_found)
      else
        match is_solution_correct keys ⟨array'⟩ with
        | none => none
        | some ret =>
          if ret then
            find_new_solutions_while keys min_bit max_bit depth fuel array' 0
              (solutions ++ [⟨array'⟩]) (solutions_found + 1)
          else
            find_new_solutions_while keys min_bit max_bit depth fuel array' 0
              solutions solutions_found

/-- The `for` loop of `find_new_solutions` over the depths; the first counter
is the number of depths left. -/
def find_new_solutions_for (keys : List (Nat × Nat)) (min_bit max_bit : Int) :
    Nat → Nat → List solution_t → Int → Option (List solution_t × Int)
  | 0, _, solutions, solutions_found => some (solutions, solutions_found)
  | n + 1, depth, solutions, solutions_found =>
    match find_new_solutions_while keys min_bit max_bit depth
        (2 ^ (max_bit - min_bit + 1).toNat) (List.replicate depth 0) 1
        solutions solutions_found with
    | none => none
    | some (solutions', solutions_found') =>
      find_new_solutions_for keys min_bit max_bit n (depth + 1) solutions' solutions_found'

/-- Find all the hash functions with which all the keys fit (i.e. lie on same
partition); gives the solutions and the number of solutions found.  A depth
has fewer than `2 ^ (max_bit - min_bit + 1)` tuples, which is the fuel of the
inner loop. -/
def find_new_solutions (keys : List (Nat × Nat)) (min_bit max_bit : Int)
    (solutions : List solution_t) : Option (List solution_t × Int) :=
  if solutions.length ≠ 0 then none
  else find_new_solutions_for keys min_bit max_bit (max_bit - min_bit + 1).toNat 1 solutions 0

/-- Checks if the number of solutions seems correct or are they more than they
need to be.  The `int` on the right is converted to `size_t` for the
comparison; its value `max_bit - min_bit + 1` is taken as it is, which is the
value the program computes when it fits an `int` (below `2 ^ 31` in absolute
value). -/
def are_unique_solutions_found (num_solutions : Nat) (min_bit max_bit : Int) : Bool :=
  decide (num_solutions ≤ ((max_bit - min_bit + 1) % (WORD : Int)).toNat)

/-! ## Driver primitives -/

/-- The loop of `find_highest_bit`; the counter is `i + 1`. -/
def find_highest_bit_loop (mask : Nat) : Nat → Int
  | 0 => -1
  | i + 1 => if mask &&& 2 ^ i ≠ 0 then (i : Int) else find_highest_bit_loop mask i

/-- Find highest bit set in mask `<=` ceiling bit. -/
def find_highest_bit (mask : Nat) (ceiling : Int) : Int :=
  find_highest_bit_loop mask (min ceiling ((MAX_NUM_INDEX : Int) - 1) + 1).toNat

/-- Mark all explored bits.  Explored bits are bits which differ in two
addresses. -/
def mark_explored_bits (unexplored_mask addr1 addr2 : Nat) : Nat :=
  unexplored_mask &&& ((WORD - 1) ^^^ ((addr1 ^^^ addr2) % WORD))

/-- Called when is it confirmed that the pair of address lie in same
partition. -/
def hash_confirm_pair (ctx : hash_context_t) (phy_addr1 phy_addr2 : Nat) : hash_context_t :=
  { ctx with
    keys := ctx.keys ++ [(phy_addr1, phy_addr2)]
    unexplored_bits := mark_explored_bits ctx.unexplored_bits phy_addr1 phy_addr2
    global_unexplored_bits := mark_explored_bits ctx.global_unexplored_bits phy_addr1 phy_addr2 }

/-- The search of `hash_reduce` for `s` in `perm_sarray`. -/
def hash_reduce_is_unique (s : solution_t) : List solution_t → Bool
  | [] => true
  | p :: rest => if are_solutions_same s p ≠ 0 then false else hash_reduce_is_unique s rest

/-- The loop of `hash_reduce` over `ctx->solutions`, from the iterator `s` on;
gives the part of `ctx->solutions` from `s` on as the loop leaves it, and
whether an exception was caught.  When `add_solution_with_permuations` throws,
the function returns at once, with `*s` and the solutions after it still in
the list. -/
def hash_reduce_loop (alloc_fails : Nat → Bool) :
    List solution_t → List solution_t → Option (List solution_t × Bool)
  | [], _ => some ([], false)
  | s :: rest, perm_sarray =>
    if hash_reduce_is_unique s perm_sarray then
      match add_solution_with_permuations alloc_fails perm_sarray s with
      | none => none
      | some none => some (s :: rest, true)
      | some (some perm_sarray') =>
        match hash_reduce_loop alloc_fails rest perm_sarray' with
        | none => none
        | some (kept, caught) => some (s :: kept, caught)
    else hash_reduce_loop alloc_fails rest perm_sarray

/-- Eliminate equivalent solutions to get only unique solutions.  Gives the
context and what was written to `stderr`: on an exception the message
`Out of memory exception while hash_reduce`, with `ctx->solutions` reduced up to
the solution that was being added. -/
def hash_reduce (alloc_fails : Nat → Bool) (ctx : hash_context_t) :
    Option (hash_context_t × List diagnostic) :=
  (hash_reduce_loop alloc_fails ctx.solutions []).map
    (fun r => ({ ctx with solutions := r.1 },
      if r.2 then [diagnostic.out_of_memory] else []))

/-- Initializes the hash context; `none` is the `NULL` result.  The shift
`1ULL << max_bit` is reached with `0 < max_bit < 64` only. -/
def hash_init (min_bit max_bit : Int) (start_addr end_addr : Nat) : Option hash_context_t :=
  if max_bit ≤ min_bit then none
  else if max_bit ≥ (MAX_NUM_INDEX : Int) then none
  else if min_bit < 0 then none
  else if end_addr ≤ start_addr then none
  else if end_addr - start_addr < 2 ^ max_bit.toNat then none
  else some
    { min_bit := min_bit, max_bit := max_bit
      start_addr := start_addr, end_addr := end_addr
      unexplored_bits := 0, global_unexplored_bits := WORD - 1
      cur_bit_to_explore := 0, is_valid_pair := false
      test_addr := 0, base_addr := 0
      keys := [], solutions := [] }

/-! ## Bit extension and the two-phase driver -/

/-- The number of rounds of a loop `for (t = first; t <= last; t += stride)`
whose counter does not wrap. -/
def loop_fuel (first last stride : Nat) : Nat := (last - first) / stride + 1

/-- The loop over `j` of `try_accomodate_new_bit` that inserts `new_bit` in
`new_solutions[j]` for every bit `j` set in `i`; the first counter is the
number of rounds left. -/
def try_accomodate_new_bit_insert (new_bit : Int) (i : Nat) :
    Nat → Nat → List solution_t → Option (List solution_t)
  | 0, _, new_solutions => some new_solutions
  | n + 1, j, new_solutions =>
    if i &&& 2 ^ j ≠ 0 then
      match new_solutions[j]? with
      | none => none
      | some s =>
        match insert_bit_in_solutions s new_bit with
        | none => none
        | some (ret, s') =>
          if ret ≥ 0 then
            try_accomodate_new_bit_insert new_bit i n (j + 1) (new_solutions.set j s')
          else none
    else try_accomodate_new_bit_insert new_bit i n (j + 1) new_solutions

/-- The first loop of `try_accomodate_new_bit`: permute all new solutions. -/
def try_accomodate_new_bit_permute (solutions : List solution_t) (new_bit : Int) :
    Option (List (List solution_t)) :=
  (List.range (2 ^ solutions.length)).mapM
    (fun i => try_accomodate_new_bit_insert new_bit i 64 0 solutions)

/-- The loop over `i` of `try_accomodate_new_bit` that checks one candidate
against the keys, stopping at the first incorrect solution. -/
def try_accomodate_new_bit_is_correct (keys : List (Nat × Nat)) : List solution_t → Option Bool
  | [] => some true
  | s :: rest =>
    match is_solution_correct keys s with
    | none => none
    | some ret =>
      if !ret then some false else try_accomodate_new_bit_is_correct keys rest

/-- The loop over `all_new_solutions` of `try_accomodate_new_bit` that erases
the candidates with an incorrect solution. -/
def try_accomodate_new_bit_erase (keys : List (Nat × Nat)) :
    List (List solution_t) → Option (List (List solution_t))
  | [] => some []
  | s :: rest =>
    match try_accomodate_new_bit_is_correct keys s with
    | none => none
    | some is_correct =>
      match try_accomodate_new_bit_erase keys rest with
      | none => none
      | some rest' => if !is_correct then some rest' else some (s :: rest')

/-- The probing loop of `try_accomodate_new_bit`. -/
def try_accomodate_new_bit_probe (check_partition_pair : Nat → Nat → Bool) (end_addr stride : Nat) :
    Nat → hash_context_t → List (List solution_t) →
      Option (hash_context_t × List (List solution_t))
  | fuel, ctx, all_new_solutions =>
    if ctx.test_addr ≤ end_addr then
      match fuel with
      | 0 => none
      | fuel + 1 =>
        if check_partition_pair ctx.base_addr ctx.test_addr then
          match try_accomodate_new_bit_erase
              (hash_confirm_pair ctx ctx.base_addr ctx.test_addr).keys all_new_solutions with
          | none => none
          | some all_new_solutions' =>
            if all_new_solutions'.length ≤ 1 then
              some (hash_confirm_pair ctx ctx.base_addr ctx.test_addr, all_new_solutions')
            else
              try_accomodate_new_bit_probe check_partition_pair end_addr stride fuel
                { hash_confirm_pair ctx ctx.base_addr ctx.test_addr with
                  test_addr := (ctx.test_addr + stride) % WORD }
                all_new_solutions'
        else
          if all_new_solutions.length ≤ 1 then some (ctx, all_new_solutions)
          else
            try_accomodate_new_bit_probe check_partition_pair end_addr stride fuel
              { ctx with test_addr := (ctx.test_addr + stride) % WORD } all_new_solutions
    else some (ctx, all_new_solutions)

/-- Give a set of solutions, try seeing if a new bit can be added into the
sets of solutions.  Gives the context and what was written to `stderr`. -/
def try_accomodate_new_bit (ctx : hash_context_t) (new_bit : Int)
    (check_partition_pair : Nat → Nat → Bool) : Option (hash_context_t × List diagnostic) :=
  if ¬ ctx.solutions.length < 64 then none
  else
    match try_accomodate_new_bit_permute ctx.solutions new_bit,
        shl1 (new_bit + 1), shl1 new_bit, shl1 ctx.min_bit with
    | some all_new_solutions, some span, some first, some stride =>
      match try_accomodate_new_bit_probe check_partition_pair
          (min ctx.end_addr ((ctx.start_addr + span) % WORD)) stride
          (loop_fuel ((ctx.start_addr + first) % WORD)
            (min ctx.end_addr ((ctx.start_addr + span) % WORD)) stride)
          { ctx with base_addr := ctx.start_addr, test_addr := (ctx.start_addr + first) % WORD }
          all_new_solutions with
      | none => none
      | some (ctx', []) => some (ctx', [diagnostic.something_went_wrong])
      | some (ctx', new_solutions :: _) => some ({ ctx' with solutions := new_solutions }, [])
    | _, _, _, _ => none

/-- The probing loop of step 1 of `hash_find_solutions2`. -/
def hash_find_solutions2_step1 (check_partition_pair : Nat → Nat → Bool) (end_addr stride : Nat) :
    Nat → hash_context_t → Option hash_context_t
  | fuel, ctx =>
    if ctx.test_addr ≤ end_addr then
      match fuel with
      | 0 => none
      | fuel + 1 =>
        if check_partition_pair ctx.base_addr ctx.test_addr then
          hash_find_solutions2_step1 check_partition_pair end_addr stride fuel
            { hash_confirm_pair ctx ctx.base_addr ctx.test_addr with
              test_addr := (ctx.test_addr + stride) % WORD }
        else
          hash_find_solutions2_step1 check_partition_pair end_addr stride fuel
            { ctx with test_addr := (ctx.test_addr + stride) % WORD }
    else some ctx

/-- The loop of step 2 of `hash_find_solutions2` over the bits
`i, i + 1, ..`; the first counter is the number of bits left. -/
def hash_find_solutions2_step2 (check_partition_pair : Nat → Nat → Bool) :
    Nat → Int → hash_context_t → List diagnostic → Option (hash_context_t × List diagnostic)
  | 0, _, ctx, err => some (ctx, err)
  | n + 1, i, ctx, err =>
    match try_accomodate_new_bit ctx i check_partition_pair with
    | none => none
    | some (ctx', err') =>
      hash_find_solutions2_step2 check_partition_pair n (i + 1) ctx' (err ++ err')

/-- The value of `end_bit` in `hash_find_solutions2`. -/
def hash_find_solutions2_end_bit (ctx : hash_context_t) : Int :=
  max (((ctx.max_bit + ctx.min_bit) + 1).tdiv 2) (find_highest_bit ctx.start_addr ctx.max_bit + 1)

/-- Runs till a solution is found.  Gives the returned value (0 if solution
found, `< 0` if no solutions found), the context and what was written to
`stderr`. -/
def hash_find_solutions2 (ctx : hash_context_t) (check_partition_pair : Nat → Nat → Bool)
    (alloc_fails : Nat → Bool) : Option (Int × hash_context_t × List diagnostic) :=
  match shl1 (hash_find_solutions2_end_bit ctx + 1), shl1 ctx.min_bit with
  | some top, some stride =>
    match hash_find_solutions2_step1 check_partition_pair (min ctx.end_addr (top - 1)) stride
        (loop_fuel ctx.start_addr (min ctx.end_addr (top - 1)) stride)
        { ctx with base_addr := ctx.start_addr, test_addr := ctx.start_addr } with
    | none => none
    | some ctx1 =>
      if ctx1.keys.length = 0 then some (-1, ctx1, [diagnostic.no_pair_found])
      else
        match find_new_solutions ctx1.keys ctx1.min_bit (hash_find_solutions2_end_bit ctx)
            ctx1.solutions with
        | none => none
        | some (solutions, solutions_found) =>
          if solutions_found = 0 then
            some (-1, { ctx1 with solutions := solutions }, [diagnostic.no_base_solution])
          else
            match hash_reduce alloc_fails { ctx1 with solutions := solutions } with
            | none => none
            | some (ctx2, err2) =>
              if !are_unique_solutions_found ctx2.solutions.length ctx2.min_bit
                  (hash_find_solutions2_end_bit ctx) then
                some (-1, ctx2, err2 ++ [diagnostic.too_many_base_solutions])
              else
                match hash_find_solutions2_step2 check_partition_pair
                    (ctx2.max_bit - hash_find_solutions2_end_bit ctx).toNat
                    (hash_find_solutions2_end_bit ctx + 1) ctx2 err2 with
                | none => none
                | some (ctx3, err) => some (0, ctx3, err)
  | _, _ => none


/-! ## Notions used to state the properties -/

/-- Membership in the symmetric difference of two index lists. -/
def in_symm_diff (x : Int) (l1 l2 : List Int) : Prop :=
  (x ∈ l1 ∧ x ∉ l2) ∨ (x ∈ l2 ∧ x ∉ l1)

/-- The indexes of a solution are strictly ascending. -/
def strictly_ascending (s : solution_t) : Prop := s.indexes.Pairwise (· < ·)

instance (s : solution_t) : Decidable (strictly_ascending s) := by
  unfold strictly_ascending; infer_instance

/-- Every index of a solution lies in `[lo, hi]`. -/
def indexes_within (lo hi : Int) (s : solution_t) : Prop := ∀ i ∈ s.indexes, lo ≤ i ∧ i ≤ hi

instance (lo hi : Int) (s : solution_t) : Decidable (indexes_within lo hi s) := by
  unfold indexes_within; infer_instance

/-- The bit `(addr >> i) & 1` of an address, as an element of `ZMod 2`. -/
def addr_bit (addr : Nat) (i : Int) : ZMod 2 := (((addr >>> i.toNat) &&& 1 : Nat) : ZMod 2)

/-- The XOR of the address bits selected by a list of indexes. -/
def eval_indexes (addr : Nat) (l : List Int) : ZMod 2 := (l.map (addr_bit addr)).sum

/-- The partition bit of a solution at an address: the value of the loop of
`get_partition_num`, which is 0 for a solution of depth 0. -/
def solution_bit (s : solution_t) (addr : Nat) : Option Nat :=
  get_partition_num_loop addr s.indexes 0

/-- The oracle of a ground-truth set of XOR functions: true exactly for the
address pairs on which every ground-truth function evaluates equally. -/
def ground_truth_oracle (truth : List solution_t) (a b : Nat) : Bool :=
  truth.all (fun f => decide (solution_bit f a = solution_bit f b))

/-- The allocator that never fails: no `push_back` on `perm_sarray` throws. -/
def enough_memory : Nat → Bool := fun _ => false

/-- The allocator that always fails: every `push_back` on `perm_sarray`
throws. -/
def no_memory : Nat → Bool := fun _ => true

/-- All XOR combinations of the non-empty subsets of a list of solutions, built
the way `hash_reduce` builds `perm_sarray` when no `push_back` throws. -/
def xor_span (l : List solution_t) : Option (List solution_t) :=
  l.foldlM (fun perm_sarray s => (add_solution_with_permuations enough_memory perm_sarray s).join) []

/-- The call of `hash_init` followed by `hash_find_solutions2` on the context
it returns. -/
def init_and_find (min_bit max_bit : Int) (start_addr end_addr : Nat)
    (check_partition_pair : Nat → Nat → Bool) (alloc_fails : Nat → Bool) :
    Option (Int × hash_context_t × List diagnostic) :=
  match hash_init min_bit max_bit start_addr end_addr with
  | none => none
  | some ctx => hash_find_solutions2 ctx check_partition_pair alloc_fails

/-- The oracle that answers true exactly on the listed address pairs. -/
def pair_list_oracle (pairs : List (Nat × Nat)) (a b : Nat) : Bool := decide ((a, b) ∈ pairs)

/-- The tuple after `a` in the lexicographic order of the strictly ascending
tuples with entries up to `hi`: the last entry that can grow, with the entries
after it following consecutively, is increased; `none` when no entry can. -/
def next_combination (hi : Int) : List Int → Option (List Int)
  | [] => none
  | c :: x =>
    match next_combination hi x with
    | some y => some (c :: y)
    | none => if c + ((x.length + 1 : Nat) : Int) ≤ hi then some (ramp (c + 1) (x.length + 1)) else none

/-- What the outer loop of `permute_hypothesis` computes from the counter `k` on:
the largest position below `k` whose entry can grow. -/
def outer_spec (hi : Int) (a : List Int) : Nat → Option (List Int)
  | 0 => none
  | k + 1 =>
    if a.getD k 0 + ((a.length - k : Nat) : Int) ≤ hi then
      some (a.take k ++ ramp (a.getD k 0 + 1) (a.length - k))
    else outer_spec hi a k

/-- The strictly ascending tuples of `d` integers in `[lo, lo + w - 1]`, in
lexicographic order. -/
def combinations : Nat → Int → Nat → List (List Int)
  | _, _, 0 => [[]]
  | 0, _, _ + 1 => []
  | w + 1, lo, d + 1 =>
    (combinations w (lo + 1) d).map (fun x => lo :: x) ++ combinations w (lo + 1) (d + 1)

/-- A solution gives the same partition bit on both addresses of every pair. -/
def consistent (keys : List (Nat × Nat)) (s : solution_t) : Prop :=
  ∀ p ∈ keys, eval_indexes p.1 s.indexes = eval_indexes p.2 s.indexes

instance (keys : List (Nat × Nat)) (s : solution_t) : Decidable (consistent keys s) := by
  unfold consistent; infer_instance

/-- The hypotheses of the depths `depth, depth + 1, ..` (`n` depths) over
`[lo, lo + w - 1]`, in the order of the loop of `find_new_solutions`. -/
def hypotheses_from (w : Nat) (lo : Int) : Nat → Nat → List (List Int)
  | 0, _ => []
  | n + 1, depth => combinations w lo depth ++ hypotheses_from w lo n (depth + 1)

/-- All hypotheses over `[lo, hi]`: the strictly ascending tuples of depth
`1 .. hi - lo + 1`, by depth and then in lexicographic order. -/
def all_hypotheses (lo hi : Int) : List solution_t :=
  (hypotheses_from (hi - lo + 1).toNat lo (hi - lo + 1).toNat 1).map solution_t.mk

/-- The XOR function of a solution as a vector over `ZMod 2`: coordinate `i` is
1 when the solution uses address bit `i`. -/
def solution_vec (s : solution_t) : Int → ZMod 2 := fun i => if i ∈ s.indexes then 1 else 0

/-- The XOR combination of a list of solutions, as a vector. -/
def xor_sum (l : List solution_t) : Int → ZMod 2 := (l.map solution_vec).sum

/-- Linear independence under XOR: no non-empty sublist XORs to the empty
solution. -/
def xor_independent (l : List solution_t) : Prop :=
  ∀ sub : List solution_t, sub.Sublist l → sub ≠ [] → xor_sum sub ≠ 0

/-- The solution `s` is the XOR combination of some of the solutions of `l`
(of none of them when `s` is empty). -/
def in_xor_span (l : List solution_t) (s : solution_t) : Prop :=
  ∃ sub : List solution_t, sub.Sublist l ∧ solution_vec s = xor_sum sub

/-- A well-formed solution over the bits `[lo, hi]`: strictly ascending
indexes, all within `[lo, hi]`. -/
def wf_solution (lo hi : Int) (s : solution_t) : Prop :=
  strictly_ascending s ∧ indexes_within lo hi s

instance (lo hi : Int) (s : solution_t) : Decidable (wf_solution lo hi s) := by
  unfold wf_solution; infer_instance

/-- The relation between `perm_sarray` and the solutions `K` admitted so far
in `hash_reduce`: `perm_sarray` holds exactly the non-empty XOR combinations
of `K`. -/
def perm_inv (lo hi : Int) (K perm : List solution_t) : Prop :=
  (∀ p ∈ perm, wf_solution lo hi p) ∧
  (∀ p, wf_solution lo hi p → (p ∈ perm ↔ (solution_vec p ≠ 0 ∧ in_xor_span K p)))

/-- The candidate extension number `i` of a list of solutions, from position
`j` on: `new_bit` is appended to the solution at position `j'` exactly when bit
`j'` of `i` is set. -/
def extend_from (new_bit : Int) (i : Nat) : Nat → List solution_t → List solution_t
  | _, [] => []
  | j, s :: rest =>
    (if i.testBit j then ⟨s.indexes ++ [new_bit]⟩ else s) :: extend_from new_bit i (j + 1) rest

/-- The bit `new_bit` can be inserted in the solution: it is not full, not
empty, and its last index is below `new_bit`. -/
def can_extend (new_bit : Int) (s : solution_t) : Prop :=
  s.depth ≠ MAX_NUM_INDEX ∧ ∃ last, s.indexes.getLast? = some last ∧ last < new_bit

/-- Every solution of a candidate is consistent with the keys. -/
def all_consistent (keys : List (Nat × Nat)) (c : List solution_t) : Prop :=
  ∀ s ∈ c, consistent keys s

instance (keys : List (Nat × Nat)) (c : List solution_t) : Decidable (all_consistent keys c) := by
  unfold all_consistent; infer_instance

/-- The solutions of a list can be evaluated: depth at least 1 and indexes in
`[0, 63]`. -/
def evaluable (c : List solution_t) : Prop :=
  ∀ s ∈ c, 1 ≤ s.depth ∧ indexes_within 0 63 s

/-- Two contexts agree on the bit range, the address range, the base address
and the solutions. -/
def same_setup (ctx ctx' : hash_context_t) : Prop :=
  ctx'.min_bit = ctx.min_bit ∧ ctx'.max_bit = ctx.max_bit ∧ ctx'.start_addr = ctx.start_addr ∧
    ctx'.end_addr = ctx.end_addr ∧ ctx'.base_addr = ctx.base_addr ∧ ctx'.solutions = ctx.solutions

/-- The addresses `first, first + stride, ..` up to `last` (at most `n` of
them): the test addresses of a sweep. -/
def probes (stride last : Nat) : Nat → Nat → List Nat
  | 0, _ => []
  | n + 1, t => if t ≤ last then t :: probes stride last n (t + stride) else []

/-- The pairs a sweep records: the test addresses the oracle confirms, each
paired with the base address. -/
def confirmed_pairs (check : Nat → Nat → Bool) (base : Nat) (tests : List Nat) : List (Nat × Nat) :=
  (tests.filter (fun t => check base t)).map (fun t => (base, t))

/-- The state of the solutions during step 2, when the bits up to `k` are
accounted for: well-formed over `[min_bit, k]`, of depth at least 1, fewer than
64. -/
def step2_wf (k : Int) (ctx : hash_context_t) : Prop :=
  (∀ s ∈ ctx.solutions, wf_solution ctx.min_bit k s ∧ 1 ≤ s.depth) ∧
    ctx.solutions.length < 64

/-- A context as `hash_init` returns it: `0 <= min_bit < max_bit < 64`, enough
address space, no keys and no solutions yet. -/
def fresh (ctx : hash_context_t) : Prop :=
  0 ≤ ctx.min_bit ∧ ctx.min_bit < ctx.max_bit ∧ ctx.max_bit ≤ 63 ∧
    ctx.start_addr < ctx.end_addr ∧ 2 ^ ctx.max_bit.toNat ≤ ctx.end_addr - ctx.start_addr ∧
    ctx.keys = [] ∧ ctx.solutions = []

/-- The last test address of step 1: `min(end_addr, 2^(end_bit+1) - 1)`. -/
def phase1_end_addr (ctx : hash_context_t) : Nat :=
  min ctx.end_addr (2 ^ (hash_find_solutions2_end_bit ctx + 1).toNat - 1)

/-- The test addresses of step 1: `start_addr, start_addr + 2^min_bit, ..` up
to `phase1_end_addr`. -/
def phase1_probes (ctx : hash_context_t) : List Nat :=
  probes (2 ^ ctx.min_bit.toNat) (phase1_end_addr ctx)
    (loop_fuel ctx.start_addr (phase1_end_addr ctx) (2 ^ ctx.min_bit.toNat)) ctx.start_addr

/-- The pairs that step 1 confirms. -/
def phase1_keys (ctx : hash_context_t) (check : Nat → Nat → Bool) : List (Nat × Nat) :=
  confirmed_pairs check ctx.start_addr (phase1_probes ctx)

/-- The hypotheses over `[min_bit, end_bit]` that are consistent with the pairs
of step 1, in the order of the enumeration. -/
def base_hypotheses (ctx : hash_context_t) (check : Nat → Nat → Bool) : List solution_t :=
  (all_hypotheses ctx.min_bit (hash_find_solutions2_end_bit ctx)).filter
    (fun s => decide (consistent (phase1_keys ctx check) s))

/-- The XOR combination of a non-empty list of solutions by iterated
`xor_solutions`: `xor(s1, xor(s2, .. ))`. -/
def xor_fold : List solution_t → Option solution_t
  | [] => some ⟨[]⟩
  | [s] => some s
  | s :: t :: rest =>
    match xor_fold (t :: rest) with
    | none => none
    | some r => xor_solutions s r

/-- The part of a solution on the bits up to `hi`. -/
def low_part (hi : Int) (s : solution_t) : solution_t :=
  ⟨s.indexes.filter (fun i => decide (i ≤ hi))⟩

/-- The part of a vector on the coordinates up to `hi`. -/
def vec_low (hi : Int) (v : Int → ZMod 2) : Int → ZMod 2 := fun i => if i ≤ hi then v i else 0

/-- The linear form of an index list on bit vectors: the sum of the selected
coordinates. -/
def index_form (l : List Int) : (Int → ZMod 2) →ₗ[ZMod 2] ZMod 2 :=
  (l.map (fun i => (LinearMap.proj i : (Int → ZMod 2) →ₗ[ZMod 2] ZMod 2))).sum

/-- The recorded pairs are confirmed by the oracle and use addresses below
`2^(k+1)`. -/
def keys_below (check : Nat → Nat → Bool) (k : Int) (keys : List (Nat × Nat)) : Prop :=
  ∀ p ∈ keys, check p.1 p.2 = true ∧ p.1 < 2 ^ (k + 1).toNat ∧ p.2 < 2 ^ (k + 1).toNat

/-- The setting in which the ground truth is recovered: a context as
`hash_init` returns it with `start_addr < 2^min_bit`, `max_bit <= 62` and
`end_addr >= start_addr + 2^(max_bit+1) - 2^min_bit`, and a non-empty set of
well-formed ground-truth functions whose parts on the bits up to `end_bit` are
linearly independent. -/
def recoverable (ctx : hash_context_t) (truth : List solution_t) : Prop :=
  fresh ctx ∧ ctx.start_addr < 2 ^ ctx.min_bit.toNat ∧ ctx.max_bit ≤ 62 ∧
    ctx.start_addr + 2 ^ (ctx.max_bit + 1).toNat ≤ ctx.end_addr + 2 ^ ctx.min_bit.toNat ∧
    truth ≠ [] ∧
    (∀ f ∈ truth, wf_solution ctx.min_bit ctx.max_bit f) ∧
    xor_independent (truth.map (low_part (hash_find_solutions2_end_bit ctx)))

/-- The calling protocol of `permute_hypothesis`: one call with `isfirst = 1`,
then calls with `isfirst = 0` on the same array until a negative value is
returned.  Gives the tuples that were produced, in order; the counter bounds
the number of calls. -/
def permute_hypothesis_all (size : Nat) (min_val max_val : Int) :
    Nat → List Int → Int → List (List Int) → Option (List (List Int))
  | 0, _, _, _ => none
  | fuel + 1, array, isfirst, produced =>
    match permute_hypothesis array size min_val max_val isfirst with
    | none => none
    | some (r, array') =>
      if r < 0 then some produced
      else permute_hypothesis_all size min_val max_val fuel array' 0 (produced ++ [array'])

/-- The candidates that are left when the probing loop of
`try_accomodate_new_bit` ends: the value of `all_new_solutions` after the
loop. -/
def try_accomodate_new_bit_candidates (ctx : hash_context_t) (new_bit : Int)
    (check_partition_pair : Nat → Nat → Bool) : Option (List (List solution_t)) :=
  if ¬ ctx.solutions.length < 64 then none
  else
    match try_accomodate_new_bit_permute ctx.solutions new_bit,
        shl1 (new_bit + 1), shl1 new_bit, shl1 ctx.min_bit with
    | some all_new_solutions, some span, some first, some stride =>
      (try_accomodate_new_bit_probe check_partition_pair
          (min ctx.end_addr ((ctx.start_addr + span) % WORD)) stride
          (loop_fuel ((ctx.start_addr + first) % WORD)
            (min ctx.end_addr ((ctx.start_addr + span) % WORD)) stride)
          { ctx with base_addr := ctx.start_addr, test_addr := (ctx.start_addr + first) % WORD }
          all_new_solutions).map (fun r => r.2)
    | _, _, _, _ => none

/-- The context `hash_init(6, 14, 0, 2^15)` of scenario E2. -/
def e2_ctx : hash_context_t :=
  { min_bit := 6, max_bit := 14, start_addr := 0, end_addr := 32768
    unexplored_bits := 0, global_unexplored_bits := 18446744073709551615
    cur_bit_to_explore := 0, is_valid_pair := false, test_addr := 0, base_addr := 0
    keys := [], solutions := [] }

/-- The context `hash_init(6, 8, 0, 512)`. -/
def example_ctx : hash_context_t :=
  { min_bit := 6, max_bit := 8, start_addr := 0, end_addr := 512
    unexplored_bits := 0, global_unexplored_bits := 18446744073709551615
    cur_bit_to_explore := 0, is_valid_pair := false, test_addr := 0, base_addr := 0
    keys := [], solutions := [] }

/-- The context after `hash_find_solutions2` on `example_ctx` with the oracle of
the ground truth `Bit(6) ^ Bit(8)`. -/
def example_final : hash_context_t :=
  { min_bit := 6, max_bit := 8, start_addr := 0, end_addr := 512
    unexplored_bits := 0, global_unexplored_bits := 18446744073709551167
    cur_bit_to_explore := 0, is_valid_pair := false, test_addr := 320, base_addr := 0
    keys := [(0, 0), (0, 128), (0, 320)], solutions := [⟨[6, 8]⟩] }

/-- The context that `hash_init(6, 10, 0, 2048)` returns. -/
def example2_ctx : hash_context_t :=
  { min_bit := 6, max_bit := 10, start_addr := 0, end_addr := 2048
    unexplored_bits := 0, global_unexplored_bits := 18446744073709551615
    cur_bit_to_explore := 0, is_valid_pair := false, test_addr := 0, base_addr := 0
    keys := [], solutions := [] }

/-- The context after `hash_find_solutions2` on `example2_ctx` with the oracle of
the ground truth `Bit(6)`, `Bit(7)`, when no allocation fails. -/
def example2_final : hash_context_t :=
  { example2_ctx with
    global_unexplored_bits := 18446744073709549823, test_addr := 1024
    keys := [(0, 0), (0, 256), (0, 512), (0, 1024)], solutions := [⟨[6]⟩, ⟨[7]⟩] }


/-! ## The merge of `xor_solutions` -/

theorem xor_loop_emit (a : Int) (m r : List Int) (next : List Int → Option (List Int))
    (hr : r.length < MAX_NUM_INDEX)
    (hrun : ∀ r' : List Int, r'.length < MAX_NUM_INDEX →
      next r' = if r'.length + m.length < MAX_NUM_INDEX then some (r' ++ m) else none) :
    (if (r ++ [a]).length < MAX_NUM_INDEX then next (r ++ [a]) else none) =
      if r.length + (a :: m).length < MAX_NUM_INDEX then some (r ++ a :: m) else none := by
  by_cases hk : (r ++ [a]).length < MAX_NUM_INDEX
  · rw [if_pos hk, hrun _ hk]
    simp only [List.length_append, List.length_cons, List.length_nil, List.append_assoc,
      List.singleton_append]
    congr 1
    simp only [eq_iff_iff]; omega
  · rw [if_neg hk]
    simp only [List.length_append, List.length_cons, List.length_nil] at hk ⊢
    rw [if_neg (by omega)]

theorem xor_solutions_loop_spec (fuel : Nat) :
    ∀ (l1 l2 : List Int), l1.Pairwise (· < ·) → l2.Pairwise (· < ·) →
      l1.length + l2.length ≤ fuel →
      ∃ m : List Int, m.Pairwise (· < ·) ∧ (∀ x, x ∈ m ↔ in_symm_diff x l1 l2) ∧
        ∀ r : List Int, r.length < MAX_NUM_INDEX →
          xor_solutions_loop fuel l1 l2 r =
            if r.length + m.length < MAX_NUM_INDEX then some (r ++ m) else none := by
  induction fuel with
  | zero =>
    intro l1 l2 h1 h2 hf
    have e1 : l1 = [] := List.length_eq_zero.mp (by omega)
    have e2 : l2 = [] := List.length_eq_zero.mp (by omega)
    subst e1 e2
    exact ⟨[], List.Pairwise.nil, by simp [in_symm_diff],
      fun r hr => by simp [xor_solutions_loop, hr]⟩
  | succ fuel ih =>
    intro l1 l2 h1 h2 hf
    match l1, l2, h1, h2, hf with
    | [], [], _, _, _ =>
      exact ⟨[], List.Pairwise.nil, by simp [in_symm_diff],
        fun r hr => by simp [xor_solutions_loop, hr]⟩
    | a :: t1, [], h1, h2, hf =>
      have h1' := List.pairwise_cons.mp h1
      obtain ⟨m, hm, hmem, hrun⟩ := ih t1 [] h1'.2 h2 (by simp at hf ⊢; omega)
      refine ⟨a :: m, List.pairwise_cons.mpr ⟨?_, hm⟩, ?_, fun r hr => ?_⟩
      · intro x hx
        have := (hmem x).mp hx
        simp [in_symm_diff] at this
        exact h1'.1 x this
      · intro x
        simp only [List.mem_cons, hmem, in_symm_diff, List.not_mem_nil, not_false_eq_true,
          and_true, false_and, or_false]
      · simp only [xor_solutions_loop]
        exact xor_loop_emit a m r _ hr hrun
    | [], b :: t2, h1, h2, hf =>
      have h2' := List.pairwise_cons.mp h2
      obtain ⟨m, hm, hmem, hrun⟩ := ih [] t2 h1 h2'.2 (by simp at hf ⊢; omega)
      refine ⟨b :: m, List.pairwise_cons.mpr ⟨?_, hm⟩, ?_, fun r hr => ?_⟩
      · intro x hx
        have := (hmem x).mp hx
        simp [in_symm_diff] at this
        exact h2'.1 x this
      · intro x
        simp only [List.mem_cons, hmem, in_symm_diff, List.not_mem_nil, not_false_eq_true,
          and_true, false_and, false_or]
      · simp only [xor_solutions_loop]
        exact xor_loop_emit b m r _ hr hrun
    | a :: t1, b :: t2, h1, h2, hf =>
      have h1' := List.pairwise_cons.mp h1
      have h2' := List.pairwise_cons.mp h2
      simp only [List.length_cons] at hf
      rcases lt_trichotomy a b with hab | hab | hab
      · obtain ⟨m, hm, hmem, hrun⟩ := ih t1 (b :: t2) h1'.2 h2 (by simp; omega)
        refine ⟨a :: m, List.pairwise_cons.mpr ⟨?_, hm⟩, ?_, fun r hr => ?_⟩
        · intro x hx
          rcases (hmem x).mp hx with ⟨h, -⟩ | ⟨h, -⟩
          · exact h1'.1 x h
          · rcases List.mem_cons.mp h with h | h
            · omega
            · have := h2'.1 x h; omega
        · intro x
          simp only [List.mem_cons, hmem, in_symm_diff]
          constructor
          · rintro (rfl | ⟨h, h'⟩ | ⟨h, h'⟩)
            · left
              refine ⟨Or.inl rfl, ?_⟩
              rintro (h | h)
              · omega
              · have := h2'.1 _ h; omega
            · exact Or.inl ⟨Or.inr h, h'⟩
            · right
              refine ⟨h, ?_⟩
              rintro (rfl | h'')
              · rcases h with h | h
                · omega
                · have := h2'.1 _ h; omega
              · exact h' h''
          · rintro (⟨h | h, h'⟩ | ⟨h, h'⟩)
            · exact Or.inl h
            · exact Or.inr (Or.inl ⟨h, h'⟩)
            · exact Or.inr (Or.inr ⟨h, fun h'' => h' (Or.inr h'')⟩)
        · simp only [xor_solutions_loop, if_pos hab]
          exact xor_loop_emit a m r _ hr hrun
      · subst hab
        obtain ⟨m, hm, hmem, hrun⟩ := ih t1 t2 h1'.2 h2'.2 (by omega)
        refine ⟨m, hm, ?_, fun r hr => ?_⟩
        · intro x
          simp only [hmem, in_symm_diff, List.mem_cons]
          constructor
          · rintro (⟨h, h'⟩ | ⟨h, h'⟩)
            · refine Or.inl ⟨Or.inr h, ?_⟩
              rintro (rfl | h'')
              · exact lt_irrefl _ (h1'.1 _ h)
              · exact h' h''
            · refine Or.inr ⟨Or.inr h, ?_⟩
              rintro (rfl | h'')
              · exact lt_irrefl _ (h2'.1 _ h)
              · exact h' h''
          · rintro (⟨h | h, h'⟩ | ⟨h | h, h'⟩)
            · exact absurd (Or.inl h) h'
            · exact Or.inl ⟨h, fun h'' => h' (Or.inr h'')⟩
            · exact absurd (Or.inl h) h'
            · exact Or.inr ⟨h, fun h'' => h' (Or.inr h'')⟩
        · simp only [xor_solutions_loop, lt_irrefl, if_false, gt_iff_lt, if_pos hr]
          exact hrun r hr
      · obtain ⟨m, hm, hmem, hrun⟩ := ih (a :: t1) t2 h1 h2'.2 (by simp; omega)
        refine ⟨b :: m, List.pairwise_cons.mpr ⟨?_, hm⟩, ?_, fun r hr => ?_⟩
        · intro x hx
          rcases (hmem x).mp hx with ⟨h, -⟩ | ⟨h, -⟩
          · rcases List.mem_cons.mp h with h | h
            · omega
            · have := h1'.1 x h; omega
          · exact h2'.1 x h
        · intro x
          simp only [List.mem_cons, hmem, in_symm_diff]
          constructor
          · rintro (rfl | ⟨h, h'⟩ | ⟨h, h'⟩)
            · right
              refine ⟨Or.inl rfl, ?_⟩
              rintro (h | h)
              · omega
              · have := h1'.1 _ h; omega
            · left
              refine ⟨h, ?_⟩
              rintro (rfl | h'')
              · rcases h with h | h
                · omega
                · have := h1'.1 _ h; omega
              · exact h' h''
            · exact Or.inr ⟨Or.inr h, h'⟩
          · rintro (⟨h, h'⟩ | ⟨h | h, h'⟩)
            · exact Or.inr (Or.inl ⟨h, fun h'' => h' (Or.inr h'')⟩)
            · exact Or.inl h
            · exact Or.inr (Or.inr ⟨h, h'⟩)
        · have hnab : ¬ a < b := by omega
          simp only [xor_solutions_loop, if_neg hnab, gt_iff_lt, if_pos hab]
          exact xor_loop_emit b m r _ hr hrun

theorem sorted_ext {l1 l2 : List Int} (h1 : l1.Pairwise (· < ·)) (h2 : l2.Pairwise (· < ·))
    (h : ∀ x, x ∈ l1 ↔ x ∈ l2) : l1 = l2 := by
  have n1 : l1.Nodup := h1.imp (fun hab => ne_of_lt hab)
  have n2 : l2.Nodup := h2.imp (fun hab => ne_of_lt hab)
  exact List.eq_of_perm_of_sorted ((List.perm_ext_iff_of_nodup n1 n2).mpr h) h1 h2

theorem xor_solutions_spec (s1 s2 : solution_t) (h1 : strictly_ascending s1)
    (h2 : strictly_ascending s2) :
    ∃ m : List Int, m.Pairwise (· < ·) ∧ (∀ x, x ∈ m ↔ in_symm_diff x s1.indexes s2.indexes) ∧
      xor_solutions s1 s2 = if m.length < MAX_NUM_INDEX then some ⟨m⟩ else none := by
  obtain ⟨m, hm, hmem, hrun⟩ :=
    xor_solutions_loop_spec (s1.depth + s2.depth) s1.indexes s2.indexes h1 h2 (le_refl _)
  refine ⟨m, hm, hmem, ?_⟩
  have := hrun [] (by simp [MAX_NUM_INDEX])
  simp only [xor_solutions, this, List.length_nil, zero_add, List.nil_append]
  split <;> rfl

theorem xor_solutions_some {s1 s2 r : solution_t} (h1 : strictly_ascending s1)
    (h2 : strictly_ascending s2) (h : xor_solutions s1 s2 = some r) :
    strictly_ascending r ∧ (∀ x, x ∈ r.indexes ↔ in_symm_diff x s1.indexes s2.indexes) ∧
      r.depth < MAX_NUM_INDEX := by
  obtain ⟨m, hm, hmem, hrun⟩ := xor_solutions_spec s1 s2 h1 h2
  rw [hrun] at h
  split at h
  · cases h
    exact ⟨hm, hmem, by assumption⟩
  · cases h

theorem are_solutions_same_loop_eq (l1 : List Int) :
    ∀ l2 : List Int, l1.length = l2.length → (are_solutions_same_loop l1 l2 = 1 ↔ l1 = l2) := by
  induction l1 with
  | nil => intro l2 h; cases l2 <;> simp_all [are_solutions_same_loop]
  | cons a t ih =>
    intro l2 h
    cases l2 with
    | nil => simp at h
    | cons b t2 =>
      simp only [List.length_cons, add_left_inj] at h
      by_cases hab : a = b
      · simp [are_solutions_same_loop, hab, ih t2 h]
      · simp [are_solutions_same_loop, hab]

theorem are_solutions_same_loop_cases (l1 l2 : List Int) :
    are_solutions_same_loop l1 l2 = 0 ∨ are_solutions_same_loop l1 l2 = 1 := by
  induction l1 generalizing l2 with
  | nil => right; cases l2 <;> simp [are_solutions_same_loop]
  | cons a t ih =>
    cases l2 with
    | nil => right; simp [are_solutions_same_loop]
    | cons b t2 =>
      by_cases hab : a = b
      · simpa [are_solutions_same_loop, hab] using ih t2
      · left; simp [are_solutions_same_loop, hab]

theorem are_solutions_same_eq_one (a b : solution_t) : are_solutions_same a b = 1 ↔ a = b := by
  unfold are_solutions_same
  by_cases h : a.depth = b.depth
  · simp only [ne_eq, h, not_true_eq_false, if_false]
    rw [are_solutions_same_loop_eq _ _ h]
    cases a; cases b; simp
  · have hne : a ≠ b := fun e => h (by rw [e])
    simp [h, hne]

theorem are_solutions_same_ne_zero (a b : solution_t) : are_solutions_same a b ≠ 0 ↔ a = b := by
  rw [← are_solutions_same_eq_one]
  unfold are_solutions_same
  split
  · simp
  · rcases are_solutions_same_loop_cases a.indexes b.indexes with h | h <;> simp [h]

theorem zmod2_add_self (x : ZMod 2) : x + x = 0 := by
  fin_cases x <;> rfl

theorem xor_bit_cast (p b : Nat) (hp : p ≤ 1) (hb : b ≤ 1) :
    p ^^^ b ≤ 1 ∧ ((p ^^^ b : Nat) : ZMod 2) = (p : ZMod 2) + (b : ZMod 2) := by
  have hp' : p = 0 ∨ p = 1 := by omega
  have hb' : b = 0 ∨ b = 1 := by omega
  rcases hp' with rfl | rfl <;> rcases hb' with rfl | rfl <;> decide

theorem bit_cast_inj (p q : Nat) (hp : p ≤ 1) (hq : q ≤ 1) :
    ((p : ZMod 2) = (q : ZMod 2)) ↔ p = q := by
  have hp' : p = 0 ∨ p = 1 := by omega
  have hq' : q = 0 ∨ q = 1 := by omega
  rcases hp' with rfl | rfl <;> rcases hq' with rfl | rfl <;> decide

theorem get_partition_num_loop_spec (key : Nat) (l : List Int) :
    ∀ p : Nat, p ≤ 1 → (∀ i ∈ l, 0 ≤ i ∧ i < 64) →
      ∃ q : Nat, q ≤ 1 ∧ get_partition_num_loop key l p = some q ∧
        (q : ZMod 2) = (p : ZMod 2) + eval_indexes key l := by
  induction l with
  | nil => intro p hp _; exact ⟨p, hp, rfl, by simp [eval_indexes]⟩
  | cons i t ih =>
    intro p hp hr
    have hi := hr i (List.mem_cons_self _ _)
    have hb : (key >>> i.toNat) &&& 1 ≤ 1 := Nat.and_le_right
    obtain ⟨hle, hcast⟩ := xor_bit_cast p _ hp hb
    obtain ⟨q, hq, hrun, hval⟩ := ih _ hle (fun j hj => hr j (List.mem_cons_of_mem _ hj))
    refine ⟨q, hq, ?_, ?_⟩
    · simp only [get_partition_num_loop, hi, and_self, if_true, hrun]
    · rw [hval, hcast]
      simp only [eval_indexes, List.map_cons, List.sum_cons, addr_bit]
      ring

theorem get_partition_num_loop_some (key : Nat) (l : List Int) :
    ∀ p q : Nat, get_partition_num_loop key l p = some q → ∀ i ∈ l, 0 ≤ i ∧ i < 64 := by
  induction l with
  | nil => intro p q _ i hi; cases hi
  | cons j t ih =>
    intro p q h i hi
    simp only [get_partition_num_loop] at h
    split at h
    · rcases List.mem_cons.mp hi with rfl | hi
      · assumption
      · exact ih _ _ h i hi
    · cases h

/-- In characteristic 2 the sum over a symmetric difference is the sum of the sums. -/
theorem sum_symm_diff {M : Type} [AddCommGroup M] (hM : ∀ x : M, x + x = 0) (f : Int → M)
    {l1 l2 m : List Int} (h1 : l1.Pairwise (· < ·)) (h2 : l2.Pairwise (· < ·))
    (hm : m.Pairwise (· < ·)) (hmem : ∀ x, x ∈ m ↔ in_symm_diff x l1 l2) :
    (m.map f).sum = (l1.map f).sum + (l2.map f).sum := by
  have n1 : l1.Nodup := h1.imp (fun hab => ne_of_lt hab)
  have n2 : l2.Nodup := h2.imp (fun hab => ne_of_lt hab)
  have nm : m.Nodup := hm.imp (fun hab => ne_of_lt hab)
  rw [← List.sum_toFinset f n1, ← List.sum_toFinset f n2, ← List.sum_toFinset f nm]
  have e : m.toFinset = (l1.toFinset \ l2.toFinset) ∪ (l2.toFinset \ l1.toFinset) := by
    ext x
    simp only [List.mem_toFinset, hmem, in_symm_diff, Finset.mem_union, Finset.mem_sdiff]
  rw [e, Finset.sum_union (by
    rw [Finset.disjoint_left]
    intro x hx hx'
    simp only [Finset.mem_sdiff] at hx hx'
    exact hx.2 hx'.1)]
  rw [← Finset.sum_inter_add_sum_diff l1.toFinset l2.toFinset f,
    ← Finset.sum_inter_add_sum_diff l2.toFinset l1.toFinset f, Finset.inter_comm l2.toFinset]
  have := hM (∑ x ∈ l1.toFinset ∩ l2.toFinset, f x)
  calc _ = (∑ x ∈ l1.toFinset ∩ l2.toFinset, f x + ∑ x ∈ l1.toFinset ∩ l2.toFinset, f x) +
        (∑ x ∈ l1.toFinset \ l2.toFinset, f x + ∑ x ∈ l2.toFinset \ l1.toFinset, f x) := by
        rw [this, zero_add]
    _ = _ := by abel

theorem xor_solutions_comm_aux (s1 s2 : solution_t) (h1 : strictly_ascending s1)
    (h2 : strictly_ascending s2) : xor_solutions s1 s2 = xor_solutions s2 s1 := by
  obtain ⟨m, hm, hmem, hrun⟩ := xor_solutions_spec s1 s2 h1 h2
  obtain ⟨m', hm', hmem', hrun'⟩ := xor_solutions_spec s2 s1 h2 h1
  have e : m = m' := sorted_ext hm hm' (fun x => by
    rw [hmem, hmem']; unfold in_symm_diff; tauto)
  rw [hrun, hrun', e]

theorem xor_solutions_self_aux (s : solution_t) (h : strictly_ascending s) :
    xor_solutions s s = some ⟨[]⟩ := by
  obtain ⟨m, hm, hmem, hrun⟩ := xor_solutions_spec s s h h
  have e : m = [] := by
    apply List.eq_nil_iff_forall_not_mem.mpr
    intro x hx
    have := (hmem x).mp hx
    unfold in_symm_diff at this
    tauto
  subst e
  rw [hrun]
  simp [MAX_NUM_INDEX]

theorem xor_solutions_produces (s1 s2 : solution_t) (h1 : strictly_ascending s1)
    (h2 : strictly_ascending s2) (hd : s1.depth + s2.depth < MAX_NUM_INDEX) :
    ∃ r, xor_solutions s1 s2 = some r ∧ r.depth ≤ s1.depth + s2.depth := by
  obtain ⟨m, hm, hmem, hrun⟩ := xor_solutions_spec s1 s2 h1 h2
  have nm : m.Nodup := hm.imp (fun hab => ne_of_lt hab)
  have hsub : m.length ≤ (s1.indexes ++ s2.indexes).length := by
    apply List.Subperm.length_le
    apply List.subperm_of_subset nm
    intro x hx
    rcases (hmem x).mp hx with h | h
    · exact List.mem_append_left _ h.1
    · exact List.mem_append_right _ h.1
  simp only [List.length_append] at hsub
  refine ⟨⟨m⟩, ?_, hsub⟩
  rw [hrun, if_pos]
  unfold solution_t.depth at hd
  omega

theorem symm_diff_card {l1 l2 m : List Int} (hm : m.Pairwise (· < ·))
    (hmem : ∀ x, x ∈ m ↔ in_symm_diff x l1 l2) :
    m.length = (symmDiff l1.toFinset l2.toFinset).card := by
  have nm : m.Nodup := hm.imp (fun hab => ne_of_lt hab)
  rw [← List.toFinset_card_of_nodup nm]
  congr 1
  ext x
  simp only [List.mem_toFinset, hmem, in_symm_diff, Finset.mem_symmDiff]

/-- The partition bit of the combination is the XOR of the partition bits,
whenever `xor_solutions` yields a solution. -/
theorem xor_solutions_bit (s1 s2 r : solution_t) (addr : Nat)
    (h1 : strictly_ascending s1) (h2 : strictly_ascending s2)
    (r1 : indexes_within 0 63 s1) (r2 : indexes_within 0 63 s2)
    (h : xor_solutions s1 s2 = some r) :
    ∃ b1 b2 : Nat, solution_bit s1 addr = some b1 ∧ solution_bit s2 addr = some b2 ∧
      solution_bit r addr = some (b1 ^^^ b2) := by
  obtain ⟨hr, hmem, -⟩ := xor_solutions_some h1 h2 h
  have r1' : ∀ i ∈ s1.indexes, 0 ≤ i ∧ i < 64 := fun i hi => ⟨(r1 i hi).1, by have := (r1 i hi).2; omega⟩
  have r2' : ∀ i ∈ s2.indexes, 0 ≤ i ∧ i < 64 := fun i hi => ⟨(r2 i hi).1, by have := (r2 i hi).2; omega⟩
  have rr : ∀ i ∈ r.indexes, 0 ≤ i ∧ i < 64 := by
    intro i hi
    rcases (hmem i).mp hi with h | h
    · exact r1' i h.1
    · exact r2' i h.1
  obtain ⟨b1, hb1, e1, v1⟩ := get_partition_num_loop_spec addr s1.indexes 0 (by omega) r1'
  obtain ⟨b2, hb2, e2, v2⟩ := get_partition_num_loop_spec addr s2.indexes 0 (by omega) r2'
  obtain ⟨b, hb, e, v⟩ := get_partition_num_loop_spec addr r.indexes 0 (by omega) rr
  refine ⟨b1, b2, e1, e2, ?_⟩
  unfold solution_bit
  rw [e]
  congr 1
  obtain ⟨hle, hcast⟩ := xor_bit_cast b1 b2 hb1 hb2
  apply (bit_cast_inj _ _ hb hle).mp
  rw [hcast, v, v1, v2]
  simp only [Nat.cast_zero, zero_add]
  exact sum_symm_diff zmod2_add_self (addr_bit addr) h1 h2 hr hmem


/-! ## The enumerator `permute_hypothesis` -/

theorem ramp_zero (v : Int) : ramp v 0 = [] := rfl

theorem ramp_succ (v : Int) (n : Nat) : ramp v (n + 1) = v :: ramp (v + 1) n := by
  unfold ramp
  rw [List.range_succ_eq_map]
  simp only [List.map_cons, List.map_map, Nat.cast_zero, add_zero, List.cons.injEq, true_and]
  apply List.map_congr_left
  intro i _
  simp only [Function.comp_apply, Nat.succ_eq_add_one, Nat.cast_add, Nat.cast_one]
  ring

theorem ramp_length (v : Int) (n : Nat) : (ramp v n).length = n := by
  simp [ramp]

theorem set_take_succ (arr : List Int) (i : Nat) (x : Int) (h : i < arr.length) :
    (arr.set i x).take (i + 1) = arr.take i ++ [x] := by
  rw [List.set_eq_take_append_cons_drop, if_pos h]
  rw [List.take_append_eq_append_take]
  simp [List.length_take, Nat.min_eq_left (Nat.le_of_lt h)]

theorem set_take_same (arr : List Int) (i : Nat) (x : Int) :
    (arr.set i x).take i = arr.take i := by
  rw [List.set_eq_take_append_cons_drop]
  split
  · rename_i h
    rw [List.take_append_eq_append_take]
    simp [List.length_take, Nat.min_eq_left (Nat.le_of_lt h)]
  · rfl

theorem permute_inner_spec (hi : Int) (hb : hi < INT_MAX) :
    ∀ (n i : Nat) (arr : List Int) (v : Int), 1 ≤ i → arr.length = i + n →
      arr[i - 1]? = some v → v + 1 ≤ INT_MAX →
      ∃ b arr', permute_hypothesis_inner hi n i arr = some (b, arr') ∧
        arr'.length = arr.length ∧ arr'.take i = arr.take i ∧
        (b = true ↔ (n = 0 ∨ v + (n : Int) ≤ hi)) ∧
        (b = true → arr' = arr.take i ++ ramp (v + 1) n) := by
  intro n
  induction n with
  | zero =>
    intro i arr v hi1 hlen hv _
    refine ⟨true, arr, rfl, rfl, rfl, by simp, fun _ => ?_⟩
    rw [ramp_zero, List.append_nil, List.take_of_length_le (by omega)]
  | succ n ih =>
    intro i arr v hi1 hlen hv hvb
    have hlt : i < arr.length := by omega
    have hov : ¬ v + 1 > INT_MAX := by omega
    simp only [permute_hypothesis_inner, hv, hlt, if_true, hov, if_false]
    by_cases hgt : v + 1 > hi
    · refine ⟨false, arr.set i (v + 1), by simp [hgt], by simp, set_take_same _ _ _, ?_, by simp⟩
      simp only [Bool.false_eq_true, Nat.add_one_ne_zero, false_or, false_iff, not_le]
      push_cast
      omega
    · have hv' : (arr.set i (v + 1))[i + 1 - 1]? = some (v + 1) := by
        simp [List.getElem?_set, hlt]
      obtain ⟨b, arr', hrun, hl, ht, hb, hr⟩ :=
        ih (i + 1) (arr.set i (v + 1)) (v + 1) (by omega) (by simp; omega) hv' (by omega)
      refine ⟨b, arr', by simp [hgt, hrun], by simpa using hl, ?_, ?_, ?_⟩
      · have := congrArg (List.take i) ht
        rw [List.take_take, List.take_take, Nat.min_eq_left (by omega), set_take_same] at this
        exact this
      · rw [hb]
        push_cast
        constructor
        · rintro (h | h)
          · right; subst h; simp; omega
          · right; omega
        · intro h
          rcases h with h | h
          · exact h.elim
          · right; omega
      · intro hbt
        rw [hr hbt, set_take_succ _ _ _ hlt, ramp_succ (v + 1) n, List.append_assoc]
        rfl

theorem permute_outer_spec (hi : Int) (a : List Int) :
    ∀ (k : Nat) (arr : List Int), k < a.length → arr.length = a.length →
      arr.take k = a.take k → (0 < k → hi < INT_MAX) →
      (∀ j, j < k → a.getD j 0 + 2 ≤ INT_MAX) →
      (∀ y, outer_spec hi a k = some y →
        permute_hypothesis_outer a.length hi k arr = some (0, y)) ∧
      (outer_spec hi a k = none →
        ∃ g, permute_hypothesis_outer a.length hi k arr = some (-1, g) ∧ g.length = a.length) := by
  intro k
  induction k with
  | zero =>
    intro arr _ hlen _ _ _
    exact ⟨fun y h => by simp [outer_spec] at h, fun _ => ⟨arr, rfl, hlen⟩⟩
  | succ k ih =>
    intro arr hk hlen htake hb hbound
    have hb' : hi < INT_MAX := hb (by omega)
    have hka : k < arr.length := by omega
    have hget : arr[k]? = a[k]? := by
      have := congrArg (fun l => l[k]?) htake
      simpa [List.getElem?_take] using this
    have hak : a[k]? = some (a.getD k 0) := by
      rw [List.getD_eq_getElem?_getD, List.getElem?_eq_getElem (by omega)]
      simp
    set v := a.getD k 0 with hv
    have hv' : (arr.set k (v + 1))[k + 1 - 1]? = some (v + 1) := by
      simp [List.getElem?_set, hka]
    have hvb : v + 2 ≤ INT_MAX := hbound k (by omega)
    have hov : ¬ v + 1 > INT_MAX := by omega
    obtain ⟨b, arr', hrun, hl, ht, hb, hr⟩ :=
      permute_inner_spec hi hb' (a.length - (k + 1)) (k + 1) (arr.set k (v + 1)) (v + 1)
        (by omega) (by simp; omega) hv' (by omega)
    have hcond : (b = true) ↔ v + ((a.length - k : Nat) : Int) ≤ hi := by
      rw [hb]
      have e : ((a.length - k : Nat) : Int) = ((a.length - (k + 1) : Nat) : Int) + 1 := by
        omega
      rw [e]
      constructor
      · rintro (h | h)
        · omega
        · omega
      · intro h; right; omega
    have hrec := ih arr' (by omega) (by rw [hl]; simp [hlen]) (by
      have h1 := congrArg (List.take k) ht
      rw [List.take_take, List.take_take, Nat.min_eq_left (by omega), set_take_same] at h1
      have h3 := congrArg (List.take k) htake
      rw [List.take_take, List.take_take, Nat.min_eq_left (by omega)] at h3
      rw [h1, h3]) (fun _ => hb') (fun j hj => hbound j (by omega))
    have hstep : permute_hypothesis_outer a.length hi (k + 1) arr =
        if b then some (0, arr') else permute_hypothesis_outer a.length hi k arr' := by
      simp only [permute_hypothesis_outer, hget, hak, hov, if_false, hrun]
    constructor
    · intro y hy
      simp only [outer_spec] at hy
      rw [hstep]
      by_cases hc : v + ((a.length - k : Nat) : Int) ≤ hi
      · rw [← hv, if_pos hc] at hy
        cases hy
        have hbt := hcond.mpr hc
        rw [hbt, if_pos rfl, hr hbt, set_take_succ _ _ _ hka]
        have h3 := congrArg (List.take k) htake
        rw [List.take_take, List.take_take, Nat.min_eq_left (by omega)] at h3
        have e : a.length - k = (a.length - (k + 1)) + 1 := by omega
        rw [e, ramp_succ, h3, List.append_assoc]
        rfl
      · rw [← hv, if_neg hc] at hy
        have hbf : b = false := by
          cases b
          · rfl
          · exact absurd (hcond.mp rfl) hc
        rw [hbf]
        simpa using hrec.1 y hy
    · intro hn
      simp only [outer_spec] at hn
      rw [hstep]
      by_cases hc : v + ((a.length - k : Nat) : Int) ≤ hi
      · rw [← hv, if_pos hc] at hn
        cases hn
      · rw [← hv, if_neg hc] at hn
        have hbf : b = false := by
          cases b
          · rfl
          · exact absurd (hcond.mp rfl) hc
        rw [hbf]
        simpa using hrec.2 hn

theorem outer_spec_cons (hi : Int) (c : Int) (x : List Int) :
    ∀ k, k ≤ x.length →
      outer_spec hi (c :: x) (k + 1) =
        match outer_spec hi x k with
        | some y => some (c :: y)
        | none =>
          if c + ((x.length + 1 : Nat) : Int) ≤ hi then some (ramp (c + 1) (x.length + 1))
          else none := by
  intro k
  induction k with
  | zero =>
    intro _
    simp [outer_spec]
  | succ k ih =>
    intro hk
    rw [outer_spec]
    conv_rhs => rw [outer_spec]
    have e1 : (c :: x).getD (k + 1) 0 = x.getD k 0 := by simp
    have e2 : (c :: x).length - (k + 1) = x.length - k := by simp
    rw [e1, e2]
    by_cases hc : x.getD k 0 + ((x.length - k : Nat) : Int) ≤ hi
    · simp only [hc, if_true, List.take_succ_cons, List.cons_append]
    · simp only [hc, if_false]
      exact ih (by omega)

theorem outer_spec_eq_next (hi : Int) (a : List Int) :
    outer_spec hi a a.length = next_combination hi a := by
  induction a with
  | nil => rfl
  | cons c x ih =>
    rw [List.length_cons, outer_spec_cons hi c x x.length (le_refl _), ih, next_combination]

theorem permute_hypothesis_spec (a : List Int) (lo hi : Int) (ha : 1 ≤ a.length)
    (hb : 1 < a.length → hi < INT_MAX)
    (hbound : ∀ j, j < a.length - 1 → a.getD j 0 + 2 ≤ INT_MAX) :
    (∀ y, next_combination hi a = some y →
      permute_hypothesis a a.length lo hi 0 = some (0, y)) ∧
    (next_combination hi a = none →
      ∃ g, permute_hypothesis a a.length lo hi 0 = some (-1, g)) := by
  rw [← outer_spec_eq_next]
  have hlast : a[a.length - 1]? = some (a.getD (a.length - 1) 0) := by
    rw [List.getD_eq_getElem?_getD, List.getElem?_eq_getElem (by omega)]
    simp
  set last := a.getD (a.length - 1) 0 with hl
  have hsz : ¬ a.length < 1 := by omega
  have hunf : permute_hypothesis a a.length lo hi 0 =
      if last < hi then some (0, a.set (a.length - 1) (last + 1))
      else permute_hypothesis_outer a.length hi (a.length - 1) a := by
    simp only [permute_hypothesis, hsz, if_false, ne_eq, not_true_eq_false, hlast]
  have hos : outer_spec hi a a.length =
      if last < hi then some (a.set (a.length - 1) (last + 1))
      else outer_spec hi a (a.length - 1) := by
    obtain ⟨n, hn⟩ : ∃ n, a.length = n + 1 := ⟨a.length - 1, by omega⟩
    have hl' : last = a.getD n 0 := by rw [hl, hn]; rfl
    rw [hn, outer_spec, ← hn]
    have e : a.length - n = 1 := by omega
    have e' : a.length - 1 = n := by omega
    rw [e, ← hl', e']
    by_cases hc : last < hi
    · have hc' : last + ((1 : Nat) : Int) ≤ hi := by push_cast; omega
      rw [if_pos hc', if_pos hc]
      congr 1
      rw [List.set_eq_take_append_cons_drop, if_pos (by omega)]
      rw [List.drop_of_length_le (by omega), ramp_succ, ramp_zero]
    · have hc' : ¬ last + ((1 : Nat) : Int) ≤ hi := by push_cast; omega
      rw [if_neg hc', if_neg hc]
  rw [hunf, hos]
  by_cases hc : last < hi
  · simp only [hc, if_true]
    exact ⟨fun y hy => by cases hy; rfl, fun h => by cases h⟩
  · simp only [hc, if_false]
    obtain ⟨h1, h2⟩ := permute_outer_spec hi a (a.length - 1) a (by omega) rfl rfl
      (fun h => hb (by omega)) hbound
    exact ⟨h1, fun hn => by obtain ⟨g, hg, -⟩ := h2 hn; exact ⟨g, hg⟩⟩

theorem getD_le_of_forall_le {x : List Int} {B : Int} (hle : ∀ i ∈ x, i ≤ B) (j : Nat)
    (hj : j < x.length) : x.getD j 0 ≤ B := by
  rw [List.getD_eq_getElem?_getD, List.getElem?_eq_getElem hj]
  exact hle _ (List.getElem_mem _)

/-- In a strictly ascending tuple with entries up to `hi`, every entry but the
last is below `hi`. -/
theorem getD_lt_of_ascending {x : List Int} {hi : Int} (hp : x.Pairwise (· < ·))
    (hle : ∀ i ∈ x, i ≤ hi) (j : Nat) (hj : j < x.length - 1) : x.getD j 0 + 1 ≤ hi := by
  have hj1 : j < x.length := by omega
  have hj2 : j + 1 < x.length := by omega
  rw [List.getD_eq_getElem?_getD, List.getElem?_eq_getElem hj1]
  have h1 : x[j] < x[j + 1] := List.pairwise_iff_getElem.mp hp j (j + 1) hj1 hj2 (by omega)
  have h2 : x[j + 1] ≤ hi := hle _ (List.getElem_mem _)
  simp only [Option.getD_some]
  omega

theorem combinations_zero (w : Nat) (lo : Int) : combinations w lo 0 = [[]] := by
  cases w <;> rfl

theorem combinations_chain (w : Nat) :
    ∀ (lo : Int) (d : Nat),
      List.Chain' (fun x y => next_combination (lo + w - 1) x = some y) (combinations w lo d) ∧
      (∀ z ∈ (combinations w lo d).getLast?, next_combination (lo + w - 1) z = none) ∧
      (combinations w lo d).head? = (if d ≤ w then some (ramp lo d) else none) ∧
      (∀ x ∈ combinations w lo d, x.length = d) := by
  induction w with
  | zero =>
    intro lo d
    cases d with
    | zero => simp [combinations, next_combination, ramp_zero]
    | succ d => simp [combinations]
  | succ w ih =>
    intro lo d
    cases d with
    | zero => simp [combinations, next_combination, ramp_zero]
    | succ d =>
      obtain ⟨cF, lF, hF, nF⟩ := ih (lo + 1) d
      obtain ⟨cG, lG, hG, nG⟩ := ih (lo + 1) (d + 1)
      have ehi : lo + 1 + (w : Int) - 1 = lo + ((w + 1 : Nat) : Int) - 1 := by push_cast; ring
      rw [ehi] at cF lF cG lG
      set hi := lo + ((w + 1 : Nat) : Int) - 1 with hhi
      simp only [combinations]
      refine ⟨?_, ?_, ?_, ?_⟩
      · apply List.Chain'.append
        · rw [List.chain'_map]
          refine cF.imp ?_
          intro x y hxy
          simp only [next_combination, hxy]
        · exact cG
        · intro x hx y hy
          rw [List.getLast?_map] at hx
          simp only [Option.mem_def, Option.map_eq_some'] at hx
          obtain ⟨z, hz, rfl⟩ := hx
          have hzn := lF z hz
          have hzl := nF z (List.mem_of_mem_getLast? hz)
          rw [hG] at hy
          split at hy
          · rename_i hdw
            cases hy
            simp only [next_combination, hzn, hzl]
            rw [if_pos (by rw [hhi]; push_cast; omega)]
          · cases hy
      · intro z hz
        rw [List.getLast?_append] at hz
        by_cases hdw : d + 1 ≤ w
        · have hne : (combinations w (lo + 1) (d + 1)).getLast? ≠ none := by
            rw [ne_eq, List.getLast?_eq_none_iff, ← List.head?_eq_none_iff, hG, if_pos hdw]
            simp
          obtain ⟨g, hg⟩ := Option.ne_none_iff_exists'.mp hne
          rw [hg] at hz
          simp only [Option.or_some, Option.mem_def, Option.some.injEq] at hz
          subst hz
          exact lG g hg
        · have he : (combinations w (lo + 1) (d + 1)).getLast? = none := by
            rw [List.getLast?_eq_none_iff, ← List.head?_eq_none_iff, hG, if_neg hdw]
          rw [he, List.getLast?_map] at hz
          simp only [Option.none_or, Option.mem_def, Option.map_eq_some'] at hz
          obtain ⟨y, hy, rfl⟩ := hz
          have hyn := lF y hy
          have hyl := nF y (List.mem_of_mem_getLast? hy)
          simp only [next_combination, hyn, hyl]
          rw [if_neg (by rw [hhi]; push_cast; omega)]
      · rw [List.head?_append, List.head?_map, hF, hG]
        by_cases h1 : d ≤ w
        · simp [h1, ramp_succ]
        · have h2 : ¬ d + 1 ≤ w := by omega
          simp [h1, h2]
      · intro x hx
        rcases List.mem_append.mp hx with h | h
        · obtain ⟨y, hy, rfl⟩ := List.mem_map.mp h
          simp [nF y hy]
        · exact nG x h

theorem combinations_length_lt (w : Nat) :
    ∀ (lo : Int) (d : Nat),
      (combinations w lo d).length ≤ 2 ^ w ∧ (1 ≤ d → (combinations w lo d).length + 1 ≤ 2 ^ w) := by
  induction w with
  | zero =>
    intro lo d
    cases d <;> simp [combinations]
  | succ w ih =>
    intro lo d
    cases d with
    | zero =>
      simp only [combinations, List.length_singleton, Nat.lt_irrefl, false_implies, and_true,
        nonpos_iff_eq_zero, one_ne_zero]
      exact Nat.one_le_two_pow
    | succ d =>
      have h1 := (ih (lo + 1) d).1
      have h2 := (ih (lo + 1) (d + 1)).2 (by omega)
      simp only [combinations, List.length_append, List.length_map]
      rw [pow_succ]
      omega

theorem combinations_mem (w : Nat) :
    ∀ (lo : Int) (d : Nat) (x : List Int),
      x ∈ combinations w lo d ↔
        (x.Pairwise (· < ·) ∧ x.length = d ∧ ∀ i ∈ x, lo ≤ i ∧ i < lo + w) := by
  induction w with
  | zero =>
    intro lo d x
    cases d with
    | zero =>
      simp only [combinations, List.mem_singleton]
      constructor
      · rintro rfl; simp
      · rintro ⟨-, h, -⟩; exact List.length_eq_zero.mp h
    | succ d =>
      simp only [combinations, List.not_mem_nil, false_iff, not_and]
      intro _ hl hr
      cases x with
      | nil => simp at hl
      | cons a t =>
        have := hr a (List.mem_cons_self _ _)
        simp at this
        omega
  | succ w ih =>
    intro lo d x
    cases d with
    | zero =>
      simp only [combinations, List.mem_singleton]
      constructor
      · rintro rfl; simp
      · rintro ⟨-, h, -⟩; exact List.length_eq_zero.mp h
    | succ d =>
      simp only [combinations, List.mem_append, List.mem_map, ih]
      constructor
      · rintro (⟨y, ⟨hp, hl, hr⟩, rfl⟩ | ⟨hp, hl, hr⟩)
        · refine ⟨List.pairwise_cons.mpr ⟨fun i hi => by have := hr i hi; omega, hp⟩, by simp [hl], ?_⟩
          intro i hi
          rcases List.mem_cons.mp hi with rfl | hi
          · push_cast; omega
          · have := hr i hi; push_cast; omega
        · exact ⟨hp, hl, fun i hi => by have := hr i hi; push_cast; omega⟩
      · rintro ⟨hp, hl, hr⟩
        cases x with
        | nil => simp at hl
        | cons a t =>
          have hp' := List.pairwise_cons.mp hp
          have ha := hr a (List.mem_cons_self _ _)
          by_cases hlo : a = lo
          · left
            refine ⟨t, ⟨hp'.2, by simpa using hl, fun i hi => ?_⟩, by rw [hlo]⟩
            have h1 := hp'.1 i hi
            have h2 := hr i (List.mem_cons_of_mem _ hi)
            push_cast at h2
            omega
          · right
            refine ⟨hp, hl, fun i hi => ?_⟩
            have h2 := hr i hi
            push_cast at h2
            rcases List.mem_cons.mp hi with rfl | hi'
            · omega
            · have h1 := hp'.1 i hi'; omega

/-! ## The consistency check and `find_new_solutions` -/

theorem get_partition_num_spec (key : Nat) (s : solution_t) (hd : 1 ≤ s.depth)
    (hr : indexes_within 0 63 s) :
    ∃ q : Nat, q ≤ 1 ∧ get_partition_num key s = some q ∧
      (q : ZMod 2) = eval_indexes key s.indexes := by
  obtain ⟨q, hq, hrun, hv⟩ := get_partition_num_loop_spec key s.indexes 0 (by omega)
    (fun i hi => ⟨(hr i hi).1, by have := (hr i hi).2; omega⟩)
  refine ⟨q, hq, ?_, by simpa using hv⟩
  unfold get_partition_num
  rw [if_pos (by omega), hrun]

theorem is_solution_correct_loop_spec (s : solution_t) (hd : 1 ≤ s.depth)
    (hr : indexes_within 0 63 s) (keys : List (Nat × Nat)) :
    is_solution_correct_loop s keys = some (decide (consistent keys s)) := by
  induction keys with
  | nil => simp [is_solution_correct_loop, consistent]
  | cons p rest ih =>
    obtain ⟨k1, k2⟩ := p
    obtain ⟨q1, hq1, e1, v1⟩ := get_partition_num_spec k1 s hd hr
    obtain ⟨q2, hq2, e2, v2⟩ := get_partition_num_spec k2 s hd hr
    simp only [is_solution_correct_loop, e1, e2]
    have hiff : q1 = q2 ↔ eval_indexes k1 s.indexes = eval_indexes k2 s.indexes := by
      rw [← v1, ← v2]
      exact (bit_cast_inj q1 q2 hq1 hq2).symm
    by_cases h : q1 = q2
    · simp only [ne_eq, h, not_true_eq_false, if_false, ih]
      congr 1
      simp only [consistent, List.mem_cons, forall_eq_or_imp, decide_eq_decide]
      constructor
      · intro hc; exact ⟨hiff.mp h, hc⟩
      · intro hc; exact hc.2
    · simp only [ne_eq, h, not_false_eq_true, if_true]
      congr 1
      symm
      simp only [consistent, List.mem_cons, forall_eq_or_imp, decide_eq_false_iff_not, not_and]
      intro hc
      exact absurd (hiff.mpr hc) h

theorem is_solution_correct_spec (keys : List (Nat × Nat)) (s : solution_t) (hd : 1 ≤ s.depth)
    (hr : indexes_within 0 63 s) :
    is_solution_correct keys s = some (decide (consistent keys s)) := by
  unfold is_solution_correct
  rw [if_pos (by omega)]
  exact is_solution_correct_loop_spec s hd hr keys

/-- The solutions among `L` that are consistent with the keys. -/
theorem find_new_solutions_while_rest (keys : List (Nat × Nat)) (lo hi : Int) (d : Nat)
    (hd : 1 ≤ d) (hhi : hi ≤ 63) :
    ∀ (L : List (List Int)) (fuel : Nat) (arr : List Int) (solutions : List solution_t)
      (found : Int),
      List.Chain' (fun x y => next_combination hi x = some y) (arr :: L) →
      (∀ z ∈ (arr :: L).getLast?, next_combination hi z = none) →
      (∀ x ∈ arr :: L, x.length = d) →
      (∀ x ∈ L, indexes_within 0 63 ⟨x⟩) →
      (∀ i ∈ arr, i ≤ 63) →
      L.length + 1 ≤ fuel →
      find_new_solutions_while keys lo hi d fuel arr 0 solutions found =
        some (solutions ++ (L.map solution_t.mk).filter (fun s => decide (consistent keys s)),
          found + (((L.map solution_t.mk).filter (fun s => decide (consistent keys s))).length : Int)) := by
  intro L
  induction L with
  | nil =>
    intro fuel arr solutions found _ hlast hlen _ harr hfuel
    obtain ⟨f, rfl⟩ : ∃ f, fuel = f + 1 := ⟨fuel - 1, by simp at hfuel; omega⟩
    have hal : arr.length = d := hlen arr (List.mem_cons_self _ _)
    have hn := hlast arr (by simp)
    obtain ⟨g, hg⟩ := (permute_hypothesis_spec arr lo hi (by omega)
      (fun _ => by unfold INT_MAX; omega)
      (fun j hj => by
        have := getD_le_of_forall_le harr j (by omega)
        unfold INT_MAX; omega)).2 hn
    rw [hal] at hg
    simp [find_new_solutions_while, hg]
  | cons x L ih =>
    intro fuel arr solutions found hchain hlast hlen hrange harr hfuel
    obtain ⟨f, rfl⟩ : ∃ f, fuel = f + 1 := ⟨fuel - 1, by simp at hfuel; omega⟩
    have hal : arr.length = d := hlen arr (List.mem_cons_self _ _)
    have hxl : x.length = d := hlen x (by simp)
    rw [List.chain'_cons] at hchain
    have hg := (permute_hypothesis_spec arr lo hi (by omega)
      (fun _ => by unfold INT_MAX; omega)
      (fun j hj => by
        have := getD_le_of_forall_le harr j (by omega)
        unfold INT_MAX; omega)).1 x hchain.1
    rw [hal] at hg
    have hcor := is_solution_correct_spec keys ⟨x⟩ (by unfold solution_t.depth; simp; omega)
      (hrange x (List.mem_cons_self _ _))
    have hrec := fun sols fnd => ih f x sols fnd hchain.2
      (by intro z hz; exact hlast z (by rw [List.getLast?_cons_cons]; exact hz))
      (fun y hy => hlen y (List.mem_cons_of_mem _ hy))
      (fun y hy => hrange y (List.mem_cons_of_mem _ hy))
      (fun i hi' => (hrange x (List.mem_cons_self _ _) i hi').2)
      (by simp at hfuel ⊢; omega)
    simp only [find_new_solutions_while, hg, hcor]
    by_cases hc : consistent keys ⟨x⟩
    · simp only [hc, decide_True, if_true, Int.reduceNeg, Left.neg_neg_iff, Int.lt_irrefl,
        if_false, lt_self_iff_false]
      rw [hrec]
      simp only [List.map_cons, List.filter_cons, hc, decide_True, if_true, List.append_assoc,
        List.singleton_append, List.length_cons, Nat.cast_add, Nat.cast_one]
      congr 2
      ring
    · simp only [hc, decide_False, Bool.false_eq_true, if_false, lt_self_iff_false]
      rw [hrec]
      simp only [List.map_cons, List.filter_cons, hc, decide_False, Bool.false_eq_true, if_false]

theorem find_new_solutions_while_first (keys : List (Nat × Nat)) (lo : Int) (w d : Nat)
    (hd : 1 ≤ d) (hdw : d ≤ w) (hlo : 0 ≤ lo) (hhi : lo + w - 1 ≤ 63)
    (solutions : List solution_t) (found : Int) :
    find_new_solutions_while keys lo (lo + w - 1) d (2 ^ w) (List.replicate d 0) 1 solutions found =
      some (solutions ++
          ((combinations w lo d).map solution_t.mk).filter (fun s => decide (consistent keys s)),
        found + ((((combinations w lo d).map solution_t.mk).filter
          (fun s => decide (consistent keys s))).length : Int)) := by
  obtain ⟨hchain, hlast, hhead, hlen⟩ := combinations_chain w lo d
  rw [if_pos hdw] at hhead
  obtain ⟨L, hL⟩ : ∃ L, combinations w lo d = ramp lo d :: L := by
    cases h : combinations w lo d with
    | nil => rw [h] at hhead; cases hhead
    | cons a L => rw [h] at hhead; simp at hhead; exact ⟨L, by rw [hhead]⟩
  have hfuel := (combinations_length_lt w lo d).2 hd
  have hrange : ∀ x ∈ combinations w lo d, indexes_within 0 63 ⟨x⟩ := by
    intro x hx i hi
    have := ((combinations_mem w lo d x).mp hx).2.2 i hi
    constructor <;> omega
  rw [hL] at hchain hlast hlen hfuel hrange
  obtain ⟨f, hf⟩ : ∃ f, 2 ^ w = f + 1 := ⟨2 ^ w - 1, by have := Nat.one_le_two_pow (n := w); omega⟩
  have hperm : permute_hypothesis (List.replicate d 0) d lo (lo + w - 1) 1 =
      some (0, ramp lo d) := by
    unfold permute_hypothesis
    rw [if_neg (by omega), if_neg (by simp), if_pos (by decide), if_pos (by omega)]
  have hcor := is_solution_correct_spec keys ⟨ramp lo d⟩
    (by unfold solution_t.depth; simp [ramp_length]; omega) (hrange _ (List.mem_cons_self _ _))
  have hrec := fun sols fnd => find_new_solutions_while_rest keys lo (lo + w - 1) d hd hhi L f
    (ramp lo d) sols fnd hchain hlast hlen
    (fun y hy => hrange y (List.mem_cons_of_mem _ hy))
    (fun i hi' => (hrange _ (List.mem_cons_self _ _) i hi').2)
    (by simp at hfuel; omega)
  rw [hf, hL]
  simp only [find_new_solutions_while, hperm, hcor]
  by_cases hc : consistent keys ⟨ramp lo d⟩
  · simp only [hc, decide_True, if_true, lt_self_iff_false, if_false]
    rw [hrec]
    simp only [List.map_cons, List.filter_cons, hc, decide_True, if_true, List.append_assoc,
      List.singleton_append, List.length_cons, Nat.cast_add, Nat.cast_one]
    congr 2
    ring
  · simp only [hc, decide_False, Bool.false_eq_true, if_false, lt_self_iff_false]
    rw [hrec]
    simp only [List.map_cons, List.filter_cons, hc, decide_False, Bool.false_eq_true, if_false]

theorem find_new_solutions_for_spec (keys : List (Nat × Nat)) (lo : Int) (w : Nat)
    (hlo : 0 ≤ lo) (hhi : lo + w - 1 ≤ 63) :
    ∀ (n depth : Nat) (solutions : List solution_t) (found : Int),
      1 ≤ depth → depth + n = w + 1 →
      find_new_solutions_for keys lo (lo + w - 1) n depth solutions found =
        some (solutions ++ ((hypotheses_from w lo n depth).map solution_t.mk).filter
            (fun s => decide (consistent keys s)),
          found + ((((hypotheses_from w lo n depth).map solution_t.mk).filter
            (fun s => decide (consistent keys s))).length : Int)) := by
  intro n
  induction n with
  | zero =>
    intro depth solutions found _ _
    simp [find_new_solutions_for, hypotheses_from]
  | succ n ih =>
    intro depth solutions found hd hsum
    have hw : (lo + w - 1 - lo + 1).toNat = w := by
      have : lo + (w : Int) - 1 - lo + 1 = (w : Int) := by ring
      rw [this]; simp
    simp only [find_new_solutions_for, hw]
    rw [find_new_solutions_while_first keys lo w depth hd (by omega) hlo hhi]
    simp only []
    rw [ih (depth + 1) _ _ (by omega) (by omega)]
    simp only [hypotheses_from, List.map_append, List.filter_append, List.append_assoc,
      List.length_append, Nat.cast_add]
    congr 2
    ring

/-- The result of `find_new_solutions` on an empty output list: the
hypotheses over `[min_bit, max_bit]` that are consistent with the keys, in the
order of the enumeration, and their number. -/
theorem find_new_solutions_spec (keys : List (Nat × Nat)) (lo hi : Int)
    (hlo : 0 ≤ lo) (hle : lo ≤ hi) (hhi : hi ≤ 63) :
    find_new_solutions keys lo hi [] =
      some ((all_hypotheses lo hi).filter (fun s => decide (consistent keys s)),
        (((all_hypotheses lo hi).filter (fun s => decide (consistent keys s))).length : Int)) := by
  have hw : hi = lo + ((hi - lo + 1).toNat : Int) - 1 := by
    rw [Int.toNat_of_nonneg (by omega)]; ring
  unfold find_new_solutions all_hypotheses
  simp only [List.length_nil, ne_eq, not_true_eq_false, if_false]
  have := find_new_solutions_for_spec keys lo (hi - lo + 1).toNat hlo (by omega)
    (hi - lo + 1).toNat 1 [] 0 (le_refl _) (by omega)
  rw [← hw] at this
  rw [this]
  simp

theorem mem_hypotheses_from (w : Nat) (lo : Int) (x : List Int) :
    ∀ (n depth : Nat), x ∈ hypotheses_from w lo n depth ↔
      (depth ≤ x.length ∧ x.length < depth + n ∧ x ∈ combinations w lo x.length) := by
  intro n
  induction n with
  | zero => intro depth; simp [hypotheses_from]; omega
  | succ n ih =>
    intro depth
    simp only [hypotheses_from, List.mem_append, ih]
    constructor
    · rintro (h | ⟨h1, h2, h3⟩)
      · have := ((combinations_mem w lo depth x).mp h).2.1
        rw [this]
        exact ⟨le_refl _, by omega, h⟩
      · exact ⟨by omega, by omega, h3⟩
    · rintro ⟨h1, h2, h3⟩
      by_cases he : x.length = depth
      · left; rw [← he]; exact h3
      · right; exact ⟨by omega, by omega, h3⟩

theorem mem_all_hypotheses (lo hi : Int) (hle : lo ≤ hi) (s : solution_t) :
    s ∈ all_hypotheses lo hi ↔ (strictly_ascending s ∧ 1 ≤ s.depth ∧ indexes_within lo hi s) := by
  have hw : ((hi - lo + 1).toNat : Int) = hi - lo + 1 := Int.toNat_of_nonneg (by omega)
  unfold all_hypotheses
  rw [List.mem_map]
  constructor
  · rintro ⟨x, hx, rfl⟩
    obtain ⟨h1, h2, h3⟩ := (mem_hypotheses_from _ _ _ _ _).mp hx
    obtain ⟨hp, -, hr⟩ := (combinations_mem _ _ _ _).mp h3
    exact ⟨hp, h1, fun i hi' => by have := hr i hi'; constructor <;> omega⟩
  · rintro ⟨hp, hd, hr⟩
    refine ⟨s.indexes, ?_, rfl⟩
    have hm : s.indexes ∈ combinations (hi - lo + 1).toNat lo s.indexes.length :=
      (combinations_mem _ _ _ _).mpr ⟨hp, rfl, fun i hi' => by have := hr i hi'; constructor <;> omega⟩
    refine (mem_hypotheses_from _ _ _ _ _).mpr ⟨hd, ?_, hm⟩
    have hh := (combinations_chain (hi - lo + 1).toNat lo s.indexes.length).2.2.1
    by_contra hlt
    rw [if_neg (by omega)] at hh
    rw [List.head?_eq_none_iff] at hh
    rw [hh] at hm
    cases hm

theorem ascending_within_depth_le (lo hi : Int) (s : solution_t) (hp : strictly_ascending s)
    (hr : indexes_within lo hi s) (hle : lo ≤ hi + 1) : (s.depth : Int) ≤ hi - lo + 1 := by
  have hm : s.indexes ∈ combinations (hi - lo + 1).toNat lo s.indexes.length :=
    (combinations_mem _ _ _ _).mpr ⟨hp, rfl, fun i hi' => by
      have := hr i hi'
      have hw : ((hi - lo + 1).toNat : Int) = hi - lo + 1 := Int.toNat_of_nonneg (by omega)
      constructor <;> omega⟩
  have hh := (combinations_chain (hi - lo + 1).toNat lo s.indexes.length).2.2.1
  by_contra hlt
  have hw : ((hi - lo + 1).toNat : Int) = hi - lo + 1 := Int.toNat_of_nonneg (by omega)
  unfold solution_t.depth at hlt
  rw [if_neg (by omega)] at hh
  rw [List.head?_eq_none_iff] at hh
  rw [hh] at hm
  cases hm


/-! ## XOR combinations as vectors, and `hash_reduce` -/

theorem solution_vec_eq_zero (s : solution_t) : solution_vec s = 0 ↔ s.indexes = [] := by
  constructor
  · intro h
    apply List.eq_nil_iff_forall_not_mem.mpr
    intro i hi
    have := congrFun h i
    simp [solution_vec, hi] at this
  · intro h
    funext i
    simp [solution_vec, h]

theorem solution_vec_inj {s t : solution_t} (hs : strictly_ascending s) (ht : strictly_ascending t)
    (h : solution_vec s = solution_vec t) : s = t := by
  have : s.indexes = t.indexes := sorted_ext hs ht (fun x => by
    have := congrFun h x
    unfold solution_vec at this
    by_cases h1 : x ∈ s.indexes <;> by_cases h2 : x ∈ t.indexes <;> simp_all)
  cases s; cases t; simpa using this

theorem solution_vec_symm_diff {l1 l2 m : List Int}
    (hmem : ∀ x, x ∈ m ↔ in_symm_diff x l1 l2) :
    solution_vec ⟨m⟩ = solution_vec ⟨l1⟩ + solution_vec ⟨l2⟩ := by
  funext i
  simp only [solution_vec, Pi.add_apply, hmem, in_symm_diff]
  by_cases h1 : i ∈ l1 <;> by_cases h2 : i ∈ l2 <;> simp [h1, h2]
  decide

theorem xor_solutions_vec {s1 s2 r : solution_t} (h1 : strictly_ascending s1)
    (h2 : strictly_ascending s2) (h : xor_solutions s1 s2 = some r) :
    solution_vec r = solution_vec s1 + solution_vec s2 := by
  obtain ⟨-, hmem, -⟩ := xor_solutions_some h1 h2 h
  exact @solution_vec_symm_diff s1.indexes s2.indexes r.indexes hmem

theorem vec_add_self (v : Int → ZMod 2) : v + v = 0 := by
  funext i
  exact zmod2_add_self (v i)

theorem vec_add_cancel {u v w : Int → ZMod 2} (h : u = v + w) : v = u + w := by
  rw [h, add_assoc, vec_add_self, add_zero]

theorem xor_sum_append (l1 l2 : List solution_t) : xor_sum (l1 ++ l2) = xor_sum l1 + xor_sum l2 := by
  simp [xor_sum]

theorem xor_sum_singleton (s : solution_t) : xor_sum [s] = solution_vec s := by
  simp [xor_sum]

theorem sublist_append_singleton {sub K : List solution_t} {s : solution_t} :
    sub.Sublist (K ++ [s]) ↔ sub.Sublist K ∨ ∃ sub', sub = sub' ++ [s] ∧ sub'.Sublist K := by
  rw [List.sublist_append_iff]
  constructor
  · rintro ⟨l1, l2, rfl, h1, h2⟩
    rcases List.sublist_singleton.mp h2 with rfl | rfl
    · left; simpa using h1
    · right; exact ⟨l1, rfl, h1⟩
  · rintro (h | ⟨sub', rfl, h⟩)
    · exact ⟨sub, [], by simp, h, by simp⟩
    · exact ⟨sub', [s], rfl, h, List.Sublist.refl _⟩

theorem in_xor_span_append_singleton {K : List solution_t} {s p : solution_t} :
    in_xor_span (K ++ [s]) p ↔
      in_xor_span K p ∨ ∃ sub, sub.Sublist K ∧ solution_vec p = xor_sum sub + solution_vec s := by
  unfold in_xor_span
  constructor
  · rintro ⟨sub, hsub, hv⟩
    rcases sublist_append_singleton.mp hsub with h | ⟨sub', rfl, h⟩
    · exact Or.inl ⟨sub, h, hv⟩
    · exact Or.inr ⟨sub', h, by rw [hv, xor_sum_append, xor_sum_singleton]⟩
  · rintro (⟨sub, hsub, hv⟩ | ⟨sub, hsub, hv⟩)
    · exact ⟨sub, sublist_append_singleton.mpr (Or.inl hsub), hv⟩
    · exact ⟨sub ++ [s], sublist_append_singleton.mpr (Or.inr ⟨sub, rfl, hsub⟩),
        by rw [hv, xor_sum_append, xor_sum_singleton]⟩

theorem in_xor_span_mono {K K' : List solution_t} (h : K.Sublist K') {p : solution_t}
    (hp : in_xor_span K p) : in_xor_span K' p := by
  obtain ⟨sub, hsub, hv⟩ := hp
  exact ⟨sub, hsub.trans h, hv⟩

theorem xor_independent_append_singleton {K : List solution_t} {s : solution_t}
    (hK : xor_independent K) (hs : ¬ in_xor_span K s) : xor_independent (K ++ [s]) := by
  intro sub hsub hne
  rcases sublist_append_singleton.mp hsub with h | ⟨sub', rfl, h⟩
  · exact hK sub h hne
  · intro h0
    rw [xor_sum_append, xor_sum_singleton] at h0
    apply hs
    refine ⟨sub', h, ?_⟩
    have := vec_add_cancel (u := 0) (v := xor_sum sub') (w := solution_vec s) h0.symm
    rw [this, zero_add]

theorem xor_independent_nil : xor_independent [] := by
  intro sub hsub hne
  exact absurd (List.sublist_nil.mp hsub) hne

theorem hash_reduce_is_unique_iff (s : solution_t) (perm : List solution_t) :
    hash_reduce_is_unique s perm = true ↔ s ∉ perm := by
  induction perm with
  | nil => simp [hash_reduce_is_unique]
  | cons p rest ih =>
    simp only [hash_reduce_is_unique, List.mem_cons, not_or]
    by_cases h : s = p
    · have := (are_solutions_same_ne_zero s p).mpr h
      rw [if_pos this]
      simp [h]
    · have : ¬ are_solutions_same s p ≠ 0 := fun h' => h ((are_solutions_same_ne_zero s p).mp h')
      simp only [this, if_false, ih, h, not_false_eq_true, true_and]

theorem mapM_option_cons {α β : Type} (f : α → Option β) (a : α) (l : List α) :
    (a :: l).mapM f = (f a).bind (fun b => (l.mapM f).bind (fun bs => some (b :: bs))) := by
  rw [List.mapM_cons]
  rfl

theorem mapM_option_some {α β : Type} (f : α → Option β) :
    ∀ (l : List α) (xs : List β), l.mapM f = some xs → List.Forall₂ (fun a b => f a = some b) l xs := by
  intro l
  induction l with
  | nil =>
    intro xs h
    rw [List.mapM_nil] at h
    cases h
    exact List.Forall₂.nil
  | cons a l ih =>
    intro xs h
    rw [mapM_option_cons] at h
    cases hfa : f a with
    | none => rw [hfa] at h; cases h
    | some b =>
      rw [hfa] at h
      cases hl : l.mapM f with
      | none => rw [hl] at h; cases h
      | some bs =>
        rw [hl] at h
        cases h
        exact List.Forall₂.cons hfa (ih bs hl)

theorem mapM_option_total {α β : Type} (f : α → Option β) :
    ∀ (l : List α), (∀ a ∈ l, ∃ b, f a = some b) → ∃ xs, l.mapM f = some xs := by
  intro l
  induction l with
  | nil => intro _; exact ⟨[], rfl⟩
  | cons a l ih =>
    intro h
    obtain ⟨b, hb⟩ := h a (List.mem_cons_self _ _)
    obtain ⟨bs, hbs⟩ := ih (fun x hx => h x (List.mem_cons_of_mem _ hx))
    exact ⟨b :: bs, by rw [mapM_option_cons, hb, hbs]; rfl⟩

theorem forall₂_mem_right {α β : Type} {R : α → β → Prop} {l : List α} {xs : List β}
    (h : List.Forall₂ R l xs) : ∀ x ∈ xs, ∃ a ∈ l, R a x := by
  induction h with
  | nil => intro x hx; cases hx
  | cons hab _ ih =>
    intro x hx
    rcases List.mem_cons.mp hx with rfl | hx
    · exact ⟨_, List.mem_cons_self _ _, hab⟩
    · obtain ⟨a, ha, hr⟩ := ih x hx
      exact ⟨a, List.mem_cons_of_mem _ ha, hr⟩

theorem forall₂_mem_left {α β : Type} {R : α → β → Prop} {l : List α} {xs : List β}
    (h : List.Forall₂ R l xs) : ∀ a ∈ l, ∃ x ∈ xs, R a x := by
  induction h with
  | nil => intro x hx; cases hx
  | cons hab _ ih =>
    intro x hx
    rcases List.mem_cons.mp hx with rfl | hx
    · exact ⟨_, List.mem_cons_self _ _, hab⟩
    · obtain ⟨a, ha, hr⟩ := ih x hx
      exact ⟨a, List.mem_cons_of_mem _ ha, hr⟩

/-- The loop of `add_solution_with_permuations`, when it completes, has appended
the combinations of the old entries with the new solution. -/
theorem add_solution_with_permuations_loop_some (alloc : Nat → Bool) (s : solution_t) :
    ∀ (olds acc res : List solution_t),
      add_solution_with_permuations_loop alloc s olds acc = some (some res) →
      ∃ xs, List.Forall₂ (fun a b => xor_solutions a s = some b) olds xs ∧ res = acc ++ xs := by
  intro olds
  induction olds with
  | nil =>
    intro acc res h
    simp only [add_solution_with_permuations_loop, Option.some.injEq] at h
    exact ⟨[], List.Forall₂.nil, by rw [h, List.append_nil]⟩
  | cons p rest ih =>
    intro acc res h
    simp only [add_solution_with_permuations_loop] at h
    cases hx : xor_solutions p s with
    | none => rw [hx] at h; cases h
    | some r =>
      rw [hx] at h
      simp only at h
      split at h
      · cases h
      · obtain ⟨xs, hf, hres⟩ := ih _ _ h
        exact ⟨r :: xs, List.Forall₂.cons hx hf, by rw [hres, List.append_assoc]; rfl⟩

/-- The loop of `add_solution_with_permuations` ends when every combination
yields a solution; it throws only when the allocator fails. -/
theorem add_solution_with_permuations_loop_total (alloc : Nat → Bool) (s : solution_t) :
    ∀ (olds acc : List solution_t), (∀ q ∈ olds, ∃ r, xor_solutions q s = some r) →
      ∃ res, add_solution_with_permuations_loop alloc s olds acc = some res ∧
        ((∀ n, alloc n = false) → ∃ l, res = some l) := by
  intro olds
  induction olds with
  | nil =>
    intro acc _
    exact ⟨some acc, rfl, fun _ => ⟨acc, rfl⟩⟩
  | cons p rest ih =>
    intro acc h
    obtain ⟨r, hr⟩ := h p (List.mem_cons_self _ _)
    simp only [add_solution_with_permuations_loop, hr]
    by_cases ha : alloc acc.length = true
    · rw [if_pos ha]
      exact ⟨none, rfl, fun hn => by rw [hn] at ha; cases ha⟩
    · rw [if_neg ha]
      exact ih _ (fun q hq => h q (List.mem_cons_of_mem _ hq))

/-- What `add_solution_with_permuations` has done when it completes. -/
theorem add_solution_with_permuations_some {alloc : Nat → Bool} {perm perm' : List solution_t}
    {s : solution_t} (h : add_solution_with_permuations alloc perm s = some (some perm')) :
    ∃ xs, List.Forall₂ (fun a b => xor_solutions a s = some b) perm xs ∧
      perm' = perm ++ [s] ++ xs := by
  unfold add_solution_with_permuations at h
  split at h
  · cases h
  · exact add_solution_with_permuations_loop_some alloc s _ _ _ h

/-- Membership in the result of `add_solution_with_permuations`. -/
theorem add_solution_with_permuations_mem {alloc : Nat → Bool} {perm perm' : List solution_t}
    {s : solution_t} (h : add_solution_with_permuations alloc perm s = some (some perm'))
    (p : solution_t) :
    p ∈ perm' ↔ (p ∈ perm ∨ p = s ∨ ∃ q ∈ perm, xor_solutions q s = some p) := by
  obtain ⟨xs, hf, rfl⟩ := add_solution_with_permuations_some h
  simp only [List.mem_append, List.mem_singleton]
  constructor
  · rintro ((h | h) | h)
    · exact Or.inl h
    · exact Or.inr (Or.inl h)
    · obtain ⟨q, hq, hr⟩ := forall₂_mem_right hf p h
      exact Or.inr (Or.inr ⟨q, hq, hr⟩)
  · rintro (h | h | ⟨q, hq, hr⟩)
    · exact Or.inl (Or.inl h)
    · exact Or.inl (Or.inr h)
    · obtain ⟨x, hx, hr'⟩ := forall₂_mem_left hf q hq
      rw [hr] at hr'
      cases hr'
      exact Or.inr hx

/-- When `add_solution_with_permuations` completes, every `xor_solutions` call it
made has yielded a solution. -/
theorem add_solution_with_permuations_calls {alloc : Nat → Bool} {perm perm' : List solution_t}
    {s : solution_t} (h : add_solution_with_permuations alloc perm s = some (some perm')) :
    ∀ q ∈ perm, ∃ r, xor_solutions q s = some r := by
  obtain ⟨xs, hf, -⟩ := add_solution_with_permuations_some h
  intro q hq
  obtain ⟨x, -, hx⟩ := forall₂_mem_left hf q hq
  exact ⟨x, hx⟩

/-- The call of `add_solution_with_permuations` ends when every combination
yields a solution; it throws only when the allocator fails. -/
theorem add_solution_with_permuations_total (alloc : Nat → Bool) {perm : List solution_t}
    {s : solution_t} (h : ∀ q ∈ perm, ∃ r, xor_solutions q s = some r) :
    ∃ res, add_solution_with_permuations alloc perm s = some res ∧
      ((∀ n, alloc n = false) → ∃ perm', res = some perm') := by
  unfold add_solution_with_permuations
  by_cases ha : alloc perm.length = true
  · rw [if_pos ha]
    exact ⟨none, rfl, fun hn => by rw [hn] at ha; cases ha⟩
  · rw [if_neg ha]
    exact add_solution_with_permuations_loop_total alloc s _ _ h

theorem xor_solutions_window {lo hi : Int} (hle : lo ≤ hi + 1) (hw : hi - lo + 1 < 64)
    {s1 s2 : solution_t} (h1 : wf_solution lo hi s1) (h2 : wf_solution lo hi s2) :
    ∃ r, xor_solutions s1 s2 = some r ∧ wf_solution lo hi r ∧
      solution_vec r = solution_vec s1 + solution_vec s2 := by
  obtain ⟨m, hm, hmem, hrun⟩ := xor_solutions_spec s1 s2 h1.1 h2.1
  have hwf : wf_solution lo hi ⟨m⟩ := by
    refine ⟨hm, fun i hi' => ?_⟩
    rcases (hmem i).mp hi' with h | h
    · exact h1.2 i h.1
    · exact h2.2 i h.1
  have hlen := ascending_within_depth_le lo hi ⟨m⟩ hwf.1 hwf.2 hle
  unfold solution_t.depth at hlen
  simp only at hlen
  refine ⟨⟨m⟩, ?_, hwf, solution_vec_symm_diff hmem⟩
  rw [hrun, if_pos (by unfold MAX_NUM_INDEX; omega)]

theorem solution_vec_ne_zero {s : solution_t} (h : 1 ≤ s.depth) : solution_vec s ≠ 0 := by
  intro h0
  have := (solution_vec_eq_zero s).mp h0
  unfold solution_t.depth at h
  rw [this] at h
  simp at h

theorem perm_inv_nil (lo hi : Int) : perm_inv lo hi [] [] := by
  constructor
  · intro p hp
    cases hp
  · intro p _
    simp only [List.not_mem_nil, false_iff, not_and]
    rintro hne ⟨sub, hsub, hv⟩
    rw [List.sublist_nil.mp hsub] at hv
    exact hne (by rw [hv]; rfl)

theorem perm_inv_step {lo hi : Int} (hle : lo ≤ hi + 1) (hw : hi - lo + 1 < 64)
    {alloc : Nat → Bool}
    {K perm perm' : List solution_t} {s : solution_t} (hinv : perm_inv lo hi K perm)
    (hs : wf_solution lo hi s) (hd : 1 ≤ s.depth) (hnot : s ∉ perm)
    (hadd : add_solution_with_permuations alloc perm s = some (some perm')) :
    perm_inv lo hi (K ++ [s]) perm' := by
  have hmem := add_solution_with_permuations_mem hadd
  have hs0 := solution_vec_ne_zero hd
  constructor
  · intro p hp
    rcases (hmem p).mp hp with h | rfl | ⟨q, hq, hx⟩
    · exact hinv.1 p h
    · exact hs
    · obtain ⟨r, hr, hwf, -⟩ := xor_solutions_window hle hw (hinv.1 q hq) hs
      rw [hx] at hr
      cases hr
      exact hwf
  · intro p hp
    rw [hmem p, in_xor_span_append_singleton]
    constructor
    · rintro (h | rfl | ⟨q, hq, hx⟩)
      · obtain ⟨h1, h2⟩ := (hinv.2 p hp).mp h
        exact ⟨h1, Or.inl h2⟩
      · exact ⟨hs0, Or.inr ⟨[], List.nil_sublist _, by simp [xor_sum]⟩⟩
      · have hq' := hinv.1 q hq
        have hv := xor_solutions_vec hq'.1 hs.1 hx
        obtain ⟨-, sub, hsub, hqv⟩ := (hinv.2 q hq').mp hq
        refine ⟨?_, Or.inr ⟨sub, hsub, by rw [hv, hqv]⟩⟩
        intro h0
        rw [h0] at hv
        have := vec_add_cancel hv
        rw [zero_add] at this
        exact hnot (by rw [← solution_vec_inj hq'.1 hs.1 this]; exact hq)
    · rintro ⟨hne, h | ⟨sub, hsub, hv⟩⟩
      · exact Or.inl ((hinv.2 p hp).mpr ⟨hne, h⟩)
      · obtain ⟨q, hq, hqwf, hqv⟩ := xor_solutions_window hle hw hp hs
        have hqs : solution_vec q = xor_sum sub := by
          rw [hqv, hv, add_assoc, vec_add_self, add_zero]
        by_cases hq0 : solution_vec q = 0
        · right; left
          rw [hq0] at hqv
          have := vec_add_cancel hqv
          rw [zero_add] at this
          exact solution_vec_inj hp.1 hs.1 this
        · right; right
          have hqm : q ∈ perm := (hinv.2 q hqwf).mpr ⟨hq0, sub, hsub, hqs⟩
          obtain ⟨r, hr, hrwf, hrv⟩ := xor_solutions_window hle hw hqwf hs
          refine ⟨q, hqm, ?_⟩
          rw [hr]
          congr 1
          apply solution_vec_inj hrwf.1 hp.1
          rw [hrv, hqv, add_assoc, vec_add_self, add_zero]

/-- The loop of `hash_reduce` on solutions over a window of fewer than 64 bits
ends, and leaves a sublist of its input; when no exception was caught the
sublist is linearly independent and spans every input solution.  No exception
is caught when the allocator never fails. -/
theorem hash_reduce_loop_spec (alloc : Nat → Bool) {lo hi : Int} (hle : lo ≤ hi + 1)
    (hw : hi - lo + 1 < 64) :
    ∀ (rest K perm : List solution_t), perm_inv lo hi K perm → xor_independent K →
      (∀ s ∈ rest, wf_solution lo hi s ∧ 1 ≤ s.depth) →
      ∃ kept caught, hash_reduce_loop alloc rest perm = some (kept, caught) ∧
        kept.Sublist rest ∧
        (caught = false →
          xor_independent (K ++ kept) ∧ (∀ s ∈ rest, in_xor_span (K ++ kept) s)) ∧
        ((∀ n, alloc n = false) → caught = false) := by
  intro rest
  induction rest with
  | nil =>
    intro K perm _ hK _
    exact ⟨[], false, rfl, List.Sublist.refl _,
      fun _ => ⟨by simpa using hK, fun s hs => by cases hs⟩, fun _ => rfl⟩
  | cons s rest ih =>
    intro K perm hinv hK hall
    obtain ⟨hs, hd⟩ := hall s (List.mem_cons_self _ _)
    have hrest : ∀ t ∈ rest, wf_solution lo hi t ∧ 1 ≤ t.depth :=
      fun t ht => hall t (List.mem_cons_of_mem _ ht)
    by_cases hmem : s ∈ perm
    · obtain ⟨kept, caught, hrun, hsub, hgood, hnf⟩ := ih K perm hinv hK hrest
      have hu : hash_reduce_is_unique s perm = false := by
        cases h : hash_reduce_is_unique s perm
        · rfl
        · exact absurd hmem ((hash_reduce_is_unique_iff s perm).mp h)
      refine ⟨kept, caught, by simp only [hash_reduce_loop, hu]; exact hrun, hsub.cons s,
        fun hc => ⟨(hgood hc).1, ?_⟩, hnf⟩
      intro t ht
      rcases List.mem_cons.mp ht with rfl | ht
      · exact in_xor_span_mono (List.sublist_append_left K kept) ((hinv.2 t hs).mp hmem).2
      · exact (hgood hc).2 t ht
    · have hu : hash_reduce_is_unique s perm = true := (hash_reduce_is_unique_iff s perm).mpr hmem
      obtain ⟨res, hadd, haddnf⟩ := @add_solution_with_permuations_total alloc perm s
        (fun q hq => by
          obtain ⟨r, hr, -⟩ := xor_solutions_window hle hw (hinv.1 q hq) hs
          exact ⟨r, hr⟩)
      cases res with
      | none =>
        refine ⟨s :: rest, true, by simp only [hash_reduce_loop, hu, if_true, hadd],
          List.Sublist.refl _, fun hc => (by cases hc), fun hn => ?_⟩
        obtain ⟨l, hl⟩ := haddnf hn
        cases hl
      | some perm' =>
        have hinv' := perm_inv_step hle hw hinv hs hd hmem hadd
        have hnspan : ¬ in_xor_span K s := fun h =>
          hmem ((hinv.2 s hs).mpr ⟨solution_vec_ne_zero hd, h⟩)
        have hK' := xor_independent_append_singleton hK hnspan
        obtain ⟨kept, caught, hrun, hsub, hgood, hnf⟩ := ih (K ++ [s]) perm' hinv' hK' hrest
        refine ⟨s :: kept, caught, by simp only [hash_reduce_loop, hu, if_true, hadd, hrun],
          hsub.cons₂ s, fun hc => ?_, hnf⟩
        obtain ⟨hind, hspan⟩ := hgood hc
        rw [List.append_assoc, List.singleton_append] at hind hspan
        refine ⟨hind, ?_⟩
        intro t ht
        rcases List.mem_cons.mp ht with rfl | ht
        · refine ⟨[t], ?_, by rw [xor_sum_singleton]⟩
          exact (List.singleton_sublist.mpr (List.mem_cons_self _ _)).trans
            (List.sublist_append_right K _)
        · exact hspan t ht


/-! ## The candidates of `try_accomodate_new_bit` -/

theorem and_two_pow_ne_zero_iff (i j : Nat) : i &&& 2 ^ j ≠ 0 ↔ i.testBit j = true := by
  constructor
  · intro h
    by_contra hb
    apply h
    apply Nat.eq_of_testBit_eq
    intro m
    rw [Nat.testBit_and, Nat.testBit_two_pow, Nat.zero_testBit]
    by_cases hjm : j = m
    · subst hjm; simp [hb]
    · simp [hjm]
  · intro hb h
    have := congrArg (fun x => x.testBit j) h
    simp [Nat.testBit_and, Nat.testBit_two_pow, hb] at this

theorem insert_bit_in_solutions_spec {new_bit : Int} {s : solution_t} (h : can_extend new_bit s) :
    insert_bit_in_solutions s new_bit = some (0, ⟨s.indexes ++ [new_bit]⟩) := by
  obtain ⟨h1, last, h2, h3⟩ := h
  unfold insert_bit_in_solutions
  rw [if_neg h1, h2]
  simp only [ge_iff_le]
  rw [if_neg (by omega)]

theorem try_accomodate_new_bit_insert_done (new_bit : Int) (i : Nat) :
    ∀ (n j : Nat) (cur : List solution_t), i < 2 ^ j →
      try_accomodate_new_bit_insert new_bit i n j cur = some cur := by
  intro n
  induction n with
  | zero => intro j cur _; rfl
  | succ n ih =>
    intro j cur hi
    have hb : i.testBit j = false := Nat.testBit_lt_two_pow hi
    have : ¬ (i &&& 2 ^ j ≠ 0) := by
      rw [and_two_pow_ne_zero_iff, hb]; simp
    rw [try_accomodate_new_bit_insert, if_neg this]
    exact ih (j + 1) cur (lt_of_lt_of_le hi (Nat.pow_le_pow_right (by omega) (by omega)))

theorem try_accomodate_new_bit_insert_spec (new_bit : Int) (i : Nat) :
    ∀ (todo done : List solution_t) (n j : Nat), done.length = j → n + j = 64 →
      j + todo.length ≤ 64 → i < 2 ^ (j + todo.length) →
      (∀ s ∈ todo, can_extend new_bit s) →
      try_accomodate_new_bit_insert new_bit i n j (done ++ todo) =
        some (done ++ extend_from new_bit i j todo) := by
  intro todo
  induction todo with
  | nil =>
    intro done n j _ _ _ hi _
    simpa [extend_from] using try_accomodate_new_bit_insert_done new_bit i n j done (by simpa using hi)
  | cons s rest ih =>
    intro done n j hdone hn hlen hi hcan
    obtain ⟨n', rfl⟩ : ∃ n', n = n' + 1 := ⟨n - 1, by simp at hlen; omega⟩
    have hget : (done ++ s :: rest)[j]? = some s := by
      rw [List.getElem?_append_right (by omega)]
      simp [hdone]
    have hrec := fun s' => ih (done ++ [s']) n' (j + 1) (by simp [hdone]) (by omega)
      (by simp at hlen ⊢; omega) (by simp at hi ⊢; rw [show j + 1 + rest.length = j + (rest.length + 1) by omega]; exact hi)
      (fun t ht => hcan t (List.mem_cons_of_mem _ ht))
    by_cases hb : i.testBit j = true
    · have hc : i &&& 2 ^ j ≠ 0 := (and_two_pow_ne_zero_iff i j).mpr hb
      have hset : (done ++ s :: rest).set j ⟨s.indexes ++ [new_bit]⟩ =
          (done ++ [⟨s.indexes ++ [new_bit]⟩]) ++ rest := by
        rw [List.set_append_right _ _ (by omega)]
        simp [hdone]
      rw [try_accomodate_new_bit_insert, if_pos hc]
      simp only [hget, insert_bit_in_solutions_spec (hcan s (List.mem_cons_self _ _)),
        ge_iff_le, le_refl, if_true, hset]
      rw [hrec]
      simp [extend_from, hb]
    · have hc : ¬ (i &&& 2 ^ j ≠ 0) := fun h => hb ((and_two_pow_ne_zero_iff i j).mp h)
      rw [try_accomodate_new_bit_insert, if_neg hc]
      have := hrec s
      rw [List.append_assoc, List.singleton_append] at this
      rw [this]
      simp [extend_from, hb]

theorem extend_from_zero (new_bit : Int) (l : List solution_t) :
    ∀ j, extend_from new_bit 0 j l = l := by
  induction l with
  | nil => intro j; rfl
  | cons s rest ih => intro j; simp [extend_from, ih]

theorem extend_from_length (new_bit : Int) (i : Nat) (l : List solution_t) :
    ∀ j, (extend_from new_bit i j l).length = l.length := by
  induction l with
  | nil => intro j; rfl
  | cons s rest ih => intro j; simp [extend_from, ih]

/-- The first loop of `try_accomodate_new_bit` builds the `2 ^ n` candidates. -/
theorem try_accomodate_new_bit_permute_spec (new_bit : Int) (solutions : List solution_t)
    (hn : solutions.length < 64) (hcan : ∀ s ∈ solutions, can_extend new_bit s) :
    try_accomodate_new_bit_permute solutions new_bit =
      some ((List.range (2 ^ solutions.length)).map (fun i => extend_from new_bit i 0 solutions)) := by
  unfold try_accomodate_new_bit_permute
  have key : ∀ (l : List Nat), (∀ i ∈ l, i < 2 ^ solutions.length) →
      l.mapM (fun i => try_accomodate_new_bit_insert new_bit i 64 0 solutions) =
        some (l.map (fun i => extend_from new_bit i 0 solutions)) := by
    intro l
    induction l with
    | nil => intro _; rfl
    | cons i l ih =>
      intro hl
      have h1 := try_accomodate_new_bit_insert_spec new_bit i solutions [] 64 0 rfl rfl
        (by omega) (by simpa using hl i (List.mem_cons_self _ _)) hcan
      simp only [List.nil_append] at h1
      rw [mapM_option_cons, h1, ih (fun x hx => hl x (List.mem_cons_of_mem _ hx))]
      rfl
  exact key _ (fun i hi => List.mem_range.mp hi)

theorem try_accomodate_new_bit_is_correct_spec (keys : List (Nat × Nat)) (c : List solution_t)
    (hc : evaluable c) :
    try_accomodate_new_bit_is_correct keys c = some (decide (all_consistent keys c)) := by
  induction c with
  | nil => simp [try_accomodate_new_bit_is_correct, all_consistent]
  | cons s rest ih =>
    have hs := hc s (List.mem_cons_self _ _)
    have hrest := ih (fun t ht => hc t (List.mem_cons_of_mem _ ht))
    simp only [try_accomodate_new_bit_is_correct, is_solution_correct_spec keys s hs.1 hs.2]
    by_cases h : consistent keys s
    · simp only [h, decide_True, Bool.not_true, Bool.false_eq_true, if_false, hrest]
      congr 1
      simp [all_consistent, h]
    · simp only [h, decide_False, Bool.not_false, if_true]
      congr 1
      simp [all_consistent, h]

theorem try_accomodate_new_bit_erase_spec (keys : List (Nat × Nat)) (all : List (List solution_t))
    (hall : ∀ c ∈ all, evaluable c) :
    try_accomodate_new_bit_erase keys all =
      some (all.filter (fun c => decide (all_consistent keys c))) := by
  induction all with
  | nil => rfl
  | cons c rest ih =>
    have hrest := ih (fun d hd => hall d (List.mem_cons_of_mem _ hd))
    simp only [try_accomodate_new_bit_erase,
      try_accomodate_new_bit_is_correct_spec keys c (hall c (List.mem_cons_self _ _)), hrest]
    by_cases h : all_consistent keys c
    · simp [h, List.filter_cons]
    · simp [h, List.filter_cons]

theorem consistent_append (keys new : List (Nat × Nat)) (s : solution_t) :
    consistent (keys ++ new) s ↔ consistent keys s ∧ consistent new s := by
  unfold consistent
  simp only [List.mem_append]
  constructor
  · intro h; exact ⟨fun p hp => h p (Or.inl hp), fun p hp => h p (Or.inr hp)⟩
  · rintro ⟨h1, h2⟩ p (hp | hp)
    · exact h1 p hp
    · exact h2 p hp

theorem all_consistent_append (keys new : List (Nat × Nat)) (c : List solution_t) :
    all_consistent (keys ++ new) c ↔ all_consistent keys c ∧ all_consistent new c := by
  unfold all_consistent
  constructor
  · intro h
    exact ⟨fun s hs => ((consistent_append keys new s).mp (h s hs)).1,
      fun s hs => ((consistent_append keys new s).mp (h s hs)).2⟩
  · rintro ⟨h1, h2⟩ s hs
    exact (consistent_append keys new s).mpr ⟨h1 s hs, h2 s hs⟩

theorem filter_filter_consistent (keys new : List (Nat × Nat)) (all : List (List solution_t)) :
    (all.filter (fun c => decide (all_consistent keys c))).filter
        (fun c => decide (all_consistent (keys ++ new) c)) =
      all.filter (fun c => decide (all_consistent (keys ++ new) c)) := by
  rw [List.filter_filter]
  apply List.filter_congr
  intro c _
  by_cases h : all_consistent (keys ++ new) c
  · have := ((all_consistent_append keys new c).mp h).1
    simp [h, this]
  · simp [h]

theorem same_setup_refl (ctx : hash_context_t) : same_setup ctx ctx :=
  ⟨rfl, rfl, rfl, rfl, rfl, rfl⟩

theorem same_setup_trans {a b c : hash_context_t} (h1 : same_setup a b) (h2 : same_setup b c) :
    same_setup a c := by
  unfold same_setup at *
  refine ⟨h2.1.trans h1.1, h2.2.1.trans h1.2.1, h2.2.2.1.trans h1.2.2.1,
    h2.2.2.2.1.trans h1.2.2.2.1, h2.2.2.2.2.1.trans h1.2.2.2.2.1, ?_⟩
  exact h2.2.2.2.2.2.trans h1.2.2.2.2.2

theorem loop_step_fuel {end_addr stride test fuel : Nat}
    (hwrap : end_addr + stride < WORD) (hle : test ≤ end_addr)
    (hf : end_addr - test < (fuel + 1) * stride) :
    (test + stride) % WORD = test + stride ∧
      ((test + stride) % WORD ≤ end_addr → end_addr - (test + stride) % WORD < fuel * stride) := by
  have e : (test + stride) % WORD = test + stride := Nat.mod_eq_of_lt (by omega)
  refine ⟨e, fun h => ?_⟩
  rw [e] at h ⊢
  rw [Nat.succ_mul] at hf
  omega

theorem try_accomodate_new_bit_probe_spec (check : Nat → Nat → Bool) (end_addr stride : Nat)
    (hwrap : end_addr + stride < WORD) :
    ∀ (fuel : Nat) (ctx : hash_context_t) (all : List (List solution_t)),
      (ctx.test_addr ≤ end_addr → end_addr - ctx.test_addr < fuel * stride) →
      (∀ c ∈ all, evaluable c) →
      ∃ ctx' all' new, try_accomodate_new_bit_probe check end_addr stride fuel ctx all =
          some (ctx', all') ∧
        same_setup ctx ctx' ∧ ctx'.keys = ctx.keys ++ new ∧
        (∀ p ∈ new, p.1 = ctx.base_addr ∧ check p.1 p.2 = true) ∧
        ((new = [] ∧ all' = all) ∨
          all' = all.filter (fun c => decide (all_consistent (ctx.keys ++ new) c))) := by
  intro fuel
  induction fuel with
  | zero =>
    intro ctx all hf _
    have hnot : ¬ ctx.test_addr ≤ end_addr := fun h => by have := hf h; simp at this
    refine ⟨ctx, all, [], ?_, same_setup_refl _, by simp, by simp, Or.inl ⟨rfl, rfl⟩⟩
    unfold try_accomodate_new_bit_probe
    rw [if_neg hnot]
  | succ fuel ih =>
    intro ctx all hf hall
    by_cases hle : ctx.test_addr ≤ end_addr
    · obtain ⟨hmod, hf'⟩ := loop_step_fuel hwrap hle (hf hle)
      by_cases hchk : check ctx.base_addr ctx.test_addr = true
      · have herase := try_accomodate_new_bit_erase_spec
          (hash_confirm_pair ctx ctx.base_addr ctx.test_addr).keys all hall
        have hkeys : (hash_confirm_pair ctx ctx.base_addr ctx.test_addr).keys =
            ctx.keys ++ [(ctx.base_addr, ctx.test_addr)] := rfl
        set all1 := all.filter (fun c => decide (all_consistent
          (hash_confirm_pair ctx ctx.base_addr ctx.test_addr).keys c)) with hall1
        have hall1e : ∀ c ∈ all1, evaluable c := fun c hc => hall c (List.mem_of_mem_filter hc)
        by_cases hlen : all1.length ≤ 1
        · refine ⟨hash_confirm_pair ctx ctx.base_addr ctx.test_addr, all1,
            [(ctx.base_addr, ctx.test_addr)], ?_, ⟨rfl, rfl, rfl, rfl, rfl, rfl⟩, rfl, ?_, Or.inr ?_⟩
          · rw [try_accomodate_new_bit_probe, if_pos hle]
            simp only [hchk, if_true, herase, hlen]
          · intro p hp
            simp only [List.mem_singleton] at hp
            subst hp
            exact ⟨rfl, hchk⟩
          · rw [hall1, hkeys]
        · obtain ⟨ctx', all', new, hrun, hsetup, hk, hnew, hres⟩ :=
            ih { hash_confirm_pair ctx ctx.base_addr ctx.test_addr with
                  test_addr := (ctx.test_addr + stride) % WORD } all1 hf' hall1e
          refine ⟨ctx', all', (ctx.base_addr, ctx.test_addr) :: new, ?_, ?_, ?_, ?_, Or.inr ?_⟩
          · rw [try_accomodate_new_bit_probe, if_pos hle]
            simp only [hchk, if_true, herase, hlen, if_false]
            exact hrun
          · exact same_setup_trans ⟨rfl, rfl, rfl, rfl, rfl, rfl⟩ hsetup
          · rw [hk]
            simp [hash_confirm_pair]
          · intro p hp
            rcases List.mem_cons.mp hp with rfl | hp
            · exact ⟨rfl, hchk⟩
            · exact hnew p hp
          · have hk1 : ctx.keys ++ (ctx.base_addr, ctx.test_addr) :: new =
                (ctx.keys ++ [(ctx.base_addr, ctx.test_addr)]) ++ new := by simp
            rcases hres with ⟨rfl, rfl⟩ | hres
            · rw [hall1, hkeys]
            · rw [hres, hk1, hall1, hkeys]
              exact filter_filter_consistent _ _ _
      · by_cases hlen : all.length ≤ 1
        · refine ⟨ctx, all, [], ?_, same_setup_refl _, by simp, by simp, Or.inl ⟨rfl, rfl⟩⟩
          rw [try_accomodate_new_bit_probe, if_pos hle]
          simp only [hchk, Bool.false_eq_true, if_false, hlen, if_true]
        · obtain ⟨ctx', all', new, hrun, hsetup, hk, hnew, hres⟩ :=
            ih { ctx with test_addr := (ctx.test_addr + stride) % WORD } all hf' hall
          refine ⟨ctx', all', new, ?_, ?_, hk, hnew, hres⟩
          · rw [try_accomodate_new_bit_probe, if_pos hle]
            simp only [hchk, Bool.false_eq_true, if_false, hlen]
            exact hrun
          · exact same_setup_trans ⟨rfl, rfl, rfl, rfl, rfl, rfl⟩ hsetup
    · refine ⟨ctx, all, [], ?_, same_setup_refl _, by simp, by simp, Or.inl ⟨rfl, rfl⟩⟩
      unfold try_accomodate_new_bit_probe
      rw [if_neg hle]

theorem forall₂_sublist_right {α β : Type} {R : α → β → Prop} {l : List α} {l' : List β}
    (h : List.Forall₂ R l l') :
    ∀ sub', sub'.Sublist l' → ∃ sub, sub.Sublist l ∧ List.Forall₂ R sub sub' := by
  induction h with
  | nil =>
    intro sub' hs
    rw [List.sublist_nil.mp hs]
    exact ⟨[], List.Sublist.refl _, List.Forall₂.nil⟩
  | @cons a b l l' hab _ ih =>
    intro sub' hs
    cases hs with
    | cons _ hs' =>
      obtain ⟨sub, h1, h2⟩ := ih _ hs'
      exact ⟨sub, h1.cons a, h2⟩
    | cons₂ _ hs' =>
      obtain ⟨sub, h1, h2⟩ := ih _ hs'
      exact ⟨a :: sub, h1.cons₂ a, List.Forall₂.cons hab h2⟩

/-- The candidate differs from the solutions at the new bit only. -/
theorem extend_from_rel (new_bit : Int) (i : Nat) (l : List solution_t) :
    ∀ j, List.Forall₂ (fun s s' => s' = s ∨ s' = ⟨s.indexes ++ [new_bit]⟩) l
      (extend_from new_bit i j l) := by
  induction l with
  | nil => intro j; exact List.Forall₂.nil
  | cons s rest ih =>
    intro j
    simp only [extend_from]
    refine List.Forall₂.cons ?_ (ih (j + 1))
    by_cases hb : i.testBit j = true
    · right; simp [hb]
    · left; simp [hb]

theorem solution_vec_append_ne (s : solution_t) (k x : Int) (hx : x ≠ k) :
    solution_vec ⟨s.indexes ++ [k]⟩ x = solution_vec s x := by
  simp [solution_vec, hx]

theorem extend_rel_sum {k : Int} {sub sub' : List solution_t}
    (h : List.Forall₂ (fun s s' => s' = s ∨ s' = ⟨s.indexes ++ [k]⟩) sub sub') (x : Int)
    (hx : x ≠ k) : xor_sum sub' x = xor_sum sub x := by
  induction h with
  | nil => rfl
  | @cons a b l l' hab _ ih =>
    have e1 : xor_sum (b :: l') x = solution_vec b x + xor_sum l' x := by simp [xor_sum]
    have e2 : xor_sum (a :: l) x = solution_vec a x + xor_sum l x := by simp [xor_sum]
    rw [e1, e2, ih]
    rcases hab with rfl | rfl
    · rfl
    · rw [solution_vec_append_ne _ _ _ hx]

theorem xor_sum_apply_zero {l : List solution_t} {k : Int} (h : ∀ s ∈ l, k ∉ s.indexes) :
    xor_sum l k = 0 := by
  induction l with
  | nil => rfl
  | cons a l ih =>
    have e : xor_sum (a :: l) k = solution_vec a k + xor_sum l k := by simp [xor_sum]
    rw [e, ih (fun s hs => h s (List.mem_cons_of_mem _ hs))]
    simp [solution_vec, h a (List.mem_cons_self _ _)]

theorem extend_from_independent (new_bit : Int) (i j : Nat) (l : List solution_t)
    (hind : xor_independent l) (hk : ∀ s ∈ l, new_bit ∉ s.indexes) :
    xor_independent (extend_from new_bit i j l) := by
  intro sub' hsub hne h0
  obtain ⟨sub, h1, h2⟩ := forall₂_sublist_right (extend_from_rel new_bit i l j) sub' hsub
  have hne' : sub ≠ [] := by
    intro e
    rw [e] at h2
    cases h2
    exact hne rfl
  apply hind sub h1 hne'
  funext x
  by_cases hx : x = new_bit
  · subst hx
    exact xor_sum_apply_zero (fun s hs => hk s (h1.subset hs))
  · rw [← extend_rel_sum h2 x hx, h0]

theorem wf_solution_can_extend {lo : Int} {new_bit : Int} {s : solution_t}
    (hwf : wf_solution lo (new_bit - 1) s) (hd : 1 ≤ s.depth) (hlo : 0 ≤ lo)
    (hk : new_bit ≤ 63) : can_extend new_bit s := by
  have hlen := ascending_within_depth_le lo (new_bit - 1) s hwf.1 hwf.2 (by
    unfold solution_t.depth at hd
    cases h : s.indexes with
    | nil => rw [h] at hd; simp at hd
    | cons a t =>
      have := hwf.2 a (by rw [h]; exact List.mem_cons_self _ _)
      omega)
  refine ⟨by unfold MAX_NUM_INDEX; omega, ?_⟩
  unfold solution_t.depth at hd
  cases h : s.indexes.getLast? with
  | none =>
    rw [List.getLast?_eq_none_iff] at h
    rw [h] at hd
    simp at hd
  | some last =>
    have := hwf.2 last (List.mem_of_mem_getLast? h)
    exact ⟨last, rfl, by omega⟩

theorem extend_from_wf {lo : Int} {new_bit : Int} (i : Nat) (l : List solution_t)
    (hl : ∀ s ∈ l, wf_solution lo (new_bit - 1) s ∧ 1 ≤ s.depth) (hlo : lo ≤ new_bit) :
    ∀ j, ∀ s ∈ extend_from new_bit i j l, wf_solution lo new_bit s ∧ 1 ≤ s.depth := by
  intro j s hs
  obtain ⟨t, ht, hr⟩ := forall₂_mem_right (extend_from_rel new_bit i l j) s hs
  obtain ⟨hwf, hd⟩ := hl t ht
  rcases hr with rfl | rfl
  · exact ⟨⟨hwf.1, fun x hx => by have := hwf.2 x hx; constructor <;> omega⟩, hd⟩
  · refine ⟨⟨?_, ?_⟩, ?_⟩
    · unfold strictly_ascending
      simp only
      rw [List.pairwise_append]
      refine ⟨hwf.1, List.pairwise_singleton _ _, ?_⟩
      intro a ha b hb
      simp only [List.mem_singleton] at hb
      subst hb
      have := hwf.2 a ha
      omega
    · intro x hx
      simp only [List.mem_append, List.mem_singleton] at hx
      rcases hx with hx | rfl
      · have := hwf.2 x hx; constructor <;> omega
      · constructor <;> omega
    · unfold solution_t.depth
      simp

theorem loop_fuel_enough (first last stride : Nat) (hs : 0 < stride) :
    last - first < loop_fuel first last stride * stride := by
  unfold loop_fuel
  rw [Nat.succ_mul]
  exact Nat.lt_div_mul_add hs

theorem shl1_eq {n : Int} (h0 : 0 ≤ n) (h1 : n < 64) : shl1 n = some (2 ^ n.toNat) := by
  unfold shl1
  rw [if_pos ⟨h0, h1⟩]

theorem two_pow_le_of_le {n : Int} {m : Nat} (h : n ≤ m) : 2 ^ n.toNat ≤ 2 ^ m :=
  Nat.pow_le_pow_right (by omega) (by omega)

/-- One round of step 2: what `try_accomodate_new_bit` returns on a context whose
solutions are well-formed over `[min_bit, new_bit - 1]`. -/
theorem try_accomodate_new_bit_spec (ctx : hash_context_t) (new_bit : Int)
    (check : Nat → Nat → Bool) (h0 : 0 ≤ ctx.min_bit) (hmk : ctx.min_bit < new_bit)
    (hk : new_bit ≤ 62) (hstart : ctx.start_addr < 2 ^ new_bit.toNat)
    (hn : ctx.solutions.length < 64)
    (hsols : ∀ s ∈ ctx.solutions, wf_solution ctx.min_bit (new_bit - 1) s ∧ 1 ≤ s.depth) :
    ∃ ctx' err new, try_accomodate_new_bit ctx new_bit check = some (ctx', err) ∧
      ctx'.min_bit = ctx.min_bit ∧ ctx'.max_bit = ctx.max_bit ∧
      ctx'.start_addr = ctx.start_addr ∧ ctx'.end_addr = ctx.end_addr ∧
      ctx'.keys = ctx.keys ++ new ∧
      (∀ p ∈ new, p.1 = ctx.start_addr ∧ check p.1 p.2 = true) ∧
      ((err = [diagnostic.something_went_wrong] ∧ ctx'.solutions = ctx.solutions) ∨
        (err = [] ∧ ∃ i, i < 2 ^ ctx.solutions.length ∧
          ctx'.solutions = extend_from new_bit i 0 ctx.solutions ∧
          ((new = [] ∧ i = 0) ∨ all_consistent ctx'.keys ctx'.solutions))) := by
  have hcan : ∀ s ∈ ctx.solutions, can_extend new_bit s := fun s hs =>
    wf_solution_can_extend (hsols s hs).1 (hsols s hs).2 h0 (by omega)
  have hperm := try_accomodate_new_bit_permute_spec new_bit ctx.solutions hn hcan
  have hs1 := shl1_eq (n := new_bit + 1) (by omega) (by omega)
  have hs2 := shl1_eq (n := new_bit) (by omega) (by omega)
  have hs3 := shl1_eq (n := ctx.min_bit) h0 (by omega)
  have p1 : 2 ^ (new_bit + 1).toNat ≤ 2 ^ 63 := two_pow_le_of_le (by omega)
  have p2 : 2 ^ new_bit.toNat ≤ 2 ^ 62 := two_pow_le_of_le (by omega)
  have p3 : 2 ^ ctx.min_bit.toNat ≤ 2 ^ 61 := two_pow_le_of_le (by omega)
  have p4 : 0 < 2 ^ ctx.min_bit.toNat := Nat.two_pow_pos _
  have hW : WORD = 2 ^ 64 := rfl
  norm_num at p1 p2 p3 hW
  have hm1 : (ctx.start_addr + 2 ^ (new_bit + 1).toNat) % WORD =
      ctx.start_addr + 2 ^ (new_bit + 1).toNat := Nat.mod_eq_of_lt (by omega)
  have hm2 : (ctx.start_addr + 2 ^ new_bit.toNat) % WORD =
      ctx.start_addr + 2 ^ new_bit.toNat := Nat.mod_eq_of_lt (by omega)
  set all0 := (List.range (2 ^ ctx.solutions.length)).map
    (fun i => extend_from new_bit i 0 ctx.solutions) with hall0
  have heval : ∀ c ∈ all0, evaluable c := by
    intro c hc s hs
    obtain ⟨i, -, rfl⟩ := List.mem_map.mp hc
    obtain ⟨hwf, hd⟩ := extend_from_wf i ctx.solutions hsols (by omega) 0 s hs
    exact ⟨hd, fun x hx => by have := hwf.2 x hx; constructor <;> omega⟩
  set end_addr := min ctx.end_addr (ctx.start_addr + 2 ^ (new_bit + 1).toNat) with hend
  obtain ⟨ctx1, all', new, hrun, hsetup, hkeys, hnew, hres⟩ :=
    try_accomodate_new_bit_probe_spec check end_addr (2 ^ ctx.min_bit.toNat)
      (by omega)
      (loop_fuel (ctx.start_addr + 2 ^ new_bit.toNat) end_addr (2 ^ ctx.min_bit.toNat))
      { ctx with base_addr := ctx.start_addr, test_addr := ctx.start_addr + 2 ^ new_bit.toNat }
      all0 (fun _ => loop_fuel_enough _ _ _ p4) heval
  obtain ⟨e1, e2, e3, e4, e5, e6⟩ := hsetup
  simp only at e1 e2 e3 e4 e5 e6 hkeys hnew
  have hunf : try_accomodate_new_bit ctx new_bit check =
      match all' with
      | [] => some (ctx1, [diagnostic.something_went_wrong])
      | new_solutions :: _ => some ({ ctx1 with solutions := new_solutions }, []) := by
    unfold try_accomodate_new_bit
    rw [if_neg (by omega), hperm, hs1, hs2, hs3]
    simp only [hm1, hm2, hrun]
    cases all' <;> rfl
  rcases all' with _ | ⟨c, rest⟩
  · exact ⟨ctx1, [diagnostic.something_went_wrong], new, hunf, e1, e2, e3, e4, hkeys, hnew,
      Or.inl ⟨rfl, e6⟩⟩
  · refine ⟨{ ctx1 with solutions := c }, [], new, hunf, e1, e2, e3, e4, hkeys, hnew,
      Or.inr ⟨rfl, ?_⟩⟩
    rcases hres with ⟨hn0, hsame⟩ | hfil
    · refine ⟨0, Nat.two_pow_pos _, ?_, Or.inl ⟨hn0, rfl⟩⟩
      have : all0.head? = some c := by rw [← hsame]; rfl
      rw [hall0, List.head?_map] at this
      have hr : (List.range (2 ^ ctx.solutions.length)).head? = some 0 := by
        obtain ⟨m, hm⟩ : ∃ m, 2 ^ ctx.solutions.length = m + 1 :=
          ⟨2 ^ ctx.solutions.length - 1, by have := Nat.two_pow_pos ctx.solutions.length; omega⟩
        rw [hm, List.range_succ_eq_map]; rfl
      rw [hr] at this
      simp only [Option.map_some', Option.some.injEq] at this
      exact this.symm
    · have hc : c ∈ all0.filter (fun c => decide (all_consistent (ctx.keys ++ new) c)) := by
        rw [← hfil]; exact List.mem_cons_self _ _
      obtain ⟨hc1, hc2⟩ := List.mem_filter.mp hc
      obtain ⟨i, hi, rfl⟩ := List.mem_map.mp hc1
      refine ⟨i, List.mem_range.mp hi, rfl, Or.inr ?_⟩
      simp only [hkeys]
      exact of_decide_eq_true hc2


/-! ## The two steps of `hash_find_solutions2` -/

theorem hash_find_solutions2_step1_spec (check : Nat → Nat → Bool) (end_addr stride : Nat)
    (hwrap : end_addr + stride < WORD) :
    ∀ (fuel : Nat) (ctx : hash_context_t),
      (ctx.test_addr ≤ end_addr → end_addr - ctx.test_addr < fuel * stride) →
      ∃ ctx', hash_find_solutions2_step1 check end_addr stride fuel ctx = some ctx' ∧
        same_setup ctx ctx' ∧
        ctx'.keys = ctx.keys ++
          confirmed_pairs check ctx.base_addr (probes stride end_addr fuel ctx.test_addr) := by
  intro fuel
  induction fuel with
  | zero =>
    intro ctx hf
    have hnot : ¬ ctx.test_addr ≤ end_addr := fun h => by have := hf h; simp at this
    refine ⟨ctx, ?_, same_setup_refl _, by simp [probes, confirmed_pairs]⟩
    unfold hash_find_solutions2_step1
    rw [if_neg hnot]
  | succ fuel ih =>
    intro ctx hf
    by_cases hle : ctx.test_addr ≤ end_addr
    · obtain ⟨hmod, hf'⟩ := loop_step_fuel hwrap hle (hf hle)
      by_cases hchk : check ctx.base_addr ctx.test_addr = true
      · obtain ⟨ctx', hrun, hsetup, hk⟩ :=
          ih { hash_confirm_pair ctx ctx.base_addr ctx.test_addr with
                test_addr := (ctx.test_addr + stride) % WORD } hf'
        refine ⟨ctx', ?_, same_setup_trans ⟨rfl, rfl, rfl, rfl, rfl, rfl⟩ hsetup, ?_⟩
        · rw [hash_find_solutions2_step1, if_pos hle]
          simp only [hchk, if_true]
          exact hrun
        · rw [hk]
          simp only [hash_confirm_pair, hmod, probes, hle, if_true, confirmed_pairs,
            List.filter_cons, hchk, List.map_cons, List.append_assoc, List.singleton_append]
      · obtain ⟨ctx', hrun, hsetup, hk⟩ :=
          ih { ctx with test_addr := (ctx.test_addr + stride) % WORD } hf'
        refine ⟨ctx', ?_, same_setup_trans ⟨rfl, rfl, rfl, rfl, rfl, rfl⟩ hsetup, ?_⟩
        · rw [hash_find_solutions2_step1, if_pos hle]
          simp only [hchk, Bool.false_eq_true, if_false]
          exact hrun
        · rw [hk]
          simp only [hmod, probes, hle, if_true, confirmed_pairs, List.filter_cons, hchk,
            Bool.false_eq_true, if_false]
    · refine ⟨ctx, ?_, same_setup_refl _, ?_⟩
      · unfold hash_find_solutions2_step1
        rw [if_neg hle]
      · cases fuel <;> simp [probes, hle, confirmed_pairs]

theorem probes_mem (stride last : Nat) :
    ∀ (n first : Nat), (first ≤ last → last - first < n * stride) →
      ∀ t, t ∈ probes stride last n first ↔ (∃ c, t = first + c * stride) ∧ t ≤ last := by
  intro n
  induction n with
  | zero =>
    intro first hf t
    simp only [probes, List.not_mem_nil, false_iff, not_and, not_le]
    rintro ⟨c, rfl⟩
    by_contra hle
    have h1 : first ≤ last := by
      have : first ≤ first + c * stride := Nat.le_add_right _ _
      omega
    have := hf h1
    simp at this
  | succ n ih =>
    intro first hf t
    by_cases hle : first ≤ last
    · have hf' : first + stride ≤ last → last - (first + stride) < n * stride := by
        intro h
        have := hf hle
        rw [Nat.succ_mul] at this
        omega
      simp only [probes, hle, if_true, List.mem_cons, ih (first + stride) hf' t]
      constructor
      · rintro (rfl | ⟨⟨c, rfl⟩, h⟩)
        · exact ⟨⟨0, by simp⟩, hle⟩
        · exact ⟨⟨c + 1, by rw [Nat.succ_mul]; omega⟩, h⟩
      · rintro ⟨⟨c, rfl⟩, h⟩
        cases c with
        | zero => left; simp
        | succ c => right; exact ⟨⟨c, by rw [Nat.succ_mul]; omega⟩, h⟩
    · simp only [probes, hle, if_false, List.not_mem_nil, false_iff, not_and, not_le]
      rintro ⟨c, rfl⟩
      have : first ≤ first + c * stride := Nat.le_add_right _ _
      omega

theorem try_accomodate_new_bit_none (ctx : hash_context_t) (new_bit : Int)
    (check : Nat → Nat → Bool) (hk : ¬ new_bit ≤ 62) :
    try_accomodate_new_bit ctx new_bit check = none := by
  have hs : shl1 (new_bit + 1) = none := by
    unfold shl1
    rw [if_neg (by omega)]
  unfold try_accomodate_new_bit
  split
  · rfl
  · rw [hs]
    split <;> simp_all

theorem hash_find_solutions2_step2_spec (check : Nat → Nat → Bool) :
    ∀ (n : Nat) (i : Int) (ctx : hash_context_t) (err : List diagnostic),
      0 ≤ ctx.min_bit → ctx.min_bit < i → ctx.start_addr < 2 ^ i.toNat →
      step2_wf (i - 1) ctx →
      (i + n - 1 ≤ 62 → ∃ ctx' e, hash_find_solutions2_step2 check n i ctx err =
        some (ctx', err ++ e)) ∧
      (∀ ctx' err', hash_find_solutions2_step2 check n i ctx err = some (ctx', err') →
        ∃ e new, err' = err ++ e ∧
          ctx'.min_bit = ctx.min_bit ∧ ctx'.max_bit = ctx.max_bit ∧
          ctx'.start_addr = ctx.start_addr ∧ ctx'.end_addr = ctx.end_addr ∧
          ctx'.keys = ctx.keys ++ new ∧ step2_wf (i + n - 1) ctx' ∧
          ctx'.solutions.length = ctx.solutions.length ∧
          (xor_independent ctx.solutions → xor_independent ctx'.solutions) ∧
          (∀ d ∈ e, d = diagnostic.something_went_wrong) ∧
          (diagnostic.something_went_wrong ∉ e → all_consistent ctx.keys ctx.solutions →
            all_consistent ctx'.keys ctx'.solutions) ∧
          (0 < n → i + n - 1 ≤ 62)) := by
  intro n
  induction n with
  | zero =>
    intro i ctx err _ _ _ hinv
    refine ⟨fun _ => ⟨ctx, [], by simp [hash_find_solutions2_step2]⟩, ?_⟩
    intro ctx' err' h
    simp only [hash_find_solutions2_step2, Option.some.injEq, Prod.mk.injEq] at h
    obtain ⟨rfl, rfl⟩ := h
    refine ⟨[], [], by simp, rfl, rfl, rfl, rfl, by simp, ?_, rfl, fun h => h,
      fun d hd => (by cases hd), fun _ h => h, fun h => absurd h (lt_irrefl 0)⟩
    simpa using hinv
  | succ n ih =>
    intro i ctx err h0 hmi hstart hinv
    by_cases hk : i ≤ 62
    · obtain ⟨hwf, hlen⟩ := hinv
      obtain ⟨ctx1, e1, new1, hrun1, m1, m2, m3, m4, hk1, hnew1, hcase⟩ :=
        try_accomodate_new_bit_spec ctx i check h0 hmi hk hstart hlen hwf
      have hinv1 : step2_wf (i + 1 - 1) ctx1 ∧ ctx1.solutions.length = ctx.solutions.length ∧
          (xor_independent ctx.solutions → xor_independent ctx1.solutions) ∧
          (∀ d ∈ e1, d = diagnostic.something_went_wrong) ∧
          (diagnostic.something_went_wrong ∉ e1 → all_consistent ctx.keys ctx.solutions →
            all_consistent ctx1.keys ctx1.solutions) := by
        have ei : i + 1 - 1 = i := by ring
        rw [ei]
        rcases hcase with ⟨he, hs⟩ | ⟨he, idx, hidx, hs, hc⟩
        · refine ⟨⟨?_, by rw [hs]; exact hlen⟩, by rw [hs], fun hind => (by rw [hs]; exact hind),
            fun d hd => (by rw [he] at hd; exact List.mem_singleton.mp hd), ?_⟩
          · intro s hs'
            rw [hs] at hs'
            obtain ⟨hw, hd⟩ := hwf s hs'
            rw [m1]
            exact ⟨⟨hw.1, fun x hx => by have := hw.2 x hx; constructor <;> omega⟩, hd⟩
          · intro hne
            rw [he] at hne
            exact absurd (List.mem_singleton.mpr rfl) hne
        · refine ⟨⟨?_, ?_⟩, ?_, ?_, fun d hd => (by rw [he] at hd; cases hd), ?_⟩
          · rw [hs, m1]
            exact extend_from_wf idx ctx.solutions hwf (by omega) 0
          · rw [hs, extend_from_length]; exact hlen
          · rw [hs, extend_from_length]
          · intro hind
            rw [hs]
            apply extend_from_independent _ _ _ _ hind
            intro s hs' hmem
            have := (hwf s hs').1.2 i hmem
            omega
          · intro _ hcons
            rcases hc with ⟨hn, hz⟩ | hc
            · rw [hs, hz, extend_from_zero, hk1, hn, List.append_nil]
              exact hcons
            · exact hc
      have hstart1 : ctx1.start_addr < 2 ^ (i + 1).toNat := by
        rw [m3]
        exact lt_of_lt_of_le hstart (Nat.pow_le_pow_right (by omega) (by omega))
      obtain ⟨ihA, ihB⟩ := ih (i + 1) ctx1 (err ++ e1) (by rw [m1]; exact h0)
        (by rw [m1]; omega) hstart1 hinv1.1
      have hunf : hash_find_solutions2_step2 check (n + 1) i ctx err =
          hash_find_solutions2_step2 check n (i + 1) ctx1 (err ++ e1) := by
        simp only [hash_find_solutions2_step2, hrun1]
      have ebit : i + 1 + (n : Int) - 1 = i + ((n + 1 : Nat) : Int) - 1 := by push_cast; ring
      constructor
      · intro hb
        obtain ⟨ctx', e, hrun⟩ := ihA (by push_cast at hb; omega)
        exact ⟨ctx', e1 ++ e, by rw [hunf, hrun, List.append_assoc]⟩
      · intro ctx' err' hrun
        rw [hunf] at hrun
        obtain ⟨e, new, he, f1, f2, f3, f4, hk', hinv', hlen', hind', hdiag', hcons', hbnd'⟩ :=
          ihB ctx' err' hrun
        refine ⟨e1 ++ e, new1 ++ new, by rw [he, List.append_assoc], f1.trans m1, f2.trans m2,
          f3.trans m3, f4.trans m4, by rw [hk', hk1, List.append_assoc], ?_,
          hlen'.trans hinv1.2.1, fun hind => hind' (hinv1.2.2.1 hind), ?_, ?_, ?_⟩
        · rw [← ebit]
          exact hinv'
        · intro d hd
          rcases List.mem_append.mp hd with h | h
          · exact hinv1.2.2.2.1 d h
          · exact hdiag' d h
        · intro hne hcons
          apply hcons' (fun h => hne (List.mem_append_right _ h))
          exact hinv1.2.2.2.2 (fun h => hne (List.mem_append_left _ h)) hcons
        · intro _
          by_cases hn0 : 0 < n
          · have := hbnd' hn0
            push_cast
            omega
          · have : n = 0 := by omega
            subst this
            simpa using hk
    · have hnone := try_accomodate_new_bit_none ctx i check hk
      constructor
      · intro hb
        push_cast at hb
        omega
      · intro ctx' err' hrun
        rw [hash_find_solutions2_step2, hnone] at hrun
        cases hrun

theorem hash_init_fresh {min_bit max_bit : Int} {start_addr end_addr : Nat} {ctx : hash_context_t}
    (h : hash_init min_bit max_bit start_addr end_addr = some ctx) :
    fresh ctx ∧ ctx.min_bit = min_bit ∧ ctx.max_bit = max_bit ∧ ctx.start_addr = start_addr ∧
      ctx.end_addr = end_addr := by
  unfold hash_init MAX_NUM_INDEX at h
  split at h
  · cases h
  split at h
  · cases h
  split at h
  · cases h
  split at h
  · cases h
  split at h
  · cases h
  cases h
  refine ⟨⟨?_, ?_, ?_, ?_, ?_, rfl, rfl⟩, rfl, rfl, rfl, rfl⟩ <;> simp only <;> omega

theorem end_bit_gt_min_bit (ctx : hash_context_t) (h : fresh ctx) :
    ctx.min_bit < hash_find_solutions2_end_bit ctx := by
  obtain ⟨h0, h1, -⟩ := h
  unfold hash_find_solutions2_end_bit
  have : ctx.min_bit < ((ctx.max_bit + ctx.min_bit) + 1).tdiv 2 := by
    rw [Int.tdiv_eq_ediv (by omega) (by omega)]
    omega
  exact lt_of_lt_of_le this (le_max_left _ _)

theorem base_hypotheses_wf (ctx : hash_context_t) (check : Nat → Nat → Bool) (hf : fresh ctx) :
    ∀ s ∈ base_hypotheses ctx check,
      wf_solution ctx.min_bit (hash_find_solutions2_end_bit ctx) s ∧ 1 ≤ s.depth := by
  intro s hs
  have hm := (mem_all_hypotheses ctx.min_bit (hash_find_solutions2_end_bit ctx)
    (le_of_lt (end_bit_gt_min_bit ctx hf)) s).mp (List.mem_of_mem_filter hs)
  exact ⟨⟨hm.1, hm.2.2⟩, hm.2.1⟩

/-- The run of `hash_find_solutions2` on a fresh context, when `end_bit` is at
most 62: the four ways it ends.  `R` is the list that `hash_reduce` leaves, and
`caught` says whether it caught an exception. -/
theorem hash_find_solutions2_unfold (ctx : hash_context_t) (check : Nat → Nat → Bool)
    (alloc : Nat → Bool) (hf : fresh ctx) (hE : hash_find_solutions2_end_bit ctx ≤ 62) :
    ∃ (ctx1 : hash_context_t) (R : List solution_t) (caught : Bool),
      ctx1.min_bit = ctx.min_bit ∧ ctx1.max_bit = ctx.max_bit ∧
      ctx1.start_addr = ctx.start_addr ∧ ctx1.end_addr = ctx.end_addr ∧
      ctx1.solutions = [] ∧ ctx1.keys = phase1_keys ctx check ∧
      hash_reduce_loop alloc (base_hypotheses ctx check) [] = some (R, caught) ∧
      R.Sublist (base_hypotheses ctx check) ∧
      (caught = false →
        xor_independent R ∧ (∀ s ∈ base_hypotheses ctx check, in_xor_span R s)) ∧
      ((∀ n, alloc n = false) → caught = false) ∧
      hash_find_solutions2 ctx check alloc =
        if phase1_keys ctx check = [] then some (-1, ctx1, [diagnostic.no_pair_found])
        else if base_hypotheses ctx check = [] then
          some (-1, { ctx1 with solutions := [] }, [diagnostic.no_base_solution])
        else if are_unique_solutions_found R.length ctx.min_bit
            (hash_find_solutions2_end_bit ctx) = false then
          some (-1, { ctx1 with solutions := R },
            (if caught then [diagnostic.out_of_memory] else []) ++
              [diagnostic.too_many_base_solutions])
        else
          (hash_find_solutions2_step2 check
              (ctx.max_bit - hash_find_solutions2_end_bit ctx).toNat
              (hash_find_solutions2_end_bit ctx + 1) { ctx1 with solutions := R }
              (if caught then [diagnostic.out_of_memory] else [])).map
            (fun r => (0, r.1, r.2)) := by
  have hmE := end_bit_gt_min_bit ctx hf
  obtain ⟨h0, h1, h2, h3, h4, hkeys, hsols⟩ := hf
  have hs1 := shl1_eq (n := hash_find_solutions2_end_bit ctx + 1) (by omega) (by omega)
  have hs3 := shl1_eq (n := ctx.min_bit) h0 (by omega)
  have p1 : 2 ^ (hash_find_solutions2_end_bit ctx + 1).toNat ≤ 2 ^ 63 := two_pow_le_of_le (by omega)
  have p3 : 2 ^ ctx.min_bit.toNat ≤ 2 ^ 61 := two_pow_le_of_le (by omega)
  have p4 : 0 < 2 ^ ctx.min_bit.toNat := Nat.two_pow_pos _
  have hW : WORD = 2 ^ 64 := rfl
  norm_num at p1 p3 hW
  have hend : phase1_end_addr ctx =
      min ctx.end_addr (2 ^ (hash_find_solutions2_end_bit ctx + 1).toNat - 1) := rfl
  obtain ⟨ctx1, hrun1, hsetup, hk1⟩ :=
    hash_find_solutions2_step1_spec check (phase1_end_addr ctx) (2 ^ ctx.min_bit.toNat)
      (by rw [hend]; omega)
      (loop_fuel ctx.start_addr (phase1_end_addr ctx) (2 ^ ctx.min_bit.toNat))
      { ctx with base_addr := ctx.start_addr, test_addr := ctx.start_addr }
      (fun _ => loop_fuel_enough _ _ _ p4)
  obtain ⟨e1, e2, e3, e4, e5, e6⟩ := hsetup
  simp only at e1 e2 e3 e4 e5 e6 hk1
  rw [hkeys, List.nil_append] at hk1
  rw [hsols] at e6
  have hk1' : ctx1.keys = phase1_keys ctx check := hk1
  have hwfH := base_hypotheses_wf ctx check ⟨h0, h1, h2, h3, h4, hkeys, hsols⟩
  obtain ⟨R, caught, hR, hsub, hgood, hnf⟩ :=
    @hash_reduce_loop_spec alloc ctx.min_bit (hash_find_solutions2_end_bit ctx)
      (by omega) (by omega) (base_hypotheses ctx check) [] [] (perm_inv_nil _ _)
      xor_independent_nil hwfH
  simp only [List.nil_append] at hgood
  have hfind := find_new_solutions_spec (phase1_keys ctx check) ctx.min_bit
    (hash_find_solutions2_end_bit ctx) h0 (le_of_lt hmE) (by omega)
  refine ⟨ctx1, R, caught, e1, e2, e3, e4, e6, hk1', hR, hsub, hgood, hnf, ?_⟩
  unfold hash_find_solutions2
  rw [hs1, hs3]
  simp only []
  rw [← hend, hrun1]
  simp only [hk1', e1, e6, List.length_eq_zero]
  by_cases hK : phase1_keys ctx check = []
  · simp only [hK, if_true]
  · simp only [hK, if_false]
    rw [hfind]
    simp only []
    have hH : base_hypotheses ctx check =
        (all_hypotheses ctx.min_bit (hash_find_solutions2_end_bit ctx)).filter
          (fun s => decide (consistent (phase1_keys ctx check) s)) := rfl
    rw [← hH]
    by_cases hH0 : base_hypotheses ctx check = []
    · simp [hH0]
    · have hlen : ¬ ((base_hypotheses ctx check).length : Int) = 0 := by
        intro h
        exact hH0 (List.length_eq_zero.mp (by exact_mod_cast h))
      simp only [hlen, hH0, if_false, hash_reduce, hR, Option.map_some']
      by_cases hu : are_unique_solutions_found R.length ctx.min_bit
          (hash_find_solutions2_end_bit ctx) = false
      · simp [hu]
      · have hu' : are_unique_solutions_found R.length ctx.min_bit
            (hash_find_solutions2_end_bit ctx) = true := by
          cases h : are_unique_solutions_found R.length ctx.min_bit
            (hash_find_solutions2_end_bit ctx)
          · exact absurd h hu
          · rfl
        simp only [hu', Bool.not_true, Bool.false_eq_true, if_false, e2]
        split
        · rename_i h
          rw [h]
          rfl
        · rename_i h
          rw [h]
          rfl

theorem hash_find_solutions2_none (ctx : hash_context_t) (check : Nat → Nat → Bool)
    (alloc : Nat → Bool) (hE : ¬ hash_find_solutions2_end_bit ctx ≤ 62) :
    hash_find_solutions2 ctx check alloc = none := by
  have hs : shl1 (hash_find_solutions2_end_bit ctx + 1) = none := by
    unfold shl1
    rw [if_neg (by omega)]
  unfold hash_find_solutions2
  rw [hs]

theorem probes_ne_nil {stride last n first : Nat} (h : probes stride last n first ≠ []) :
    first ≤ last := by
  cases n with
  | zero => exact absurd rfl h
  | succ n =>
    by_contra hle
    exact h (by simp [probes, hle])

theorem phase1_keys_ne_nil {ctx : hash_context_t} {check : Nat → Nat → Bool}
    (h : phase1_keys ctx check ≠ []) : ctx.start_addr ≤ phase1_end_addr ctx := by
  apply @probes_ne_nil (2 ^ ctx.min_bit.toNat) (phase1_end_addr ctx)
    (loop_fuel ctx.start_addr (phase1_end_addr ctx) (2 ^ ctx.min_bit.toNat)) ctx.start_addr
  intro hp
  apply h
  unfold phase1_keys phase1_probes
  rw [hp]
  rfl

theorem xor_fold_vec : ∀ (sub : List solution_t), (∀ s ∈ sub, strictly_ascending s) →
    ∀ r, xor_fold sub = some r → strictly_ascending r ∧ solution_vec r = xor_sum sub := by
  intro sub
  induction sub with
  | nil =>
    intro _ r h
    simp only [xor_fold, Option.some.injEq] at h
    subst h
    exact ⟨List.Pairwise.nil, by funext i; simp [solution_vec, xor_sum]⟩
  | cons s t ih =>
    intro hasc r h
    cases t with
    | nil =>
      simp only [xor_fold, Option.some.injEq] at h
      subst h
      exact ⟨hasc _ (List.mem_cons_self _ _), by rw [xor_sum_singleton]⟩
    | cons t rest =>
      simp only [xor_fold] at h
      cases hr : xor_fold (t :: rest) with
      | none => rw [hr] at h; cases h
      | some r' =>
        rw [hr] at h
        obtain ⟨ha, hv⟩ := ih (fun x hx => hasc x (List.mem_cons_of_mem _ hx)) r' hr
        have hs := hasc s (List.mem_cons_self _ _)
        obtain ⟨har, -, -⟩ := xor_solutions_some hs ha h
        refine ⟨har, ?_⟩
        rw [xor_solutions_vec hs ha h, hv]
        simp [xor_sum]

/-- The reduced base solutions that pass `are_unique_solutions_found` are fewer
than 64. -/
theorem length_lt_of_are_unique {n : Nat} {lo hi : Int} (h0 : 0 ≤ lo) (h63 : hi ≤ 62)
    (h : are_unique_solutions_found n lo hi = true) (hle : lo ≤ hi + 1) : n < 64 := by
  unfold are_unique_solutions_found at h
  have h' := of_decide_eq_true h
  have hW : (WORD : Int) = 18446744073709551616 := by norm_num [WORD]
  rw [Int.emod_eq_of_lt (by omega) (by rw [hW]; omega)] at h'
  omega

/-- What holds of the context when `hash_find_solutions2` returns 0 on a fresh
context. -/
theorem hash_find_solutions2_returns_zero (ctx ctx' : hash_context_t)
    (check : Nat → Nat → Bool) (alloc : Nat → Bool) (err : List diagnostic) (hf : fresh ctx)
    (h : hash_find_solutions2 ctx check alloc = some (0, ctx', err)) :
    hash_find_solutions2_end_bit ctx ≤ 62 ∧
    ctx'.min_bit = ctx.min_bit ∧ ctx'.max_bit = ctx.max_bit ∧
    step2_wf (max (hash_find_solutions2_end_bit ctx) ctx.max_bit) ctx' ∧
    (diagnostic.out_of_memory ∉ err → xor_independent ctx'.solutions) ∧
    max (hash_find_solutions2_end_bit ctx) ctx.max_bit ≤ 62 + 1 ∧
    (∃ new, ctx'.keys = phase1_keys ctx check ++ new) ∧
    (diagnostic.something_went_wrong ∉ err → all_consistent ctx'.keys ctx'.solutions) := by
  by_cases hE : hash_find_solutions2_end_bit ctx ≤ 62
  · have hmE := end_bit_gt_min_bit ctx hf
    obtain ⟨ctx1, R, caught, e1, e2, e3, e4, e6, hk1, hR, hsub, hgood, -, hrun⟩ :=
      hash_find_solutions2_unfold ctx check alloc hf hE
    have hwfH := base_hypotheses_wf ctx check hf
    obtain ⟨h0, h1, h2, -⟩ := hf
    rw [hrun] at h
    split at h
    · simp at h
    split at h
    · simp at h
    split at h
    · simp at h
    rename_i hK hH hU
    have hU' : are_unique_solutions_found R.length ctx.min_bit
        (hash_find_solutions2_end_bit ctx) = true := by
      cases hu : are_unique_solutions_found R.length ctx.min_bit
        (hash_find_solutions2_end_bit ctx)
      · exact absurd hu hU
      · rfl
    have hRlen : R.length < 64 := length_lt_of_are_unique h0 hE hU' (by omega)
    cases hstep : hash_find_solutions2_step2 check
        (ctx.max_bit - hash_find_solutions2_end_bit ctx).toNat
        (hash_find_solutions2_end_bit ctx + 1) { ctx1 with solutions := R }
        (if caught then [diagnostic.out_of_memory] else []) with
    | none => rw [hstep] at h; simp at h
    | some res =>
      obtain ⟨ctx3, err3⟩ := res
      rw [hstep] at h
      simp only [Option.map_some', Option.some.injEq, Prod.mk.injEq, true_and] at h
      obtain ⟨rfl, rfl⟩ := h
      have hstart : ctx1.start_addr < 2 ^ (hash_find_solutions2_end_bit ctx + 1).toNat := by
        have := phase1_keys_ne_nil hK
        unfold phase1_end_addr at this
        have hp : 0 < 2 ^ (hash_find_solutions2_end_bit ctx + 1).toNat := Nat.two_pow_pos _
        rw [e3]
        omega
      have hinv : step2_wf (hash_find_solutions2_end_bit ctx + 1 - 1)
          { ctx1 with solutions := R } := by
        have : hash_find_solutions2_end_bit ctx + 1 - 1 = hash_find_solutions2_end_bit ctx := by
          ring
        rw [this]
        refine ⟨fun s hs => ?_, hRlen⟩
        simp only at hs ⊢
        rw [e1]
        exact hwfH s (hsub.subset hs)
      obtain ⟨-, hB⟩ := hash_find_solutions2_step2_spec check
        (ctx.max_bit - hash_find_solutions2_end_bit ctx).toNat
        (hash_find_solutions2_end_bit ctx + 1) { ctx1 with solutions := R }
        (if caught then [diagnostic.out_of_memory] else [])
        (by simp only; rw [e1]; exact h0) (by simp only; rw [e1]; omega) hstart hinv
      obtain ⟨e, new, he, f1, f2, f3, f4, hk', hinv', hlen', hind', hdiag, hcons, -⟩ :=
        hB ctx3 err3 hstep
      simp only at f1 f2 f3 f4 hk' hlen' hcons hind'
      have hbit : hash_find_solutions2_end_bit ctx + 1 +
          ((ctx.max_bit - hash_find_solutions2_end_bit ctx).toNat : Int) - 1 =
          max (hash_find_solutions2_end_bit ctx) ctx.max_bit := by
        by_cases hc : hash_find_solutions2_end_bit ctx ≤ ctx.max_bit
        · rw [Int.toNat_of_nonneg (by omega), max_eq_right hc]; ring
        · rw [Int.toNat_of_nonpos (by omega), max_eq_left (by omega)]; simp
      rw [hbit] at hinv'
      refine ⟨hE, f1.trans e1, f2.trans e2, hinv', ?_, ?_, ⟨new, by rw [hk', hk1]⟩, ?_⟩
      · intro hno
        apply hind'
        cases caught with
        | false => exact (hgood rfl).1
        | true =>
          exfalso
          apply hno
          rw [he]
          exact List.mem_append_left _ (List.mem_singleton.mpr rfl)
      · apply max_le <;> omega
      · intro hne
        apply hcons (fun hm => hne (by rw [he]; exact List.mem_append_right _ hm))
        rw [hk1]
        intro s hs
        have := List.mem_filter.mp (hsub.subset hs)
        exact of_decide_eq_true this.2
  · rw [hash_find_solutions2_none ctx check alloc hE] at h
    cases h

theorem phase1_probes_mem (ctx : hash_context_t) (t : Nat) :
    t ∈ phase1_probes ctx ↔
      (∃ c, t = ctx.start_addr + c * 2 ^ ctx.min_bit.toNat) ∧ t ≤ phase1_end_addr ctx := by
  unfold phase1_probes
  exact probes_mem _ _ _ _ (fun _ => loop_fuel_enough _ _ _ (Nat.two_pow_pos _)) t



/-! ## XOR spans as linear spans over `ZMod 2` -/

theorem xor_sum_cons (s : solution_t) (l : List solution_t) :
    xor_sum (s :: l) = solution_vec s + xor_sum l := by
  simp [xor_sum]

theorem sublist_sum_iff_mem_span (l : List solution_t) (v : Int → ZMod 2) :
    (∃ sub : List solution_t, sub.Sublist l ∧ v = xor_sum sub) ↔
      v ∈ Submodule.span (ZMod 2) {w | ∃ x ∈ l, solution_vec x = w} := by
  induction l generalizing v with
  | nil =>
    have hset : {w : Int → ZMod 2 | ∃ x ∈ ([] : List solution_t), solution_vec x = w} = ∅ := by
      ext w; simp
    rw [hset, Submodule.span_empty, Submodule.mem_bot]
    constructor
    · rintro ⟨sub, hsub, rfl⟩
      rw [List.sublist_nil] at hsub
      subst hsub
      rfl
    · rintro rfl
      exact ⟨[], List.Sublist.refl _, rfl⟩
  | cons x l ih =>
    have hset : {w : Int → ZMod 2 | ∃ y ∈ x :: l, solution_vec y = w} =
        insert (solution_vec x) {w | ∃ y ∈ l, solution_vec y = w} := by
      ext w
      simp only [Set.mem_setOf_eq, List.mem_cons, Set.mem_insert_iff]
      constructor
      · rintro ⟨y, hy | hy, rfl⟩
        · exact Or.inl (by rw [hy])
        · exact Or.inr ⟨y, hy, rfl⟩
      · rintro (rfl | ⟨y, hy, rfl⟩)
        · exact ⟨x, Or.inl rfl, rfl⟩
        · exact ⟨y, Or.inr hy, rfl⟩
    rw [hset, Submodule.mem_span_insert]
    constructor
    · rintro ⟨sub, hsub, rfl⟩
      cases hsub with
      | cons _ h => exact ⟨0, xor_sum sub, (ih _).mp ⟨sub, h, rfl⟩, by simp⟩
      | cons₂ _ h =>
        rename_i sub'
        exact ⟨1, xor_sum sub', (ih _).mp ⟨sub', h, rfl⟩, by simp [xor_sum_cons]⟩
    · rintro ⟨a, z, hz, rfl⟩
      obtain ⟨sub, hsub, rfl⟩ := (ih _).mpr hz
      have ha : a = 0 ∨ a = 1 := by
        fin_cases a
        · exact Or.inl rfl
        · exact Or.inr rfl
      rcases ha with rfl | rfl
      · exact ⟨sub, hsub.cons _, by simp⟩
      · exact ⟨x :: sub, hsub.cons₂ _, by simp [xor_sum_cons]⟩

theorem in_xor_span_iff_mem_span (l : List solution_t) (s : solution_t) :
    in_xor_span l s ↔
      solution_vec s ∈ Submodule.span (ZMod 2) {w | ∃ x ∈ l, solution_vec x = w} :=
  sublist_sum_iff_mem_span l (solution_vec s)

theorem xor_sum_mem_span {l sub : List solution_t} (h : sub.Sublist l) :
    xor_sum sub ∈ Submodule.span (ZMod 2) {w | ∃ x ∈ l, solution_vec x = w} :=
  (sublist_sum_iff_mem_span l _).mp ⟨sub, h, rfl⟩

theorem span_le_of_in_xor_span {A B : List solution_t} (h : ∀ a ∈ A, in_xor_span B a) :
    Submodule.span (ZMod 2) {w | ∃ x ∈ A, solution_vec x = w} ≤
      Submodule.span (ZMod 2) {w | ∃ x ∈ B, solution_vec x = w} := by
  apply Submodule.span_le.mpr
  rintro w ⟨x, hx, rfl⟩
  exact (in_xor_span_iff_mem_span B x).mp (h x hx)

theorem in_xor_span_trans {A B : List solution_t} (h : ∀ a ∈ A, in_xor_span B a)
    {s : solution_t} (hs : in_xor_span A s) : in_xor_span B s :=
  (in_xor_span_iff_mem_span B s).mpr
    (span_le_of_in_xor_span h ((in_xor_span_iff_mem_span A s).mp hs))

theorem index_form_apply (l : List Int) (x : Int → ZMod 2) :
    index_form l x = (l.map x).sum := by
  induction l with
  | nil => rfl
  | cons i l ih =>
    have : index_form (i :: l) = LinearMap.proj i + index_form l := by
      simp [index_form]
    rw [this, LinearMap.add_apply, ih]
    simp

theorem sum_map_single (l : List Int) (hl : l.Nodup) (j : Int) :
    (l.map (Pi.single j (1 : ZMod 2))).sum = solution_vec ⟨l⟩ j := by
  induction l with
  | nil => simp [solution_vec]
  | cons i l ih =>
    rw [List.nodup_cons] at hl
    rw [List.map_cons, List.sum_cons, ih hl.2]
    simp only [solution_vec, List.mem_cons]
    by_cases hji : j = i
    · subst hji
      simp [hl.1]
    · have : (Pi.single j (1 : ZMod 2) : Int → ZMod 2) i = 0 := by
        simp [Pi.single_apply, Ne.symm hji]
      rw [this]
      simp [hji]

/-- Duality: a linear form that vanishes wherever the forms of `F` all vanish
is an XOR combination of them. -/
theorem in_xor_span_of_forall_zero (F : List solution_t) (h : solution_t)
    (hF : ∀ f ∈ F, f.indexes.Nodup) (hh : h.indexes.Nodup)
    (H : ∀ x : Int → ZMod 2, (∀ f ∈ F, (f.indexes.map x).sum = 0) → (h.indexes.map x).sum = 0) :
    in_xor_span F h := by
  have hker : ⨅ j : Fin F.length, LinearMap.ker (index_form (F.get j).indexes) ≤
      LinearMap.ker (index_form h.indexes) := by
    intro x hx
    rw [Submodule.mem_iInf] at hx
    rw [LinearMap.mem_ker, index_form_apply]
    apply H
    intro f hf
    obtain ⟨j, rfl⟩ := List.mem_iff_get.mp hf
    have := hx j
    rwa [LinearMap.mem_ker, index_form_apply] at this
  obtain ⟨c, hc⟩ := (mem_span_range_iff_exists_fun (ZMod 2)).1 (mem_span_of_iInf_ker_le_ker hker)
  rw [in_xor_span_iff_mem_span]
  have hv : solution_vec h = ∑ j : Fin F.length, c j • solution_vec (F.get j) := by
    funext i
    have := congrArg (fun φ => φ (Pi.single i (1 : ZMod 2))) hc
    simp only [LinearMap.sum_apply, LinearMap.smul_apply, index_form_apply] at this
    rw [sum_map_single _ hh] at this
    rw [← this, Finset.sum_apply]
    apply Finset.sum_congr rfl
    intro j _
    rw [sum_map_single _ (hF _ (List.get_mem _ _ _))]
    rfl
  rw [hv]
  exact Submodule.sum_mem _ (fun j _ => Submodule.smul_mem _ _
    (Submodule.subset_span ⟨F.get j, List.get_mem _ _ _, rfl⟩))

theorem not_in_xor_span_of_independent_cons {a : solution_t} {l : List solution_t}
    (h : xor_independent (a :: l)) : ¬ in_xor_span l a := by
  rintro ⟨sub, hsub, hv⟩
  exact h (a :: sub) (hsub.cons₂ a) (by simp) (by rw [xor_sum_cons, hv, vec_add_self])

theorem xor_independent_tail {a : solution_t} {l : List solution_t}
    (h : xor_independent (a :: l)) : xor_independent l :=
  fun sub hsub hne => h sub (hsub.cons a) hne

theorem zmod2_eq_zero_of_ne_one (z : ZMod 2) (h : z ≠ 1) : z = 0 := by
  fin_cases z
  · rfl
  · exact absurd rfl h

theorem sum_map_add_smul (l : List Int) (x y : Int → ZMod 2) (c : ZMod 2) :
    (l.map (x + c • y)).sum = (l.map x).sum + c * (l.map y).sum := by
  rw [← index_form_apply, ← index_form_apply, ← index_form_apply, map_add, map_smul, smul_eq_mul]

/-- Independent linear forms take every combination of values. -/
theorem exists_point_with_values (ρ : solution_t → solution_t) (b : solution_t → ZMod 2) :
    ∀ T : List solution_t, (∀ f ∈ T, (ρ f).indexes.Nodup) → xor_independent (T.map ρ) →
      ∃ x : Int → ZMod 2, ∀ f ∈ T, ((ρ f).indexes.map x).sum = b f := by
  intro T
  induction T with
  | nil =>
    intro _ _
    exact ⟨0, fun f hf => absurd hf (List.not_mem_nil f)⟩
  | cons f T ih =>
    intro hnd hind
    rw [List.map_cons] at hind
    obtain ⟨x', hx'⟩ :=
      ih (fun g hg => hnd g (List.mem_cons_of_mem _ hg)) (xor_independent_tail hind)
    have hy : ∃ y : Int → ZMod 2, (∀ g ∈ T, ((ρ g).indexes.map y).sum = 0) ∧
        ((ρ f).indexes.map y).sum = 1 := by
      by_contra hcon
      push_neg at hcon
      apply not_in_xor_span_of_independent_cons hind
      apply in_xor_span_of_forall_zero
      · intro g hg
        obtain ⟨g', hg', rfl⟩ := List.mem_map.mp hg
        exact hnd g' (List.mem_cons_of_mem _ hg')
      · exact hnd f (List.mem_cons_self _ _)
      · intro y hyz
        exact zmod2_eq_zero_of_ne_one _
          (hcon y (fun g hg => hyz (ρ g) (List.mem_map_of_mem _ hg)))
    obtain ⟨y, hy0, hy1⟩ := hy
    refine ⟨x' + (b f + ((ρ f).indexes.map x').sum) • y, ?_⟩
    intro g hg
    rw [sum_map_add_smul]
    rcases List.mem_cons.mp hg with rfl | hg'
    · rw [hy1, mul_one, add_comm (b g), ← add_assoc, zmod2_add_self, zero_add]
    · rw [hy0 g hg', mul_zero, add_zero, hx' g hg']

theorem range_get_solution_vec (l : List solution_t) :
    Set.range (fun j : Fin l.length => solution_vec (l.get j)) =
      {w | ∃ x ∈ l, solution_vec x = w} := by
  ext w
  constructor
  · rintro ⟨j, rfl⟩
    exact ⟨l.get j, List.get_mem _ _ _, rfl⟩
  · rintro ⟨x, hx, rfl⟩
    obtain ⟨j, rfl⟩ := List.mem_iff_get.mp hx
    exact ⟨j, rfl⟩

theorem xor_independent_linearIndependent : ∀ l : List solution_t, xor_independent l →
    LinearIndependent (ZMod 2) (fun j : Fin l.length => solution_vec (l.get j)) := by
  intro l
  induction l with
  | nil =>
    intro _
    haveI : IsEmpty (Fin ([] : List solution_t).length) := inferInstanceAs (IsEmpty (Fin 0))
    exact linearIndependent_empty_type
  | cons a l ih =>
    intro h
    have hfun : (fun j : Fin (a :: l).length => solution_vec ((a :: l).get j)) =
        Fin.cons (solution_vec a) (fun j : Fin l.length => solution_vec (l.get j)) := by
      funext j
      refine Fin.cases ?_ (fun j' => ?_) j
      · rfl
      · rfl
    rw [hfun, linearIndependent_fin_cons]
    refine ⟨ih (xor_independent_tail h), ?_⟩
    rw [range_get_solution_vec, ← in_xor_span_iff_mem_span]
    exact not_in_xor_span_of_independent_cons h

theorem solution_vec_eq_sum_single (lo hi : Int) (s : solution_t) (hs : indexes_within lo hi s) :
    solution_vec s = ∑ i in Finset.Icc lo hi, solution_vec s i • Pi.single i (1 : ZMod 2) := by
  funext j
  rw [Finset.sum_apply]
  simp only [Pi.smul_apply, Pi.single_apply, smul_eq_mul, mul_ite, mul_one, mul_zero]
  rw [Finset.sum_ite_eq]
  split
  · rfl
  · rename_i hj
    simp only [solution_vec]
    rw [if_neg]
    intro hmem
    exact hj (Finset.mem_Icc.mpr (hs j hmem))

/-- Linearly independent solutions over `[lo, hi]` are at most `hi - lo + 1`. -/
theorem xor_independent_length_le {lo hi : Int} (l : List solution_t) (hle : lo ≤ hi + 1)
    (hind : xor_independent l) (hwf : ∀ s ∈ l, indexes_within lo hi s) :
    (l.length : Int) ≤ hi - lo + 1 := by
  classical
  have hli := xor_independent_linearIndependent l hind
  have hspan : Set.range (fun j : Fin l.length => solution_vec (l.get j)) ≤
      Submodule.span (ZMod 2)
        ((Finset.image (fun i => (Pi.single i (1 : ZMod 2) : Int → ZMod 2))
          (Finset.Icc lo hi) : Finset (Int → ZMod 2)) : Set (Int → ZMod 2)) := by
    rintro w ⟨j, rfl⟩
    show solution_vec (l.get j) ∈ _
    rw [solution_vec_eq_sum_single lo hi _ (hwf _ (List.get_mem _ _ _))]
    apply Submodule.sum_mem
    intro i hi'
    apply Submodule.smul_mem
    apply Submodule.subset_span
    exact Finset.mem_coe.mpr (Finset.mem_image_of_mem _ hi')
  have hcard := linearIndependent_le_span' _ hli _ hspan
  simp only [Cardinal.mk_fin, Finset.coe_sort_coe, Fintype.card_coe, Nat.cast_le] at hcard
  have h2 := le_trans hcard Finset.card_image_le
  rw [Int.card_Icc] at h2
  omega

theorem xor_independent_pair {a b : solution_t} (ha : solution_vec a ≠ 0)
    (hb : solution_vec b ≠ 0) (hab : solution_vec a ≠ solution_vec b) :
    xor_independent [a, b] := by
  intro sub hsub hne hsum
  cases hsub with
  | cons _ h1 =>
    cases h1 with
    | cons _ h2 =>
      cases h2
      exact hne rfl
    | cons₂ _ h2 =>
      cases h2
      rw [xor_sum_singleton] at hsum
      exact hb hsum
  | cons₂ _ h1 =>
    cases h1 with
    | cons _ h2 =>
      cases h2
      rw [xor_sum_singleton] at hsum
      exact ha hsum
    | cons₂ _ h2 =>
      cases h2
      rw [xor_sum_cons, xor_sum_singleton] at hsum
      apply hab
      have := vec_add_cancel hsum.symm
      rw [this, zero_add]


/-! ## Address bits and the evaluation of solutions -/

theorem addr_bit_eq_testBit (a : Nat) (i : Int) :
    addr_bit a i = if a.testBit i.toNat then 1 else 0 := by
  unfold addr_bit
  rw [Nat.and_one_is_mod, Nat.shiftRight_eq_div_pow, Nat.testBit_to_div_mod]
  rcases Nat.mod_two_eq_zero_or_one (a / 2 ^ i.toNat) with h | h <;> simp [h]

theorem exists_nat_with_bits (lo : Nat) (y : Nat → Bool) :
    ∀ w : Nat, ∃ a : Nat, 2 ^ lo ∣ a ∧ a < 2 ^ (lo + w) ∧
      ∀ j, lo ≤ j → j < lo + w → a.testBit j = y j := by
  intro w
  induction w with
  | zero =>
    exact ⟨0, dvd_zero _, Nat.two_pow_pos _, fun j h1 h2 => absurd h2 (by omega)⟩
  | succ w ih =>
    obtain ⟨a, hdvd, hlt, hbits⟩ := ih
    have hpow : 2 ^ (lo + (w + 1)) = 2 * 2 ^ (lo + w) := by
      rw [← Nat.add_assoc, Nat.pow_succ, Nat.mul_comm]
    have htop : a.testBit (lo + w) = false := Nat.testBit_lt_two_pow hlt
    by_cases hy : y (lo + w) = true
    · refine ⟨2 ^ (lo + w) + a, Dvd.dvd.add (pow_dvd_pow 2 (Nat.le_add_right _ _)) hdvd,
        by omega, ?_⟩
      intro j h1 h2
      by_cases hj : j = lo + w
      · subst hj
        rw [Nat.testBit_two_pow_add_eq, htop, hy]
        rfl
      · rw [Nat.testBit_two_pow_add_gt (by omega)]
        exact hbits j h1 (by omega)
    · refine ⟨a, hdvd, by omega, ?_⟩
      intro j h1 h2
      by_cases hj : j = lo + w
      · subst hj
        rw [htop]
        exact (Bool.eq_false_iff.mpr hy).symm
      · exact hbits j h1 (by omega)

theorem testBit_add_of_dvd {lo start a : Nat} (hs : start < 2 ^ lo) (hdvd : 2 ^ lo ∣ a)
    {j : Nat} (hj : lo ≤ j) : (start + a).testBit j = a.testBit j := by
  obtain ⟨c, rfl⟩ := hdvd
  rw [Nat.add_comm, Nat.testBit_mul_pow_two_add c hs, Nat.testBit_mul_pow_two]
  simp [hj, Nat.not_lt.mpr hj]

theorem testBit_eq_false_of_lt_two_pow {a n j : Nat} (h : a < 2 ^ n) (hj : n ≤ j) :
    a.testBit j = false :=
  Nat.testBit_lt_two_pow (lt_of_lt_of_le h (Nat.pow_le_pow_right (by decide) hj))

theorem addr_bit_eq_zero_of_lt {a : Nat} {n i : Int} (h : a < 2 ^ n.toNat) (hi : n ≤ i) :
    addr_bit a i = 0 := by
  rw [addr_bit_eq_testBit, testBit_eq_false_of_lt_two_pow h (Int.toNat_le_toNat hi)]
  rfl

/-- Every pattern of bits on `[lo, hi]` is the pattern of a test address
`start + a` with `a` a multiple of `2^lo` below `2^(hi+1)`. -/
theorem exists_address (lo hi : Int) (h0 : 0 ≤ lo) (hle : lo ≤ hi + 1) (start : Nat)
    (hs : start < 2 ^ lo.toNat) (y : Int → ZMod 2) :
    ∃ a : Nat, 2 ^ lo.toNat ∣ a ∧ a < 2 ^ (hi + 1).toNat ∧
      (∀ i, lo ≤ i → i ≤ hi → addr_bit (start + a) i = y i ∧ addr_bit a i = y i) ∧
      (∀ i, hi < i → addr_bit (start + a) i = 0) := by
  obtain ⟨a, hdvd, hlt, hbits⟩ :=
    exists_nat_with_bits lo.toNat (fun j => decide (y (j : Int) = 1)) (hi + 1 - lo).toNat
  have hsum : lo.toNat + (hi + 1 - lo).toNat = (hi + 1).toNat := by omega
  rw [hsum] at hlt hbits
  refine ⟨a, hdvd, hlt, ?_, ?_⟩
  · intro i hi1 hi2
    have hb := hbits i.toNat (Int.toNat_le_toNat hi1) (by omega)
    have hcast : ((i.toNat : Nat) : Int) = i := Int.toNat_of_nonneg (by omega)
    rw [hcast] at hb
    rw [addr_bit_eq_testBit, addr_bit_eq_testBit,
      testBit_add_of_dvd hs hdvd (Int.toNat_le_toNat hi1), hb]
    have hy : y i = 0 ∨ y i = 1 := by
      generalize y i = z
      fin_cases z
      · exact Or.inl rfl
      · exact Or.inr rfl
    rcases hy with h | h <;> simp [h]
  · intro i hi1
    have hi3 : (hi + 1).toNat ≤ i.toNat := Int.toNat_le_toNat (by omega)
    rw [addr_bit_eq_testBit, testBit_add_of_dvd hs hdvd (by omega),
      testBit_eq_false_of_lt_two_pow hlt hi3]
    rfl

theorem eval_indexes_congr {t : Nat} {l : List Int} {x : Int → ZMod 2}
    (h : ∀ i ∈ l, addr_bit t i = x i) : eval_indexes t l = (l.map x).sum := by
  unfold eval_indexes
  rw [List.map_congr_left h]

theorem eval_indexes_eq_zero {t : Nat} {l : List Int} (h : ∀ i ∈ l, addr_bit t i = 0) :
    eval_indexes t l = 0 := by
  rw [eval_indexes_congr h]
  simp

theorem sum_map_filter_le (hi : Int) (l : List Int) (x : Int → ZMod 2) :
    ((l.filter (fun i => decide (i ≤ hi))).map x).sum =
      (l.map (fun i => if i ≤ hi then x i else 0)).sum := by
  induction l with
  | nil => rfl
  | cons i l ih =>
    by_cases h : i ≤ hi
    · rw [List.filter_cons_of_pos (by simpa using h), List.map_cons, List.sum_cons, ih,
        List.map_cons, List.sum_cons, if_pos h]
    · rw [List.filter_cons_of_neg (by simpa using h), ih, List.map_cons, List.sum_cons,
        if_neg h, zero_add]

theorem eval_indexes_low_part {t : Nat} {hi : Int} (s : solution_t)
    (h : ∀ i ∈ s.indexes, hi < i → addr_bit t i = 0) :
    eval_indexes t (low_part hi s).indexes = eval_indexes t s.indexes := by
  unfold eval_indexes low_part
  rw [sum_map_filter_le]
  apply congrArg
  apply List.map_congr_left
  intro i hi'
  split
  · rfl
  · rename_i hlt
    exact (h i hi' (by omega)).symm

theorem ground_truth_oracle_iff (truth : List solution_t) (a b : Nat)
    (hr : ∀ f ∈ truth, indexes_within 0 63 f) :
    ground_truth_oracle truth a b = true ↔
      ∀ f ∈ truth, eval_indexes a f.indexes = eval_indexes b f.indexes := by
  unfold ground_truth_oracle
  rw [List.all_eq_true]
  apply forall_congr'
  intro f
  apply imp_congr_right
  intro hf
  rw [decide_eq_true_iff]
  have hr' : ∀ i ∈ f.indexes, 0 ≤ i ∧ i < 64 := fun i hi => by
    have := hr f hf i hi
    omega
  obtain ⟨qa, hqa, ha, hca⟩ := get_partition_num_loop_spec a f.indexes 0 (by omega) hr'
  obtain ⟨qb, hqb, hb, hcb⟩ := get_partition_num_loop_spec b f.indexes 0 (by omega) hr'
  unfold solution_bit
  rw [ha, hb]
  simp only [Nat.cast_zero, zero_add] at hca hcb
  rw [← hca, ← hcb, bit_cast_inj qa qb hqa hqb]
  exact ⟨fun h => Option.some.inj h, fun h => by rw [h]⟩

theorem nodup_of_strictly_ascending {s : solution_t} (h : strictly_ascending s) :
    s.indexes.Nodup :=
  List.Pairwise.imp (fun hlt => ne_of_lt hlt) h

theorem sum_map_eq_dot (W : Finset Int) (l : List Int) (hl : l.Nodup) (hW : ∀ i ∈ l, i ∈ W)
    (x : Int → ZMod 2) : (l.map x).sum = ∑ i in W, solution_vec ⟨l⟩ i * x i := by
  rw [← List.sum_toFinset x hl]
  simp only [solution_vec, ite_mul, one_mul, zero_mul]
  rw [← Finset.sum_filter]
  apply Finset.sum_congr _ (fun _ _ => rfl)
  ext i
  simp only [List.mem_toFinset, Finset.mem_filter]
  exact ⟨fun h => ⟨hW i h, h⟩, fun h => h.2⟩

theorem dot_xor_sum (W : Finset Int) (sub : List solution_t) (x : Int → ZMod 2) :
    ∑ i in W, xor_sum sub i * x i =
      (sub.map (fun f => ∑ i in W, solution_vec f i * x i)).sum := by
  induction sub with
  | nil => simp [xor_sum]
  | cons f sub ih =>
    rw [List.map_cons, List.sum_cons, ← ih, ← Finset.sum_add_distrib]
    apply Finset.sum_congr rfl
    intro i _
    rw [xor_sum_cons, Pi.add_apply, add_mul]

/-- The value of an XOR combination is the XOR of the values: a solution in the
span of `F` agrees on two bit patterns whenever every solution of `F` does. -/
theorem sum_map_eq_of_in_xor_span {lo hi : Int} {F : List solution_t} {g : solution_t}
    (hF : ∀ f ∈ F, wf_solution lo hi f) (hg : wf_solution lo hi g) (hspan : in_xor_span F g)
    (x y : Int → ZMod 2) (h : ∀ f ∈ F, (f.indexes.map x).sum = (f.indexes.map y).sum) :
    (g.indexes.map x).sum = (g.indexes.map y).sum := by
  obtain ⟨sub, hsub, hv⟩ := hspan
  have hdot : ∀ (f : solution_t), wf_solution lo hi f → ∀ z : Int → ZMod 2,
      (f.indexes.map z).sum = ∑ i in Finset.Icc lo hi, solution_vec f i * z i :=
    fun f hf z => sum_map_eq_dot _ _ (nodup_of_strictly_ascending hf.1)
      (fun i hi' => Finset.mem_Icc.mpr (hf.2 i hi')) z
  rw [hdot g hg x, hdot g hg y, hv, dot_xor_sum, dot_xor_sum]
  apply congrArg
  apply List.map_congr_left
  intro f hf
  rw [← hdot f (hF f (hsub.subset hf)) x, ← hdot f (hF f (hsub.subset hf)) y]
  exact h f (hsub.subset hf)

theorem eval_indexes_eq_of_in_xor_span {lo hi : Int} {F : List solution_t} {g : solution_t}
    (hF : ∀ f ∈ F, wf_solution lo hi f) (hg : wf_solution lo hi g) (hspan : in_xor_span F g)
    (a b : Nat) (h : ∀ f ∈ F, eval_indexes a f.indexes = eval_indexes b f.indexes) :
    eval_indexes a g.indexes = eval_indexes b g.indexes :=
  sum_map_eq_of_in_xor_span hF hg hspan (addr_bit a) (addr_bit b) h

theorem solution_vec_low_part (hi : Int) (s : solution_t) :
    solution_vec (low_part hi s) = vec_low hi (solution_vec s) := by
  funext i
  simp only [solution_vec, low_part, vec_low, List.mem_filter, decide_eq_true_eq]
  by_cases h1 : i ∈ s.indexes <;> by_cases h2 : i ≤ hi <;> simp [h1, h2]

theorem vec_low_add (hi : Int) (u v : Int → ZMod 2) :
    vec_low hi (u + v) = vec_low hi u + vec_low hi v := by
  funext i
  simp only [vec_low, Pi.add_apply]
  split <;> simp

theorem xor_sum_map_low_part (hi : Int) (l : List solution_t) :
    xor_sum (l.map (low_part hi)) = vec_low hi (xor_sum l) := by
  induction l with
  | nil =>
    funext i
    simp [xor_sum, vec_low]
  | cons s l ih =>
    rw [List.map_cons, xor_sum_cons, xor_sum_cons, vec_low_add, ih, solution_vec_low_part]

theorem low_part_wf {lo hi k : Int} {s : solution_t} (h : wf_solution lo hi s) :
    wf_solution lo k (low_part k s) := by
  refine ⟨List.Pairwise.sublist (List.filter_sublist _) h.1, ?_⟩
  intro i hi'
  unfold low_part at hi'
  rw [List.mem_filter, decide_eq_true_eq] at hi'
  exact ⟨(h.2 i hi'.1).1, hi'.2⟩

theorem low_part_eq_self {lo hi k : Int} {s : solution_t} (h : indexes_within lo hi s)
    (hk : hi ≤ k) : low_part k s = s := by
  unfold low_part
  rw [List.filter_eq_self.mpr]
  intro i hi'
  have := h i hi'
  simpa using by omega

theorem low_part_low_part {k k' : Int} (h : k ≤ k') (s : solution_t) :
    low_part k (low_part k' s) = low_part k s := by
  unfold low_part
  simp only [List.filter_filter]
  congr 1
  apply List.filter_congr
  intro i _
  by_cases h1 : i ≤ k
  · have h2 : i ≤ k' := by omega
    simp [h1, h2]
  · simp [h1]

/-- Every vector supported on `[lo, hi]` is the vector of a well-formed
solution. -/
theorem exists_solution_of_vec (lo hi : Int) (v : Int → ZMod 2)
    (hv : ∀ i, v i ≠ 0 → lo ≤ i ∧ i ≤ hi) :
    ∃ g : solution_t, wf_solution lo hi g ∧ solution_vec g = v := by
  refine ⟨⟨((Finset.Icc lo hi).filter (fun i => v i = 1)).sort (· ≤ ·)⟩, ⟨?_, ?_⟩, ?_⟩
  · exact Finset.sort_sorted_lt ((Finset.Icc lo hi).filter (fun i => v i = 1))
  · intro i hi'
    simp only [Finset.mem_sort, Finset.mem_filter, Finset.mem_Icc] at hi'
    exact hi'.1
  · funext i
    simp only [solution_vec, Finset.mem_sort, Finset.mem_filter, Finset.mem_Icc]
    by_cases h1 : v i = 1
    · have := hv i (by rw [h1]; decide)
      simp [h1, this]
    · rw [if_neg (fun h => h1 h.2)]
      exact (zmod2_eq_zero_of_ne_one _ h1).symm


/-! ## Step 1 under the oracle of a ground truth -/

theorem find_highest_bit_loop_lt (mask lo : Nat) (h : mask < 2 ^ lo) :
    ∀ n, find_highest_bit_loop mask n < (lo : Int) := by
  intro n
  induction n with
  | zero =>
    unfold find_highest_bit_loop
    omega
  | succ i ih =>
    unfold find_highest_bit_loop
    split
    · rename_i hb
      rw [and_two_pow_ne_zero_iff] at hb
      by_contra hge
      have hle : lo ≤ i := by omega
      rw [testBit_eq_false_of_lt_two_pow h hle] at hb
      exact absurd hb (by decide)
    · exact ih

theorem end_bit_le_max_bit (ctx : hash_context_t) (hf : fresh ctx)
    (hs : ctx.start_addr < 2 ^ ctx.min_bit.toNat) :
    hash_find_solutions2_end_bit ctx ≤ ctx.max_bit := by
  obtain ⟨h0, h1, h2, -⟩ := hf
  have hfh := find_highest_bit_loop_lt ctx.start_addr ctx.min_bit.toNat hs
    (min ctx.max_bit ((MAX_NUM_INDEX : Int) - 1) + 1).toNat
  rw [Int.toNat_of_nonneg h0] at hfh
  unfold hash_find_solutions2_end_bit find_highest_bit
  rw [Int.tdiv_eq_ediv (by omega) (by omega)]
  omega

theorem add_le_of_dvd_of_lt {m a b : Nat} (ha : m ∣ a) (hb : m ∣ b) (h : a < b) :
    a + m ≤ b := by
  obtain ⟨c, rfl⟩ := ha
  obtain ⟨d, rfl⟩ := hb
  have hcd : c < d := Nat.lt_of_mul_lt_mul_left h
  calc m * c + m = m * (c + 1) := by ring
    _ ≤ m * d := Nat.mul_le_mul_left m hcd

theorem consistent_low_part {lo hi k : Int} {truth : List solution_t}
    {keys : List (Nat × Nat)} {g : solution_t} (h0 : 0 ≤ lo) (h63 : hi ≤ 63)
    (hT : ∀ f ∈ truth, wf_solution lo hi f) (hg : wf_solution lo hi g)
    (hspan : in_xor_span truth g) (hk : keys_below (ground_truth_oracle truth) k keys) :
    consistent keys (low_part k g) := by
  intro p hp
  obtain ⟨hc, h1, h2⟩ := hk p hp
  have hr : ∀ f ∈ truth, indexes_within 0 63 f := fun f hf i hi' => by
    have := (hT f hf).2 i hi'
    omega
  rw [ground_truth_oracle_iff truth _ _ hr] at hc
  rw [eval_indexes_low_part g (fun i _ hlt => addr_bit_eq_zero_of_lt h1 (by omega)),
    eval_indexes_low_part g (fun i _ hlt => addr_bit_eq_zero_of_lt h2 (by omega))]
  exact eval_indexes_eq_of_in_xor_span hT hg hspan _ _ hc

theorem mem_phase1_keys (ctx : hash_context_t) (check : Nat → Nat → Bool) (p : Nat × Nat) :
    p ∈ phase1_keys ctx check ↔
      ∃ t, t ∈ phase1_probes ctx ∧ check ctx.start_addr t = true ∧ p = (ctx.start_addr, t) := by
  unfold phase1_keys confirmed_pairs
  simp only [List.mem_map, List.mem_filter]
  constructor
  · rintro ⟨t, ⟨ht, hc⟩, rfl⟩
    exact ⟨t, ht, hc, rfl⟩
  · rintro ⟨t, ht, hc, rfl⟩
    exact ⟨t, ⟨ht, hc⟩, rfl⟩

theorem phase1_keys_below (ctx : hash_context_t) (check : Nat → Nat → Bool) (hf : fresh ctx)
    (hs : ctx.start_addr < 2 ^ ctx.min_bit.toNat) :
    keys_below check (hash_find_solutions2_end_bit ctx) (phase1_keys ctx check) := by
  intro p hp
  obtain ⟨t, ht, hc, rfl⟩ := (mem_phase1_keys ctx check p).mp hp
  have hE := end_bit_gt_min_bit ctx hf
  have hpow : 2 ^ ctx.min_bit.toNat ≤ 2 ^ (hash_find_solutions2_end_bit ctx + 1).toNat :=
    Nat.pow_le_pow_right (by decide) (Int.toNat_le_toNat (by omega))
  have hpos : 0 < 2 ^ (hash_find_solutions2_end_bit ctx + 1).toNat := Nat.two_pow_pos _
  have ht2 := ((phase1_probes_mem ctx t).mp ht).2
  unfold phase1_end_addr at ht2
  refine ⟨hc, ?_, ?_⟩
  · show ctx.start_addr < _
    omega
  · show t < _
    omega


theorem in_span_of_consistent (ctx : hash_context_t) (truth : List solution_t)
    (hS : recoverable ctx truth) (h : solution_t)
    (hwf : wf_solution ctx.min_bit (hash_find_solutions2_end_bit ctx) h)
    (hc : consistent (phase1_keys ctx (ground_truth_oracle truth)) h) :
    in_xor_span (truth.map (low_part (hash_find_solutions2_end_bit ctx))) h := by
  obtain ⟨hf, hs, hmax, hend, hne, hT, hind⟩ := hS
  have hEmin := end_bit_gt_min_bit ctx hf
  have hEmax := end_bit_le_max_bit ctx hf hs
  obtain ⟨h0, h1, h2, h3, -⟩ := hf
  apply in_xor_span_of_forall_zero
  · intro f' hf'
    obtain ⟨f, hf, rfl⟩ := List.mem_map.mp hf'
    exact nodup_of_strictly_ascending (low_part_wf (hT f hf)).1
  · exact nodup_of_strictly_ascending hwf.1
  · intro x hx
    obtain ⟨a, hdvd, hlt, hbits, hhigh⟩ :=
      exists_address ctx.min_bit (hash_find_solutions2_end_bit ctx) h0 (by omega)
        ctx.start_addr hs x
    have hr : ∀ f ∈ truth, indexes_within 0 63 f := fun f hf i hi' => by
      have := (hT f hf).2 i hi'
      omega
    have hcheck : ground_truth_oracle truth ctx.start_addr (ctx.start_addr + a) = true := by
      rw [ground_truth_oracle_iff truth _ _ hr]
      intro f hf
      rw [eval_indexes_eq_zero
          (fun i hi' => addr_bit_eq_zero_of_lt hs ((hT f hf).2 i hi').1),
        ← eval_indexes_low_part f (fun i _ hlt => hhigh i hlt),
        eval_indexes_congr (fun i hi' =>
          (hbits i ((low_part_wf (hT f hf)).2 i hi').1 ((low_part_wf (hT f hf)).2 i hi').2).1),
        hx _ (List.mem_map_of_mem _ hf)]
    have hprobe : ctx.start_addr + a ∈ phase1_probes ctx := by
      rw [phase1_probes_mem]
      constructor
      · obtain ⟨c, hc'⟩ := hdvd
        exact ⟨c, by rw [hc', Nat.mul_comm]⟩
      · unfold phase1_end_addr
        have hadd := add_le_of_dvd_of_lt hdvd
          (pow_dvd_pow 2 (Int.toNat_le_toNat (show ctx.min_bit ≤
            hash_find_solutions2_end_bit ctx + 1 by omega))) hlt
        have hpow : 2 ^ (hash_find_solutions2_end_bit ctx + 1).toNat ≤
            2 ^ (ctx.max_bit + 1).toNat :=
          Nat.pow_le_pow_right (by decide) (Int.toNat_le_toNat (by omega))
        apply le_min <;> omega
    have hcons := hc _ ((mem_phase1_keys ctx _ _).mpr ⟨_, hprobe, hcheck, rfl⟩)
    simp only at hcons
    rw [eval_indexes_eq_zero (fun i hi' => addr_bit_eq_zero_of_lt hs (hwf.2 i hi').1),
      eval_indexes_congr (fun i hi' => (hbits i (hwf.2 i hi').1 (hwf.2 i hi').2).1)] at hcons
    exact hcons.symm

theorem in_xor_span_self {l : List solution_t} {f : solution_t} (hf : f ∈ l) :
    in_xor_span l f :=
  ⟨[f], List.singleton_sublist.mpr hf, (xor_sum_singleton f).symm⟩

theorem low_part_mem_base_hypotheses (ctx : hash_context_t) (truth : List solution_t)
    (hS : recoverable ctx truth) (f : solution_t) (hf : f ∈ truth) :
    low_part (hash_find_solutions2_end_bit ctx) f ∈
      base_hypotheses ctx (ground_truth_oracle truth) := by
  obtain ⟨hfr, hs, hmax, hend, hne, hT, hind⟩ := hS
  have hEmin := end_bit_gt_min_bit ctx hfr
  have hkb := phase1_keys_below ctx (ground_truth_oracle truth) hfr hs
  have hwf : wf_solution ctx.min_bit (hash_find_solutions2_end_bit ctx)
      (low_part (hash_find_solutions2_end_bit ctx) f) := low_part_wf (hT f hf)
  have hvec : solution_vec (low_part (hash_find_solutions2_end_bit ctx) f) ≠ 0 := by
    have := hind [low_part (hash_find_solutions2_end_bit ctx) f]
      (List.singleton_sublist.mpr (List.mem_map_of_mem _ hf)) (by simp)
    rwa [xor_sum_singleton] at this
  have hdepth : 1 ≤ (low_part (hash_find_solutions2_end_bit ctx) f).depth := by
    unfold solution_t.depth
    have hnil : (low_part (hash_find_solutions2_end_bit ctx) f).indexes ≠ [] :=
      fun h => hvec ((solution_vec_eq_zero _).mpr h)
    exact List.length_pos.mpr hnil
  unfold base_hypotheses
  rw [List.mem_filter]
  refine ⟨(mem_all_hypotheses _ _ (le_of_lt hEmin) _).mpr ⟨hwf.1, hdepth, hwf.2⟩, ?_⟩
  apply decide_eq_true
  exact consistent_low_part hfr.1 (by omega) hT (hT f hf) (in_xor_span_self hf) hkb
theorem exists_list_map_eq {ρ : solution_t → solution_t} {P : solution_t → Prop} :
    ∀ R : List solution_t, (∀ r ∈ R, ∃ g, P g ∧ ρ g = r) →
      ∃ G : List solution_t, (∀ g ∈ G, P g) ∧ G.map ρ = R := by
  intro R
  induction R with
  | nil =>
    intro _
    exact ⟨[], fun g hg => absurd hg (List.not_mem_nil g), rfl⟩
  | cons r R ih =>
    intro h
    obtain ⟨g, hg, hgr⟩ := h r (List.mem_cons_self _ _)
    obtain ⟨G, hG, hGR⟩ := ih (fun r' hr' => h r' (List.mem_cons_of_mem _ hr'))
    refine ⟨g :: G, ?_, by rw [List.map_cons, hgr, hGR]⟩
    intro g' hg'
    rcases List.mem_cons.mp hg' with rfl | h'
    · exact hg
    · exact hG _ h'

theorem xor_sum_support {lo hi : Int} {l : List solution_t}
    (hl : ∀ s ∈ l, indexes_within lo hi s) (i : Int) (h : xor_sum l i ≠ 0) :
    lo ≤ i ∧ i ≤ hi := by
  by_contra hcon
  apply h
  apply xor_sum_apply_zero
  intro s hs hmem
  exact hcon (hl s hs i hmem)

/-- Every base hypothesis is the part on the bits up to `end_bit` of an XOR
combination of ground-truth functions. -/
theorem exists_lift (ctx : hash_context_t) (truth : List solution_t)
    (hS : recoverable ctx truth) (r : solution_t)
    (hr : r ∈ base_hypotheses ctx (ground_truth_oracle truth)) :
    ∃ g, (wf_solution ctx.min_bit ctx.max_bit g ∧ in_xor_span truth g) ∧
      low_part (hash_find_solutions2_end_bit ctx) g = r := by
  have hwf := base_hypotheses_wf ctx _ hS.1 r hr
  have hc : consistent (phase1_keys ctx (ground_truth_oracle truth)) r := by
    unfold base_hypotheses at hr
    exact of_decide_eq_true (List.mem_filter.mp hr).2
  obtain ⟨sub, hsub, hv⟩ := in_span_of_consistent ctx truth hS r hwf.1 hc
  obtain ⟨sub', hsub', rfl⟩ := List.sublist_map_iff.mp hsub
  obtain ⟨-, -, -, -, -, hT, -⟩ := hS
  obtain ⟨g, hg, hgv⟩ := exists_solution_of_vec ctx.min_bit ctx.max_bit (xor_sum sub')
    (xor_sum_support (fun s hs => (hT s (hsub'.subset hs)).2))
  refine ⟨g, ⟨hg, sub', hsub', hgv⟩, ?_⟩
  apply solution_vec_inj (low_part_wf hg).1 hwf.1.1
  rw [solution_vec_low_part, hgv, hv, xor_sum_map_low_part]

theorem truth_in_span_of_lifts (ctx : hash_context_t) (truth : List solution_t)
    (hS : recoverable ctx truth) (G : List solution_t)
    (hG : ∀ g ∈ G, wf_solution ctx.min_bit ctx.max_bit g ∧ in_xor_span truth g)
    (hspan : ∀ s ∈ base_hypotheses ctx (ground_truth_oracle truth),
      in_xor_span (G.map (low_part (hash_find_solutions2_end_bit ctx))) s)
    (f : solution_t) (hf : f ∈ truth) : in_xor_span G f := by
  obtain ⟨subR, hsubR, hv⟩ := hspan _ (low_part_mem_base_hypotheses ctx truth hS f hf)
  obtain ⟨subG, hsubG, rfl⟩ := List.sublist_map_iff.mp hsubR
  obtain ⟨-, -, -, -, -, hT, hind⟩ := hS
  refine ⟨subG, hsubG, ?_⟩
  have hmem : solution_vec f + xor_sum subG ∈
      Submodule.span (ZMod 2) {w | ∃ x ∈ truth, solution_vec x = w} :=
    Submodule.add_mem _ (Submodule.subset_span ⟨f, hf, rfl⟩)
      (span_le_of_in_xor_span (fun g hg => (hG g hg).2) (xor_sum_mem_span hsubG))
  obtain ⟨sub, hsub, hsum⟩ := (sublist_sum_iff_mem_span truth _).mpr hmem
  have hlow : xor_sum (sub.map (low_part (hash_find_solutions2_end_bit ctx))) = 0 := by
    rw [xor_sum_map_low_part, ← hsum, vec_low_add, ← solution_vec_low_part, hv,
      xor_sum_map_low_part, vec_add_self]
  have hnil : sub.map (low_part (hash_find_solutions2_end_bit ctx)) = [] := by
    by_contra hne
    exact hind _ (hsub.map _) hne hlow
  have hsub0 : sub = [] := List.map_eq_nil_iff.mp hnil
  subst hsub0
  have := vec_add_cancel hsum.symm
  rw [this]
  simp [xor_sum]

/-- Step 1 under the ground-truth oracle: the base solutions are the parts on
the bits up to `end_bit` of XOR combinations `G` of ground-truth functions
that span the ground truth, and step 2 is reached. -/
theorem phase1_recovers (ctx : hash_context_t) (truth : List solution_t)
    (hS : recoverable ctx truth) :
    ∃ (ctx1 : hash_context_t) (G : List solution_t),
      ctx1.min_bit = ctx.min_bit ∧ ctx1.max_bit = ctx.max_bit ∧
      ctx1.start_addr = ctx.start_addr ∧ ctx1.end_addr = ctx.end_addr ∧
      ctx1.keys = phase1_keys ctx (ground_truth_oracle truth) ∧
      (∀ g ∈ G, wf_solution ctx.min_bit ctx.max_bit g ∧ in_xor_span truth g) ∧
      (∀ f ∈ truth, in_xor_span G f) ∧
      xor_independent (G.map (low_part (hash_find_solutions2_end_bit ctx))) ∧
      G.length < 64 ∧
      (∀ r ∈ G.map (low_part (hash_find_solutions2_end_bit ctx)), 1 ≤ r.depth) ∧
      hash_find_solutions2 ctx (ground_truth_oracle truth) enough_memory =
        (hash_find_solutions2_step2 (ground_truth_oracle truth)
          (ctx.max_bit - hash_find_solutions2_end_bit ctx).toNat
          (hash_find_solutions2_end_bit ctx + 1)
          { ctx1 with solutions := G.map (low_part (hash_find_solutions2_end_bit ctx)) } []).map
          (fun r => (0, r.1, r.2)) := by
  have hS' := hS
  obtain ⟨hf, hs, hmax, hend, hne, hT, hind⟩ := hS
  have hEmin := end_bit_gt_min_bit ctx hf
  have hEmax := end_bit_le_max_bit ctx hf hs
  have h0 : 0 ≤ ctx.min_bit := hf.1
  obtain ⟨ctx1, R, caught, e1, e2, e3, e4, -, hk1, -, hsub, hgood, hnf, hrun⟩ :=
    hash_find_solutions2_unfold ctx (ground_truth_oracle truth) enough_memory hf (by omega)
  have hcaught : caught = false := hnf (fun _ => rfl)
  subst hcaught
  obtain ⟨hindR, hspan⟩ := hgood rfl
  simp only [Bool.false_eq_true, if_false, List.nil_append] at hrun
  have hwfH := base_hypotheses_wf ctx (ground_truth_oracle truth) hf
  obtain ⟨G, hG, hGR⟩ := exists_list_map_eq R
    (fun r hr => exists_lift ctx truth hS' r (hsub.subset hr))
  subst hGR
  have hr : ∀ f ∈ truth, indexes_within 0 63 f := fun f hf' i hi' => by
    have := (hT f hf').2 i hi'
    have := hf.1
    omega
  have hkeys : phase1_keys ctx (ground_truth_oracle truth) ≠ [] := by
    have hmem : (ctx.start_addr, ctx.start_addr) ∈
        phase1_keys ctx (ground_truth_oracle truth) := by
      rw [mem_phase1_keys]
      refine ⟨ctx.start_addr, ?_, ?_, rfl⟩
      · rw [phase1_probes_mem]
        refine ⟨⟨0, by simp⟩, ?_⟩
        unfold phase1_end_addr
        have hpow : 2 ^ ctx.min_bit.toNat ≤ 2 ^ (hash_find_solutions2_end_bit ctx + 1).toNat :=
          Nat.pow_le_pow_right (by decide) (Int.toNat_le_toNat (by omega))
        have := hf.2.2.2.1
        apply le_min <;> omega
      · rw [ground_truth_oracle_iff truth _ _ hr]
        exact fun _ _ => rfl
    exact List.ne_nil_of_mem hmem
  have hbase : base_hypotheses ctx (ground_truth_oracle truth) ≠ [] := by
    obtain ⟨f, hf'⟩ := List.exists_mem_of_ne_nil truth hne
    exact List.ne_nil_of_mem (low_part_mem_base_hypotheses ctx truth hS' f hf')
  have hlen := xor_independent_length_le _ (by omega) hindR
    (fun s hs' => (hwfH s (hsub.subset hs')).1.2)
  have huniq : ¬ are_unique_solutions_found
      (G.map (low_part (hash_find_solutions2_end_bit ctx))).length ctx.min_bit
      (hash_find_solutions2_end_bit ctx) = false := by
    unfold are_unique_solutions_found
    have hW : (WORD : Int) = 18446744073709551616 := by norm_num [WORD]
    rw [Int.emod_eq_of_lt (by omega) (by rw [hW]; omega)]
    simp only [decide_eq_false_iff_not, not_not]
    omega
  rw [if_neg hkeys, if_neg hbase, if_neg huniq] at hrun
  refine ⟨ctx1, G, e1, e2, e3, e4, hk1, hG, ?_, hindR, ?_, ?_, hrun⟩
  · exact truth_in_span_of_lifts ctx truth hS' G hG hspan
  · rw [List.length_map] at hlen
    omega
  · intro r hr'
    exact (hwfH r (hsub.subset hr')).2


/-! ## Step 2 under the oracle of a ground truth -/

theorem extend_from_shift (new_bit : Int) (i : Nat) (l : List solution_t) :
    ∀ j, extend_from new_bit i (j + 1) l = extend_from new_bit (i / 2) j l := by
  induction l with
  | nil => intro j; rfl
  | cons s rest ih =>
    intro j
    simp only [extend_from]
    rw [ih (j + 1), Nat.testBit_div_two]

theorem extend_from_cons (new_bit : Int) (i : Nat) (s : solution_t) (rest : List solution_t) :
    extend_from new_bit i 0 (s :: rest) =
      (if i % 2 = 1 then ⟨s.indexes ++ [new_bit]⟩ else s) ::
        extend_from new_bit (i / 2) 0 rest := by
  simp only [extend_from]
  rw [extend_from_shift, Nat.testBit_zero]
  simp

/-- Every choice of extensions is one of the candidates. -/
theorem extend_from_surj (new_bit : Int) :
    ∀ (l c : List solution_t),
      List.Forall₂ (fun s s' => s' = s ∨ s' = ⟨s.indexes ++ [new_bit]⟩) l c →
      ∃ i, i < 2 ^ l.length ∧ extend_from new_bit i 0 l = c := by
  intro l
  induction l with
  | nil =>
    intro c h
    cases h
    exact ⟨0, by simp, rfl⟩
  | cons s rest ih =>
    intro c h
    cases h with
    | cons hhead htail =>
      rename_i s' c'
      obtain ⟨i, hi, hc⟩ := ih c' htail
      rw [List.length_cons, Nat.pow_succ]
      rcases hhead with rfl | rfl
      · refine ⟨2 * i, by omega, ?_⟩
        rw [extend_from_cons, Nat.mul_mod_right, if_neg (by decide),
          Nat.mul_div_cancel_left i (by decide), hc]
      · refine ⟨2 * i + 1, by omega, ?_⟩
        rw [extend_from_cons, if_pos (by omega), show (2 * i + 1) / 2 = i by omega, hc]

theorem solution_ne_append (s : solution_t) (k : Int) : s ≠ ⟨s.indexes ++ [k]⟩ := by
  intro h
  have := congrArg (fun t => t.indexes.length) h
  simp at this

/-- Different candidate numbers give different candidates. -/
theorem extend_from_inj (new_bit : Int) :
    ∀ (l : List solution_t) (i i' : Nat), i < 2 ^ l.length → i' < 2 ^ l.length →
      extend_from new_bit i 0 l = extend_from new_bit i' 0 l → i = i' := by
  intro l
  induction l with
  | nil =>
    intro i i' hi hi' _
    simp at hi hi'
    omega
  | cons s rest ih =>
    intro i i' hi hi' h
    rw [List.length_cons, Nat.pow_succ] at hi hi'
    rw [extend_from_cons, extend_from_cons] at h
    obtain ⟨hhead, htail⟩ := List.cons.inj h
    have hdiv := ih (i / 2) (i' / 2) (by omega) (by omega) htail
    have hmod : i % 2 = i' % 2 := by
      by_cases h1 : i % 2 = 1 <;> by_cases h2 : i' % 2 = 1
      · omega
      · rw [if_pos h1, if_neg h2] at hhead
        exact absurd hhead.symm (solution_ne_append s new_bit)
      · rw [if_neg h1, if_pos h2] at hhead
        exact absurd hhead (solution_ne_append s new_bit)
      · omega
    omega

theorem candidates_nodup (new_bit : Int) (l : List solution_t) :
    ((List.range (2 ^ l.length)).map (fun i => extend_from new_bit i 0 l)).Nodup := by
  apply List.Nodup.map_on _ (List.nodup_range _)
  intro i hi i' hi' h
  exact extend_from_inj new_bit l i i' (List.mem_range.mp hi) (List.mem_range.mp hi') h

theorem eq_singleton_of_nodup {α : Type} {l : List α} {a : α} (hnd : l.Nodup)
    (hall : ∀ x ∈ l, x = a) (ha : a ∈ l) : l = [a] := by
  cases l with
  | nil => exact absurd ha (List.not_mem_nil a)
  | cons x rest =>
    have hx : x = a := hall x (List.mem_cons_self _ _)
    subst hx
    rw [List.nodup_cons] at hnd
    have hrest : rest = [] := by
      apply List.eq_nil_iff_forall_not_mem.mpr
      intro y hy
      have := hall y (List.mem_cons_of_mem _ hy)
      subst this
      exact hnd.1 hy
    rw [hrest]

theorem low_part_step {lo hi : Int} (k : Int) {g : solution_t} (hg : wf_solution lo hi g) :
    low_part k g = low_part (k - 1) g ∨
      low_part k g = ⟨(low_part (k - 1) g).indexes ++ [k]⟩ := by
  by_cases hk : k ∈ g.indexes
  · right
    have hasc : (⟨(low_part (k - 1) g).indexes ++ [k]⟩ : solution_t).indexes.Pairwise (· < ·) := by
      show ((low_part (k - 1) g).indexes ++ [k]).Pairwise (· < ·)
      rw [List.pairwise_append]
      refine ⟨(low_part_wf (k := k - 1) hg).1, List.pairwise_singleton _ _, ?_⟩
      intro a ha b hb
      have hwf1 : wf_solution lo (k - 1) (low_part (k - 1) g) := low_part_wf hg
      have := (hwf1.2 a ha).2
      rw [List.mem_singleton] at hb
      omega
    have hwfk : wf_solution lo k (low_part k g) := low_part_wf hg
    have hext : (low_part k g).indexes = (low_part (k - 1) g).indexes ++ [k] :=
      sorted_ext hwfk.1 hasc (fun x => by
        simp only [low_part, List.mem_filter, List.mem_append, List.mem_singleton,
          decide_eq_true_eq]
        constructor
        · rintro ⟨h1, h2⟩
          by_cases hxk : x = k
          · exact Or.inr hxk
          · exact Or.inl ⟨h1, by omega⟩
        · rintro (⟨h1, h2⟩ | rfl)
          · exact ⟨h1, by omega⟩
          · exact ⟨hk, le_refl _⟩)
    exact congrArg solution_t.mk hext
  · left
    unfold low_part
    congr 1
    apply List.filter_congr
    intro x hx
    have hne : x ≠ k := fun h => hk (h ▸ hx)
    by_cases h1 : x ≤ k
    · have h2 : x ≤ k - 1 := by omega
      simp [h1, h2]
    · have h2 : ¬ x ≤ k - 1 := by omega
      simp [h1, h2]

theorem low_part_depth_mono {k k' : Int} (h : k ≤ k') (s : solution_t) :
    (low_part k s).depth ≤ (low_part k' s).depth := by
  rw [← low_part_low_part h s]
  unfold solution_t.depth
  exact List.length_filter_le _ _

theorem eval_indexes_append (t : Nat) (l : List Int) (k : Int) :
    eval_indexes t (l ++ [k]) = eval_indexes t l + addr_bit t k := by
  simp [eval_indexes, List.map_append, List.sum_append]

/-- Two choices of extensions whose solutions all satisfy `P` are the same
when no solution satisfies `P` both extended and not. -/
theorem extension_unique (new_bit : Int) (P : solution_t → Prop) :
    ∀ (l c c' : List solution_t),
      List.Forall₂ (fun s s' => s' = s ∨ s' = ⟨s.indexes ++ [new_bit]⟩) l c →
      List.Forall₂ (fun s s' => s' = s ∨ s' = ⟨s.indexes ++ [new_bit]⟩) l c' →
      (∀ s ∈ l, ¬ (P s ∧ P ⟨s.indexes ++ [new_bit]⟩)) →
      (∀ s ∈ c, P s) → (∀ s ∈ c', P s) → c = c' := by
  intro l
  induction l with
  | nil =>
    intro c c' h h' _ _ _
    cases h
    cases h'
    rfl
  | cons s rest ih =>
    intro c c' h h' hP hc hc'
    cases h with
    | cons hhead htail =>
      cases h' with
      | cons hhead' htail' =>
        rename_i s1 c1 s2 c2
        have hrest := ih c1 c2 htail htail'
          (fun t ht => hP t (List.mem_cons_of_mem _ ht))
          (fun t ht => hc t (List.mem_cons_of_mem _ ht))
          (fun t ht => hc' t (List.mem_cons_of_mem _ ht))
        have h1 := hc s1 (List.mem_cons_self _ _)
        have h2 := hc' s2 (List.mem_cons_self _ _)
        have hno := hP s (List.mem_cons_self _ _)
        rw [hrest]
        congr 1
        rcases hhead with rfl | rfl <;> rcases hhead' with rfl | rfl
        · rfl
        · exact absurd ⟨h1, h2⟩ hno
        · exact absurd ⟨h2, h1⟩ hno
        · rfl
/-- The probing loop when some test address is confirmed and the first
confirmed one leaves at most one candidate: the loop stops there, with that
pair recorded and the candidates consistent with it. -/
theorem try_accomodate_new_bit_probe_first (check : Nat → Nat → Bool) (end_addr stride : Nat)
    (hwrap : end_addr + stride < WORD) :
    ∀ (n fuel : Nat) (ctx : hash_context_t) (all : List (List solution_t)),
      ctx.test_addr + n * stride ≤ end_addr →
      end_addr - ctx.test_addr < fuel * stride →
      (∀ m, m < n → check ctx.base_addr (ctx.test_addr + m * stride) = false) →
      check ctx.base_addr (ctx.test_addr + n * stride) = true →
      (∀ c ∈ all, evaluable c) → ¬ all.length ≤ 1 →
      (all.filter (fun c => decide (all_consistent
        (ctx.keys ++ [(ctx.base_addr, ctx.test_addr + n * stride)]) c))).length ≤ 1 →
      ∃ ctx', try_accomodate_new_bit_probe check end_addr stride fuel ctx all =
          some (ctx', all.filter (fun c => decide (all_consistent
            (ctx.keys ++ [(ctx.base_addr, ctx.test_addr + n * stride)]) c))) ∧
        same_setup ctx ctx' ∧
        ctx'.keys = ctx.keys ++ [(ctx.base_addr, ctx.test_addr + n * stride)] := by
  intro n
  induction n with
  | zero =>
    intro fuel ctx all hle hf _ hchk hall hlen hfil
    simp only [Nat.zero_mul, Nat.add_zero] at hle hchk hfil ⊢
    cases fuel with
    | zero => simp at hf
    | succ fuel =>
      have herase := try_accomodate_new_bit_erase_spec
        (hash_confirm_pair ctx ctx.base_addr ctx.test_addr).keys all hall
      have hkeys : (hash_confirm_pair ctx ctx.base_addr ctx.test_addr).keys =
          ctx.keys ++ [(ctx.base_addr, ctx.test_addr)] := rfl
      rw [hkeys] at herase
      refine ⟨hash_confirm_pair ctx ctx.base_addr ctx.test_addr, ?_,
        ⟨rfl, rfl, rfl, rfl, rfl, rfl⟩, rfl⟩
      rw [try_accomodate_new_bit_probe, if_pos hle]
      simp only [hchk, if_true, hkeys, herase, hfil]
  | succ n ih =>
    intro fuel ctx all hle hf hbefore hchk hall hlen hfil
    have hle0 : ctx.test_addr ≤ end_addr := by
      have := Nat.le_add_right ctx.test_addr ((n + 1) * stride)
      omega
    cases fuel with
    | zero => simp at hf
    | succ fuel =>
      obtain ⟨hmod, hf'⟩ := loop_step_fuel hwrap hle0 hf
      have hchk0 : check ctx.base_addr ctx.test_addr = false := by
        have := hbefore 0 (Nat.succ_pos n)
        simpa using this
      have hstep : ctx.test_addr + stride + n * stride = ctx.test_addr + (n + 1) * stride := by
        rw [Nat.succ_mul]
        omega
      have hle1 : ctx.test_addr + stride ≤ end_addr := by
        have := Nat.le_add_right (ctx.test_addr + stride) (n * stride)
        omega
      rw [hmod] at hf'
      obtain ⟨ctx', hrun, hsetup, hk⟩ := ih fuel
        { ctx with test_addr := ctx.test_addr + stride } all
        (by simp only; rw [hstep]; exact hle)
        (hf' hle1)
        (fun m hm => by
          simp only
          have := hbefore (m + 1) (by omega)
          rw [Nat.succ_mul] at this
          rw [show ctx.test_addr + stride + m * stride = ctx.test_addr + (m * stride + stride)
            by omega]
          exact this)
        (by simp only; rw [hstep]; exact hchk)
        hall hlen
        (by simp only; rw [hstep]; exact hfil)
      simp only [hstep] at hrun hk
      refine ⟨ctx', ?_, same_setup_trans ⟨rfl, rfl, rfl, rfl, rfl, rfl⟩ hsetup, hk⟩
      rw [try_accomodate_new_bit_probe, if_pos hle0]
      simp only [hchk0, Bool.false_eq_true, if_false, hlen, hmod]
      exact hrun
/-- One round of step 2 under the oracle of a ground truth: when the solutions
are the parts up to bit `k - 1` of XOR combinations `G` of ground-truth
functions, the round leaves their parts up to bit `k`. -/
theorem try_accomodate_new_bit_recovers (ctx : hash_context_t) (truth G : List solution_t)
    (E k hi : Int)
    (h0 : 0 ≤ ctx.min_bit) (hs : ctx.start_addr < 2 ^ ctx.min_bit.toNat) (hhi : hi ≤ 62)
    (hend : ctx.start_addr + 2 ^ (hi + 1).toNat ≤ ctx.end_addr + 2 ^ ctx.min_bit.toNat)
    (hT : ∀ f ∈ truth, wf_solution ctx.min_bit hi f)
    (hEmin : ctx.min_bit ≤ E) (hEk : E < k) (hk : k ≤ hi)
    (hind : xor_independent (truth.map (low_part E)))
    (hG : ∀ g ∈ G, wf_solution ctx.min_bit hi g ∧ in_xor_span truth g)
    (hGne : G ≠ []) (hlen : G.length < 64)
    (hdepth : ∀ g ∈ G, 1 ≤ (low_part E g).depth)
    (hsol : ctx.solutions = G.map (low_part (k - 1)))
    (hkeys : keys_below (ground_truth_oracle truth) (k - 1) ctx.keys) :
    ∃ ctx', try_accomodate_new_bit ctx k (ground_truth_oracle truth) = some (ctx', []) ∧
      ctx'.min_bit = ctx.min_bit ∧ ctx'.max_bit = ctx.max_bit ∧
      ctx'.start_addr = ctx.start_addr ∧ ctx'.end_addr = ctx.end_addr ∧
      ctx'.solutions = G.map (low_part k) ∧
      keys_below (ground_truth_oracle truth) k ctx'.keys := by
  have hr : ∀ f ∈ truth, indexes_within 0 63 f := fun f hf i hi' => by
    have := (hT f hf).2 i hi'
    omega
  have hsols : ∀ s ∈ ctx.solutions, wf_solution ctx.min_bit (k - 1) s ∧ 1 ≤ s.depth := by
    rw [hsol]
    intro s hs'
    obtain ⟨g, hg, rfl⟩ := List.mem_map.mp hs'
    exact ⟨low_part_wf (hG g hg).1,
      le_trans (hdepth g hg) (low_part_depth_mono (by omega) g)⟩
  have hn : ctx.solutions.length < 64 := by
    rw [hsol, List.length_map]
    exact hlen
  have hcan : ∀ s ∈ ctx.solutions, can_extend k s := fun s hs' =>
    wf_solution_can_extend (hsols s hs').1 (hsols s hs').2 h0 (by omega)
  have hperm := try_accomodate_new_bit_permute_spec k ctx.solutions hn hcan
  have hs1 := shl1_eq (n := k + 1) (by omega) (by omega)
  have hs2 := shl1_eq (n := k) (by omega) (by omega)
  have hs3 := shl1_eq (n := ctx.min_bit) h0 (by omega)
  have p1 : 2 ^ (k + 1).toNat ≤ 2 ^ 63 := two_pow_le_of_le (by omega)
  have p2 : 2 ^ k.toNat ≤ 2 ^ 62 := two_pow_le_of_le (by omega)
  have p3 : 2 ^ ctx.min_bit.toNat ≤ 2 ^ 61 := two_pow_le_of_le (by omega)
  have p4 : 0 < 2 ^ ctx.min_bit.toNat := Nat.two_pow_pos _
  have p5 : 2 ^ (k + 1).toNat = 2 * 2 ^ k.toNat := by
    rw [show (k + 1).toNat = k.toNat + 1 by omega, Nat.pow_succ, Nat.mul_comm]
  have p6 : 2 ^ (k + 1).toNat ≤ 2 ^ (hi + 1).toNat :=
    Nat.pow_le_pow_right (by decide) (Int.toNat_le_toNat (by omega))
  have p7 : 2 ^ ctx.min_bit.toNat ≤ 2 ^ k.toNat :=
    Nat.pow_le_pow_right (by decide) (Int.toNat_le_toNat (by omega))
  have hdvdk : 2 ^ ctx.min_bit.toNat ∣ 2 ^ k.toNat :=
    pow_dvd_pow 2 (Int.toNat_le_toNat (by omega))
  have hdvdk1 : 2 ^ ctx.min_bit.toNat ∣ 2 ^ (k + 1).toNat :=
    pow_dvd_pow 2 (Int.toNat_le_toNat (by omega))
  have hW : WORD = 2 ^ 64 := rfl
  norm_num at p1 p2 p3 hW
  have hm1 : (ctx.start_addr + 2 ^ (k + 1).toNat) % WORD =
      ctx.start_addr + 2 ^ (k + 1).toNat := Nat.mod_eq_of_lt (by omega)
  have hm2 : (ctx.start_addr + 2 ^ k.toNat) % WORD =
      ctx.start_addr + 2 ^ k.toNat := Nat.mod_eq_of_lt (by omega)
  have heval : ∀ c ∈ (List.range (2 ^ ctx.solutions.length)).map
      (fun i => extend_from k i 0 ctx.solutions), evaluable c := by
    intro c hc s hs'
    obtain ⟨i, -, rfl⟩ := List.mem_map.mp hc
    obtain ⟨hwf, hd⟩ := extend_from_wf i ctx.solutions hsols (by omega) 0 s hs'
    exact ⟨hd, fun x hx => by have := hwf.2 x hx; constructor <;> omega⟩
  -- a confirmed test address exists
  obtain ⟨x, hx⟩ := exists_point_with_values (low_part E) (fun f => solution_vec f k) truth
    (fun f hf => nodup_of_strictly_ascending (low_part_wf (hT f hf)).1) hind
  obtain ⟨y, hy⟩ : ∃ y : Int → ZMod 2,
      y = (fun i => if i ≤ E then x i else 0) +
        (1 : ZMod 2) • (Pi.single k (1 : ZMod 2) : Int → ZMod 2) := ⟨_, rfl⟩
  have hyk : y k = 1 := by
    rw [hy]
    simp [not_le.mpr hEk]
  have hyhigh : ∀ i, k < i → y i = 0 := by
    intro i hi'
    rw [hy]
    have h1 : ¬ i ≤ E := by omega
    have h2 : i ≠ k := by omega
    simp [h1, h2]
  obtain ⟨a, hdvd, hlt, hbits, hhigh⟩ :=
    exists_address ctx.min_bit k h0 (by omega) ctx.start_addr hs y
  have hak : 2 ^ k.toNat ≤ a := by
    have hb := (hbits k (by omega) (le_refl k)).2
    rw [hyk, addr_bit_eq_testBit] at hb
    by_cases hbit : a.testBit k.toNat = true
    · exact Nat.testBit_implies_ge hbit
    · rw [if_neg hbit] at hb
      exact absurd hb (by decide)
  have hcheck_star : ground_truth_oracle truth ctx.start_addr (ctx.start_addr + a) = true := by
    rw [ground_truth_oracle_iff truth _ _ hr]
    intro f hf
    have hfw := hT f hf
    have hbits' : ∀ i ∈ f.indexes, addr_bit (ctx.start_addr + a) i = y i := by
      intro i hi'
      by_cases hik : i ≤ k
      · exact (hbits i (hfw.2 i hi').1 hik).1
      · rw [hhigh i (by omega), hyhigh i (by omega)]
    rw [eval_indexes_eq_zero (fun i hi' => addr_bit_eq_zero_of_lt hs (hfw.2 i hi').1),
      eval_indexes_congr hbits', hy, sum_map_add_smul, one_mul, ← sum_map_filter_le,
      sum_map_single _ (nodup_of_strictly_ascending hfw.1)]
    have := hx f hf
    unfold low_part at this
    simp only at this
    rw [this]
    exact (zmod2_add_self _).symm
  obtain ⟨n, hn'⟩ : ∃ n, a = 2 ^ k.toNat + n * 2 ^ ctx.min_bit.toNat := by
    obtain ⟨c, hc⟩ := hdvd
    obtain ⟨d, hd⟩ := hdvdk
    have hdc : d ≤ c := by
      by_contra hcon
      have : 2 ^ ctx.min_bit.toNat * c < 2 ^ ctx.min_bit.toNat * d :=
        (Nat.mul_lt_mul_left p4).mpr (by omega)
      omega
    refine ⟨c - d, ?_⟩
    rw [hc, hd, Nat.mul_comm (c - d), ← Nat.mul_add, Nat.add_sub_cancel' hdc]
  have hP : ∃ m, ground_truth_oracle truth ctx.start_addr
      (ctx.start_addr + 2 ^ k.toNat + m * 2 ^ ctx.min_bit.toNat) = true :=
    ⟨n, by rw [Nat.add_assoc, ← hn']; exact hcheck_star⟩
  have hn1 := Nat.find_spec hP
  have hmin1 : ∀ m, m < Nat.find hP → ground_truth_oracle truth ctx.start_addr
      (ctx.start_addr + 2 ^ k.toNat + m * 2 ^ ctx.min_bit.toNat) = false := fun m hm => by
    have := Nat.find_min hP hm
    simpa using this
  have hle1 : Nat.find hP ≤ n := Nat.find_min' hP (by rw [Nat.add_assoc, ← hn']; exact hcheck_star)
  generalize Nat.find hP = n1 at hn1 hmin1 hle1
  have hmul : n1 * 2 ^ ctx.min_bit.toNat ≤ n * 2 ^ ctx.min_bit.toNat :=
    Nat.mul_le_mul_right _ hle1
  have hdvd1 : 2 ^ ctx.min_bit.toNat ∣ 2 ^ k.toNat + n1 * 2 ^ ctx.min_bit.toNat :=
    Dvd.dvd.add hdvdk (Dvd.intro_left _ rfl)
  have hadd1 := add_le_of_dvd_of_lt hdvd1 hdvdk1
    (show 2 ^ k.toNat + n1 * 2 ^ ctx.min_bit.toNat < 2 ^ (k + 1).toNat by omega)
  have ht1 : ctx.start_addr + 2 ^ k.toNat + n1 * 2 ^ ctx.min_bit.toNat <
      2 ^ (k + 1).toNat := by omega
  have hbit1 : addr_bit (ctx.start_addr + 2 ^ k.toNat + n1 * 2 ^ ctx.min_bit.toNat) k = 1 := by
    rw [Nat.add_assoc, addr_bit_eq_testBit,
      testBit_add_of_dvd hs hdvd1 (Int.toNat_le_toNat (by omega)),
      Nat.testBit_two_pow_add_eq,
      Nat.testBit_lt_two_pow (show n1 * 2 ^ ctx.min_bit.toNat < 2 ^ k.toNat by omega)]
    rfl
  -- the keys after the confirmed address
  have hkb1 : keys_below (ground_truth_oracle truth) k
      (ctx.keys ++ [(ctx.start_addr,
        ctx.start_addr + 2 ^ k.toNat + n1 * 2 ^ ctx.min_bit.toNat)]) := by
    intro p hp
    rcases List.mem_append.mp hp with hp | hp
    · obtain ⟨hc, h1, h2⟩ := hkeys p hp
      have hpow : 2 ^ (k - 1 + 1).toNat ≤ 2 ^ (k + 1).toNat :=
        Nat.pow_le_pow_right (by decide) (Int.toNat_le_toNat (by omega))
      exact ⟨hc, by omega, by omega⟩
    · rw [List.mem_singleton] at hp
      subst hp
      exact ⟨hn1, by show ctx.start_addr < _; omega, ht1⟩
  have hrel_star : List.Forall₂ (fun s s' => s' = s ∨ s' = ⟨s.indexes ++ [k]⟩)
      ctx.solutions (G.map (low_part k)) := by
    rw [hsol, List.forall₂_map_left_iff, List.forall₂_map_right_iff, List.forall₂_same]
    intro g hg
    exact low_part_step k (hG g hg).1
  obtain ⟨istar, histar, hcs⟩ := extend_from_surj k ctx.solutions _ hrel_star
  have hcons_star : all_consistent
      (ctx.keys ++ [(ctx.start_addr,
        ctx.start_addr + 2 ^ k.toNat + n1 * 2 ^ ctx.min_bit.toNat)])
      (G.map (low_part k)) := by
    intro s hs'
    obtain ⟨g, hg, rfl⟩ := List.mem_map.mp hs'
    exact consistent_low_part h0 (by omega) hT (hG g hg).1 (hG g hg).2 hkb1
  have hfil : ((List.range (2 ^ ctx.solutions.length)).map
      (fun i => extend_from k i 0 ctx.solutions)).filter
      (fun c => decide (all_consistent (ctx.keys ++ [(ctx.start_addr,
        ctx.start_addr + 2 ^ k.toNat + n1 * 2 ^ ctx.min_bit.toNat)]) c)) =
      [G.map (low_part k)] := by
    apply eq_singleton_of_nodup ((candidates_nodup k ctx.solutions).filter _)
    · intro c hc
      obtain ⟨hc1, hc2⟩ := List.mem_filter.mp hc
      obtain ⟨i, -, rfl⟩ := List.mem_map.mp hc1
      have hc3 := of_decide_eq_true hc2
      apply extension_unique k (fun s => eval_indexes ctx.start_addr s.indexes =
        eval_indexes (ctx.start_addr + 2 ^ k.toNat + n1 * 2 ^ ctx.min_bit.toNat) s.indexes)
        ctx.solutions _ _ (extend_from_rel k i ctx.solutions 0) hrel_star
      · rintro s - ⟨h1, h2⟩
        simp only [eval_indexes_append] at h2
        rw [addr_bit_eq_zero_of_lt hs (show ctx.min_bit ≤ k by omega), hbit1, add_zero, h1] at h2
        have h3 : (0 : ZMod 2) = 1 := add_left_cancel (by rw [add_zero]; exact h2)
        exact absurd h3 (by decide)
      · intro s hs'
        exact hc3 s hs' _ (List.mem_append_right _ (List.mem_singleton_self _))
      · intro s hs'
        exact hcons_star s hs' _ (List.mem_append_right _ (List.mem_singleton_self _))
    · exact List.mem_filter.mpr
        ⟨List.mem_map.mpr ⟨istar, List.mem_range.mpr histar, hcs⟩, decide_eq_true hcons_star⟩
  have hlen2 : ¬ ((List.range (2 ^ ctx.solutions.length)).map
      (fun i => extend_from k i 0 ctx.solutions)).length ≤ 1 := by
    rw [List.length_map, List.length_range, hsol, List.length_map]
    have h1 : 1 ≤ G.length := List.length_pos.mpr hGne
    have : 2 ^ 1 ≤ 2 ^ G.length := Nat.pow_le_pow_right (by decide) h1
    omega
  obtain ⟨ctx1, hrun, hsetup, hk1⟩ :=
    try_accomodate_new_bit_probe_first (ground_truth_oracle truth)
      (min ctx.end_addr (ctx.start_addr + 2 ^ (k + 1).toNat)) (2 ^ ctx.min_bit.toNat)
      (by omega) n1
      (loop_fuel (ctx.start_addr + 2 ^ k.toNat)
        (min ctx.end_addr (ctx.start_addr + 2 ^ (k + 1).toNat)) (2 ^ ctx.min_bit.toNat))
      { ctx with base_addr := ctx.start_addr, test_addr := ctx.start_addr + 2 ^ k.toNat }
      _ (by simp only; apply le_min <;> omega) (loop_fuel_enough _ _ _ p4) hmin1 hn1 heval hlen2
      (by simp only; rw [hfil]; simp)
  simp only at hrun hk1
  rw [hfil] at hrun
  obtain ⟨e1, e2, e3, e4, e5, e6⟩ := hsetup
  simp only at e1 e2 e3 e4 e5 e6
  refine ⟨{ ctx1 with solutions := G.map (low_part k) }, ?_, e1, e2, e3, e4, rfl, ?_⟩
  · unfold try_accomodate_new_bit
    rw [if_neg (by omega), hperm, hs1, hs2, hs3]
    simp only [hm1, hm2, hrun]
  · show keys_below _ k ctx1.keys
    rw [hk1]
    exact hkb1
/-- Step 2 under the oracle of a ground truth: from the parts up to bit `k - 1`
of the XOR combinations `G` to their parts up to the last bit `hi`. -/
theorem hash_find_solutions2_step2_recovers (truth G : List solution_t) (E lo hi : Int)
    (start end_addr : Nat) (h0 : 0 ≤ lo) (hs : start < 2 ^ lo.toNat) (hhi : hi ≤ 62)
    (hend : start + 2 ^ (hi + 1).toNat ≤ end_addr + 2 ^ lo.toNat)
    (hT : ∀ f ∈ truth, wf_solution lo hi f) (hEmin : lo ≤ E)
    (hind : xor_independent (truth.map (low_part E)))
    (hG : ∀ g ∈ G, wf_solution lo hi g ∧ in_xor_span truth g)
    (hGne : G ≠ []) (hlen : G.length < 64)
    (hdepth : ∀ g ∈ G, 1 ≤ (low_part E g).depth) :
    ∀ (n : Nat) (k : Int) (ctx : hash_context_t) (err : List diagnostic),
      ctx.min_bit = lo → ctx.start_addr = start → ctx.end_addr = end_addr →
      E < k → k + n = hi + 1 →
      ctx.solutions = G.map (low_part (k - 1)) →
      keys_below (ground_truth_oracle truth) (k - 1) ctx.keys →
      ∃ ctx', hash_find_solutions2_step2 (ground_truth_oracle truth) n k ctx err =
          some (ctx', err) ∧
        ctx'.solutions = G.map (low_part hi) := by
  intro n
  induction n with
  | zero =>
    intro k ctx err _ _ _ _ hkn hsol _
    have hk : k - 1 = hi := by omega
    rw [hk] at hsol
    exact ⟨ctx, rfl, hsol⟩
  | succ n ih =>
    intro k ctx err hmin hst hen hEk hkn hsol hkeys
    obtain ⟨ctx1, hrun, e1, -, e3, e4, hsol1, hkeys1⟩ :=
      try_accomodate_new_bit_recovers ctx truth G E k hi (by rw [hmin]; exact h0)
        (by rw [hmin, hst]; exact hs) hhi (by rw [hmin, hst, hen]; exact hend)
        (by rw [hmin]; exact hT) (by rw [hmin]; exact hEmin) hEk (by omega) hind
        (by rw [hmin]; exact hG) hGne hlen hdepth hsol hkeys
    have hk1 : k + 1 - 1 = k := by omega
    obtain ⟨ctx2, hrun2, hsol2⟩ := ih (k + 1) ctx1 err (e1.trans hmin) (e3.trans hst)
      (e4.trans hen) (by omega) (by push_cast at hkn; omega) (by rw [hk1]; exact hsol1)
      (by rw [hk1]; exact hkeys1)
    refine ⟨ctx2, ?_, hsol2⟩
    rw [hash_find_solutions2_step2, hrun]
    simp only [List.append_nil]
    exact hrun2

/-- The ground truth is recovered: in the setting `recoverable`, with the
oracle of the ground truth, `hash_find_solutions2` returns 0 without a
diagnostic and the solutions it leaves span the ground truth. -/
theorem hash_find_solutions2_recovers (ctx : hash_context_t) (truth : List solution_t)
    (hS : recoverable ctx truth) :
    ∃ ctx', hash_find_solutions2 ctx (ground_truth_oracle truth) enough_memory =
        some (0, ctx', []) ∧
      ∀ s, in_xor_span ctx'.solutions s ↔ in_xor_span truth s := by
  obtain ⟨ctx1, G, e1, e2, e3, e4, hk1, hG, hTG, hindG, hlen, hdepth, hrun⟩ :=
    phase1_recovers ctx truth hS
  have hS' := hS
  obtain ⟨hf, hs, hmax, hend, hne, hT, hind⟩ := hS
  have hEmin := end_bit_gt_min_bit ctx hf
  have hEmax := end_bit_le_max_bit ctx hf hs
  have hGne : G ≠ [] := by
    rintro rfl
    obtain ⟨f, hf'⟩ := List.exists_mem_of_ne_nil truth hne
    obtain ⟨sub, hsub, hv⟩ := hTG f hf'
    rw [List.sublist_nil] at hsub
    subst hsub
    have h1 := hind [low_part (hash_find_solutions2_end_bit ctx) f]
      (List.singleton_sublist.mpr (List.mem_map_of_mem _ hf')) (by simp)
    apply h1
    rw [xor_sum_singleton, solution_vec_low_part, hv]
    funext i
    simp [vec_low, xor_sum]
  have hE1 : hash_find_solutions2_end_bit ctx + 1 - 1 = hash_find_solutions2_end_bit ctx := by
    omega
  obtain ⟨ctx', hstep, hsol⟩ := hash_find_solutions2_step2_recovers truth G
    (hash_find_solutions2_end_bit ctx) ctx.min_bit ctx.max_bit ctx.start_addr ctx.end_addr
    hf.1 hs hmax hend hT (le_of_lt hEmin) hind hG hGne hlen
    (fun g hg => hdepth _ (List.mem_map_of_mem _ hg))
    (ctx.max_bit - hash_find_solutions2_end_bit ctx).toNat
    (hash_find_solutions2_end_bit ctx + 1)
    { ctx1 with solutions := G.map (low_part (hash_find_solutions2_end_bit ctx)) } []
    e1 e3 e4 (by omega) (by rw [Int.toNat_of_nonneg (by omega)]; omega)
    (by rw [hE1])
    (by
      rw [hE1]
      show keys_below _ _ ctx1.keys
      rw [hk1]
      exact phase1_keys_below ctx _ hf hs)
  refine ⟨ctx', ?_, ?_⟩
  · rw [hrun, hstep]
    rfl
  · have hGG : G.map (low_part ctx.max_bit) = G := by
      rw [List.map_congr_left (fun g hg => low_part_eq_self (hG g hg).1.2 (le_refl _)),
        List.map_id']
    rw [hsol, hGG]
    intro s
    exact ⟨in_xor_span_trans (fun g hg => (hG g hg).2), in_xor_span_trans hTG⟩


/-! ## The properties -/

/-- C6: `hash_init` returns `NULL` exactly when `max_bit <= min_bit`,
`max_bit >= 64`, `min_bit < 0`, `end_addr <= start_addr` or
`end_addr - start_addr < 2 ^ max_bit` (for a negative `max_bit` the last
comparison is with `1`, which is what the comparison of integers with the
fraction `2 ^ max_bit` amounts to); otherwise the context it returns holds the
four arguments.  The arguments of scenario E6 are rejected for every
`min_bit`. -/
theorem hash_init_null_iff (min_bit max_bit : Int) (start_addr end_addr : Nat) :
    (hash_init min_bit max_bit start_addr end_addr = none ↔
      (max_bit ≤ min_bit ∨ max_bit ≥ 64 ∨ min_bit < 0 ∨ end_addr ≤ start_addr ∨
        (end_addr : Int) - (start_addr : Int) < 2 ^ max_bit.toNat)) ∧
    (∀ ctx, hash_init min_bit max_bit start_addr end_addr = some ctx →
      ctx.min_bit = min_bit ∧ ctx.max_bit = max_bit ∧
        ctx.start_addr = start_addr ∧ ctx.end_addr = end_addr) ∧
    hash_init min_bit 12 0 (2 ^ 10) = none := by
  refine ⟨?_, ?_, ?_⟩
  · unfold hash_init MAX_NUM_INDEX
    by_cases h1 : max_bit ≤ min_bit
    · simp [h1]
    by_cases h2 : max_bit ≥ 64
    · simp [h1, h2]
    by_cases h3 : min_bit < 0
    · simp [h1, h2, h3]
    by_cases h4 : end_addr ≤ start_addr
    · simp [h1, h2, h3, h4]
    have h2' : ¬ ((64 : Int) ≤ max_bit) := by simpa using h2
    have e : ((end_addr : Int) - (start_addr : Int) < 2 ^ max_bit.toNat) ↔
        end_addr - start_addr < 2 ^ max_bit.toNat := by
      have : ((end_addr - start_addr : Nat) : Int) = (end_addr : Int) - (start_addr : Int) := by
        omega
      rw [← this]
      exact_mod_cast Iff.rfl
    by_cases h5 : end_addr - start_addr < 2 ^ max_bit.toNat
    · simp [h1, h2', h3, h4, h5, e]
    · simp [h1, h2', h3, h4, h5, e]
  · intro ctx h
    unfold hash_init at h
    repeat' split at h
    all_goals cases h
    simp
  · unfold hash_init MAX_NUM_INDEX
    by_cases h1 : (12 : Int) ≤ min_bit
    · simp [h1]
    by_cases h3 : min_bit < 0
    · simp [h1, h3]
    simp [h1, h3]

/-- C8, at the failing input: the solutions `[0, .., 31]` and `[32, .., 63]`
have strictly ascending indexes in `[0, 64)`, and `xor_solutions` yields no
solution for them: after the 64th entry is written `k` is 64 and
`assert(k < MAX_NUM_INDEX)` fails. -/
theorem xor_solutions_full_width :
    strictly_ascending ⟨ramp 0 32⟩ ∧
    strictly_ascending ⟨ramp 32 32⟩ ∧
    indexes_within 0 63 ⟨ramp 0 32⟩ ∧
    indexes_within 0 63 ⟨ramp 32 32⟩ ∧
    xor_solutions ⟨ramp 0 32⟩
      ⟨ramp 32 32⟩ = none := by
  decide!

/-- The index set of the combination: for two solutions with strictly ascending
indexes whose symmetric difference has fewer than 64 indexes, `xor_solutions`
yields a solution `r` with strictly ascending indexes, whose indexes are exactly
the indexes that are in exactly one of `s1`, `s2`, and whose depth is the size
of that symmetric difference. -/
theorem xor_solutions_symm_diff (s1 s2 : solution_t) (h1 : strictly_ascending s1)
    (h2 : strictly_ascending s2)
    (hlt : (symmDiff s1.indexes.toFinset s2.indexes.toFinset).card < MAX_NUM_INDEX) :
    ∃ r, xor_solutions s1 s2 = some r ∧ strictly_ascending r ∧
      (∀ x, x ∈ r.indexes ↔ (x ∈ s1.indexes ∧ x ∉ s2.indexes) ∨ (x ∈ s2.indexes ∧ x ∉ s1.indexes)) ∧
      r.depth = (symmDiff s1.indexes.toFinset s2.indexes.toFinset).card := by
  obtain ⟨m, hm, hmem, hrun⟩ := xor_solutions_spec s1 s2 h1 h2
  have hc := symm_diff_card hm hmem
  refine ⟨⟨m⟩, ?_, hm, hmem, hc⟩
  rw [hrun, if_pos (by omega)]

/-- The algebra of the combination: on solutions with strictly ascending indexes,
whenever the calls of `xor_solutions` involved yield a solution (which they do
when the depths add up to less than 64), `xor_solutions` is commutative and
associative under `are_solutions_same`; `xor(s1, s2)` yields a solution exactly
when `xor(s2, s1)` does; and `xor(s, s)` always yields a solution of depth 0. -/
theorem xor_solutions_algebra (s1 s2 s3 : solution_t) (h1 : strictly_ascending s1)
    (h2 : strictly_ascending s2) (h3 : strictly_ascending s3) :
    (xor_solutions s1 s2 = none ↔ xor_solutions s2 s1 = none) ∧
    (∀ r r', xor_solutions s1 s2 = some r → xor_solutions s2 s1 = some r' →
      are_solutions_same r r' = 1) ∧
    (∀ r12 l r23 r, xor_solutions s1 s2 = some r12 → xor_solutions r12 s3 = some l →
      xor_solutions s2 s3 = some r23 → xor_solutions s1 r23 = some r →
      are_solutions_same l r = 1) ∧
    (∃ z, xor_solutions s1 s1 = some z ∧ z.depth = 0) ∧
    (s1.depth + s2.depth + s3.depth < MAX_NUM_INDEX →
      ∃ r12 l r23 r, xor_solutions s1 s2 = some r12 ∧ xor_solutions r12 s3 = some l ∧
        xor_solutions s2 s3 = some r23 ∧ xor_solutions s1 r23 = some r) := by
  refine ⟨?_, ?_, ?_, ?_, ?_⟩
  · rw [xor_solutions_comm_aux s1 s2 h1 h2]
  · intro r r' e e'
    rw [xor_solutions_comm_aux s1 s2 h1 h2, e'] at e
    cases e
    exact (are_solutions_same_eq_one _ _).mpr rfl
  · intro r12 l r23 r e12 el e23 er
    obtain ⟨a12, m12, -⟩ := xor_solutions_some h1 h2 e12
    obtain ⟨al, ml, -⟩ := xor_solutions_some a12 h3 el
    obtain ⟨a23, m23, -⟩ := xor_solutions_some h2 h3 e23
    obtain ⟨ar, mr, -⟩ := xor_solutions_some h1 a23 er
    apply (are_solutions_same_eq_one _ _).mpr
    have : l.indexes = r.indexes := sorted_ext al ar (fun x => by
      rw [ml, mr]
      unfold in_symm_diff
      rw [m12, m23]
      unfold in_symm_diff
      tauto)
    cases l; cases r; simpa using this
  · exact ⟨⟨[]⟩, xor_solutions_self_aux s1 h1, rfl⟩
  · intro hd
    obtain ⟨r12, e12, d12⟩ := xor_solutions_produces s1 s2 h1 h2 (by omega)
    obtain ⟨a12, -, -⟩ := xor_solutions_some h1 h2 e12
    obtain ⟨l, el, -⟩ := xor_solutions_produces r12 s3 a12 h3 (by omega)
    obtain ⟨r23, e23, d23⟩ := xor_solutions_produces s2 s3 h2 h3 (by omega)
    obtain ⟨a23, -, -⟩ := xor_solutions_some h2 h3 e23
    obtain ⟨r, er, -⟩ := xor_solutions_produces s1 r23 h1 a23 (by omega)
    exact ⟨r12, l, r23, r, e12, el, e23, er⟩

/-- C9 fails in the code: the solutions `[0]` and `[1, .., 63]` have strictly
ascending indexes in `[0, 64)` and their symmetric difference `[0, .., 63]` has
64 indexes, as many as `indexes[MAX_NUM_INDEX]` holds, but `xor_solutions` yields
no solution `r`: after the 64th entry is written `k` is 64 and
`assert(k < MAX_NUM_INDEX)` fails.  Whenever the symmetric difference has fewer
than 64 indexes, `r` is as claimed. -/
theorem xor_solutions_symm_diff_of_64 :
    strictly_ascending ⟨[0]⟩ ∧ strictly_ascending ⟨ramp 1 63⟩ ∧
    indexes_within 0 63 ⟨[0]⟩ ∧ indexes_within 0 63 ⟨ramp 1 63⟩ ∧
    (symmDiff ([0] : List Int).toFinset (ramp 1 63).toFinset).card = MAX_NUM_INDEX ∧
    xor_solutions ⟨[0]⟩ ⟨ramp 1 63⟩ = none ∧
    ∀ s1 s2 : solution_t, strictly_ascending s1 → strictly_ascending s2 →
      (symmDiff s1.indexes.toFinset s2.indexes.toFinset).card < MAX_NUM_INDEX →
      ∃ r, xor_solutions s1 s2 = some r ∧ strictly_ascending r ∧
        (∀ x, x ∈ r.indexes ↔
          (x ∈ s1.indexes ∧ x ∉ s2.indexes) ∨ (x ∈ s2.indexes ∧ x ∉ s1.indexes)) ∧
        r.depth = (symmDiff s1.indexes.toFinset s2.indexes.toFinset).card := by
  refine ⟨by decide!, by decide!, by decide!, by decide!, by decide!, by decide!, ?_⟩
  intro s1 s2 h1 h2 hlt
  exact xor_solutions_symm_diff s1 s2 h1 h2 hlt

/-- C10 fails in the code: with `s1 = [0, .., 61]` and `s2 = s3 = [62, 63]`, all
with strictly ascending indexes in `[0, 64)`, `xor(xor(s1, s2), s3)` yields no
solution, because `xor(s1, s2)` has the 64 indexes `[0, .., 63]` and
`assert(k < MAX_NUM_INDEX)` fails on it, while `xor(s1, xor(s2, s3))` is `s1`:
the two sides of the associativity equation differ.  Whenever the calls involved
yield a solution, the combination is commutative and associative, and
`xor(s, s)` has depth 0. -/
theorem xor_solutions_associativity_aborts :
    strictly_ascending ⟨ramp 0 62⟩ ∧ strictly_ascending ⟨[62, 63]⟩ ∧
    indexes_within 0 63 ⟨ramp 0 62⟩ ∧ indexes_within 0 63 ⟨[62, 63]⟩ ∧
    (xor_solutions ⟨ramp 0 62⟩ ⟨[62, 63]⟩).bind
      (fun r => xor_solutions r ⟨[62, 63]⟩) = none ∧
    (xor_solutions ⟨[62, 63]⟩ ⟨[62, 63]⟩).bind
      (fun r => xor_solutions ⟨ramp 0 62⟩ r) = some ⟨ramp 0 62⟩ ∧
    ∀ s1 s2 s3 : solution_t, strictly_ascending s1 → strictly_ascending s2 →
      strictly_ascending s3 →
      (∀ r r', xor_solutions s1 s2 = some r → xor_solutions s2 s1 = some r' →
        are_solutions_same r r' = 1) ∧
      (∀ r12 l r23 r, xor_solutions s1 s2 = some r12 → xor_solutions r12 s3 = some l →
        xor_solutions s2 s3 = some r23 → xor_solutions s1 r23 = some r →
        are_solutions_same l r = 1) ∧
      (∃ z, xor_solutions s1 s1 = some z ∧ z.depth = 0) := by
  refine ⟨by decide!, by decide!, by decide!, by decide!, by decide!, by decide!, ?_⟩
  intro s1 s2 s3 h1 h2 h3
  obtain ⟨-, hc, ha, hz, -⟩ := xor_solutions_algebra s1 s2 s3 h1 h2 h3
  exact ⟨hc, ha, hz⟩

/-- C2, scenario E2: on the context `hash_init(6, 14, 0, 2^15)` and the oracle
of the ground truth `Bit(6)^Bit(10)`, `Bit(7)^Bit(11)^Bit(13)`,
`hash_find_solutions2` returns 0 and writes nothing to `stderr` (no allocation
fails), with exactly the two solutions `[7, 11, 13]` and `[6, 10]` in
`ctx.solutions`; their non-empty XOR combinations are `[7,11,13]`, `[6,10]` and
`[6,7,10,11,13]`. -/
theorem scenario_E2 :
    (init_and_find 6 14 0 (2 ^ 15) (ground_truth_oracle [⟨[6, 10]⟩, ⟨[7, 11, 13]⟩])
        enough_memory).map
        (fun x => (x.1, x.2.1.solutions, x.2.2)) =
      some (0, [⟨[7, 11, 13]⟩, ⟨[6, 10]⟩], []) ∧
    xor_span [⟨[7, 11, 13]⟩, ⟨[6, 10]⟩] =
      some [⟨[7, 11, 13]⟩, ⟨[6, 10]⟩, ⟨[6, 7, 10, 11, 13]⟩] := by
  decide!

/-- C3, as stated, fails: on the context `hash_init(6, 8, 64, 1024)` and the
oracle that confirms the pairs `(64, 64)` and `(64, 512)` only,
`hash_find_solutions2` returns 0 (after the extension by bit 8 lost all its
candidates), `ctx.keys` holds `(64, 512)`, `ctx.solutions` holds `[6]`, and
`[6]` gives partition bit 1 on 64 and 0 on 512. -/
theorem stale_solutions_after_failed_extension :
    (init_and_find 6 8 64 1024 (pair_list_oracle [(64, 64), (64, 512)]) enough_memory).map
        (fun x => (x.1, x.2.1.keys, x.2.1.solutions, x.2.2)) =
      some (0, [(64, 64), (64, 512)], [⟨[6]⟩, ⟨[7]⟩], [diagnostic.something_went_wrong]) ∧
    get_partition_num 64 ⟨[6]⟩ = some 1 ∧ get_partition_num 512 ⟨[6]⟩ = some 0 := by
  decide!

/-- C5, at the failing input: `hash_init(6, 8, 256, 1024)` is accepted, bit 8 of
`start_addr` is set, so `end_bit` is 9; on the oracle of `[6, 7, 8, 9]`
`hash_find_solutions2` returns 0 with the solution `[6, 7, 8, 9]`, which has
index 9 above `max_bit` and depth 4 above `max_bit - min_bit + 1`. -/
theorem solution_beyond_max_bit :
    (hash_init 6 8 256 1024).map hash_find_solutions2_end_bit = some 9 ∧
    (init_and_find 6 8 256 1024 (ground_truth_oracle [⟨[6, 7, 8, 9]⟩]) enough_memory).map
        (fun x => (x.1, x.2.1.solutions, x.2.2)) =
      some (0, [⟨[6, 7, 8, 9]⟩], []) := by
  decide!

theorem example_init : hash_init 6 8 0 512 = some example_ctx := by decide!

theorem example_run :
    hash_find_solutions2 example_ctx (ground_truth_oracle [⟨[6, 8]⟩]) enough_memory =
      some (0, example_final, []) := by decide!

theorem example2_init : hash_init 6 10 0 2048 = some example2_ctx := by decide!

theorem example2_run :
    hash_find_solutions2 example2_ctx (ground_truth_oracle [⟨[6]⟩, ⟨[7]⟩]) enough_memory =
      some (0, example2_final, []) := by decide!

theorem consistent_get_partition_num {keys : List (Nat × Nat)} {s : solution_t}
    (hd : 1 ≤ s.depth) (hr : indexes_within 0 63 s) (hc : consistent keys s) :
    ∀ p ∈ keys, ∃ b, get_partition_num p.1 s = some b ∧ get_partition_num p.2 s = some b := by
  intro p hp
  obtain ⟨q1, hq1, e1, v1⟩ := get_partition_num_spec p.1 s hd hr
  obtain ⟨q2, hq2, e2, v2⟩ := get_partition_num_spec p.2 s hd hr
  have : q1 = q2 := (bit_cast_inj q1 q2 hq1 hq2).mp (by rw [v1, v2]; exact hc p hp)
  exact ⟨q1, e1, by rw [e2, this]⟩

/-- C3, amended: for every context accepted by `hash_init`, every oracle and
every behaviour of the allocator, if `hash_find_solutions2` returns 0 and no
extension of step 2 lost all its candidates (`Something went wrong` was not
written), then every solution in `ctx.solutions` gives the same partition bit on
both addresses of every pair in `ctx.keys`. -/
theorem solutions_agree_on_keys (min_bit max_bit : Int) (start_addr end_addr : Nat)
    (check : Nat → Nat → Bool) (alloc : Nat → Bool) (ctx ctx' : hash_context_t)
    (err : List diagnostic)
    (hinit : hash_init min_bit max_bit start_addr end_addr = some ctx)
    (hrun : hash_find_solutions2 ctx check alloc = some (0, ctx', err))
    (hok : diagnostic.something_went_wrong ∉ err) :
    ∀ s ∈ ctx'.solutions, ∀ p ∈ ctx'.keys,
      ∃ b, get_partition_num p.1 s = some b ∧ get_partition_num p.2 s = some b := by
  have hf := (hash_init_fresh hinit).1
  obtain ⟨hE, m1, m2, hinv, -, hmax, -, hcons⟩ :=
    hash_find_solutions2_returns_zero ctx ctx' check alloc err hf hrun
  intro s hs
  obtain ⟨hwf, hd⟩ := hinv.1 s hs
  apply consistent_get_partition_num hd _ (hcons hok s hs)
  intro i hi
  have := hwf.2 i hi
  have h0 := hf.1
  rw [m1] at this
  constructor <;> omega

/-- C3, amended, on `hash_init(6, 8, 0, 512)` and the oracle of `Bit(6) ^ Bit(8)`. -/
theorem solutions_agree_on_keys_witness :
    hash_init 6 8 0 512 = some example_ctx ∧
    hash_find_solutions2 example_ctx (ground_truth_oracle [⟨[6, 8]⟩]) enough_memory =
      some (0, example_final, []) ∧
    diagnostic.something_went_wrong ∉ ([] : List diagnostic) ∧
    ∀ s ∈ example_final.solutions, ∀ p ∈ example_final.keys,
      ∃ b, get_partition_num p.1 s = some b ∧ get_partition_num p.2 s = some b :=
  ⟨example_init, example_run, by decide,
    solutions_agree_on_keys 6 8 0 512 (ground_truth_oracle [⟨[6, 8]⟩]) enough_memory
      example_ctx example_final [] example_init example_run (by decide)⟩

/-- C4, as stated, fails: on the context `hash_init(6, 10, 0, 2048)` and the
oracle of the ground truth `Bit(6)`, `Bit(7)`, when the first `push_back` of
`hash_reduce` throws, `hash_reduce` reports `Out of memory exception while
hash_reduce` and leaves the three base solutions `[6]`, `[7]`, `[6, 7]`; they pass
`are_unique_solutions_found` (the window `[6, 8]` has 3 bits),
`hash_find_solutions2` goes on and returns 0 with these three solutions, and the
iterated `xor_solutions` over the three has depth 0. -/
theorem dependent_solutions_after_exception :
    (init_and_find 6 10 0 2048 (ground_truth_oracle [⟨[6]⟩, ⟨[7]⟩]) no_memory).map
        (fun x => (x.1, x.2.1.solutions, x.2.2)) =
      some (0, [⟨[6]⟩, ⟨[7]⟩, ⟨[6, 7]⟩], [diagnostic.out_of_memory]) ∧
    xor_fold [⟨[6]⟩, ⟨[7]⟩, ⟨[6, 7]⟩] = some ⟨[]⟩ := by
  decide!

/-- C4, amended: for every context accepted by `hash_init`, every oracle and
every behaviour of the allocator, if `hash_find_solutions2` returns 0 and
`hash_reduce` did not report `Out of memory exception while hash_reduce`, then
`ctx.solutions` is linearly independent under XOR: no non-empty sublist XORs to
the empty solution, and no iterated `xor_solutions` over a non-empty sublist
yields a solution of depth 0. -/
theorem solutions_independent (min_bit max_bit : Int) (start_addr end_addr : Nat)
    (check : Nat → Nat → Bool) (alloc : Nat → Bool) (ctx ctx' : hash_context_t)
    (err : List diagnostic)
    (hinit : hash_init min_bit max_bit start_addr end_addr = some ctx)
    (hrun : hash_find_solutions2 ctx check alloc = some (0, ctx', err))
    (hmem : diagnostic.out_of_memory ∉ err) :
    xor_independent ctx'.solutions ∧
    ∀ sub : List solution_t, sub.Sublist ctx'.solutions → sub ≠ [] →
      ∀ r, xor_fold sub = some r → r.depth ≠ 0 := by
  have hf := (hash_init_fresh hinit).1
  obtain ⟨hE, m1, m2, hinv, hind, hmax, -, -⟩ :=
    hash_find_solutions2_returns_zero ctx ctx' check alloc err hf hrun
  refine ⟨hind hmem, ?_⟩
  intro sub hsub hne r hr hd
  obtain ⟨-, hv⟩ := xor_fold_vec sub (fun s hs => (hinv.1 s (hsub.subset hs)).1.1) r hr
  apply hind hmem sub hsub hne
  rw [← hv, solution_vec_eq_zero]
  exact List.length_eq_zero.mp hd

/-- C4, amended, on `hash_init(6, 10, 0, 2048)` and the oracle of the ground
truth `Bit(6)`, `Bit(7)`, when no allocation fails: `hash_reduce` drops `[6, 7]`
from the three base solutions, and the run returns 0 with `[6]` and `[7]`. -/
theorem solutions_independent_witness :
    hash_init 6 10 0 2048 = some example2_ctx ∧
    hash_find_solutions2 example2_ctx (ground_truth_oracle [⟨[6]⟩, ⟨[7]⟩]) enough_memory =
      some (0, example2_final, []) ∧
    diagnostic.out_of_memory ∉ ([] : List diagnostic) ∧
    base_hypotheses example2_ctx (ground_truth_oracle [⟨[6]⟩, ⟨[7]⟩]) =
      [⟨[6]⟩, ⟨[7]⟩, ⟨[6, 7]⟩] ∧
    example2_final.solutions = [⟨[6]⟩, ⟨[7]⟩] ∧
    xor_independent example2_final.solutions ∧
    ∀ sub : List solution_t, sub.Sublist example2_final.solutions → sub ≠ [] →
      ∀ r, xor_fold sub = some r → r.depth ≠ 0 :=
  ⟨example2_init, example2_run, by decide, by decide!, rfl,
    solutions_independent 6 10 0 2048 (ground_truth_oracle [⟨[6]⟩, ⟨[7]⟩]) enough_memory
      example2_ctx example2_final [] example2_init example2_run (by decide)⟩

/-- Where the ground truth is recovered: for every context accepted by
`hash_init` with `start_addr < 2^min_bit`, `max_bit <= 62` and
`end_addr >= start_addr + 2^(max_bit+1) - 2^min_bit`, and every non-empty
ground-truth set of XOR functions (strictly ascending index lists with all
indexes in `[min_bit, max_bit]`) whose parts on the bits `[min_bit, end_bit]` are
linearly independent under XOR, with the oracle that answers true exactly for
the address pairs on which every ground-truth function evaluates equally, when
no allocation fails, `hash_find_solutions2` returns 0, writes no diagnostic, and
the XOR-span of `ctx.solutions` equals the XOR-span of the ground truth. -/
theorem ground_truth_recovered (min_bit max_bit : Int) (start_addr end_addr : Nat)
    (truth : List solution_t) (ctx : hash_context_t)
    (hinit : hash_init min_bit max_bit start_addr end_addr = some ctx)
    (hstart : start_addr < 2 ^ min_bit.toNat) (hmax : max_bit ≤ 62)
    (hend : start_addr + 2 ^ (max_bit + 1).toNat ≤ end_addr + 2 ^ min_bit.toNat)
    (hne : truth ≠ [])
    (hwf : ∀ f ∈ truth, strictly_ascending f ∧ indexes_within min_bit max_bit f)
    (hind : xor_independent (truth.map (low_part (hash_find_solutions2_end_bit ctx)))) :
    ∃ ctx', hash_find_solutions2 ctx (ground_truth_oracle truth) enough_memory =
        some (0, ctx', []) ∧
      ∀ s, in_xor_span ctx'.solutions s ↔ in_xor_span truth s := by
  obtain ⟨hf, e1, e2, e3, e4⟩ := hash_init_fresh hinit
  subst e1 e2 e3 e4
  exact hash_find_solutions2_recovers ctx truth ⟨hf, hstart, hmax, hend, hne, hwf, hind⟩

theorem e2_init : hash_init 6 14 0 32768 = some e2_ctx := by decide

theorem e2_low_parts :
    ([⟨[6, 10]⟩, ⟨[7, 11, 13]⟩] : List solution_t).map
      (low_part (hash_find_solutions2_end_bit e2_ctx)) = [⟨[6, 10]⟩, ⟨[7]⟩] := by
  decide

theorem e2_independent :
    xor_independent (([⟨[6, 10]⟩, ⟨[7, 11, 13]⟩] : List solution_t).map
      (low_part (hash_find_solutions2_end_bit e2_ctx))) := by
  rw [e2_low_parts]
  apply xor_independent_pair
  · exact fun h => absurd (congrFun h 6) (by decide)
  · exact fun h => absurd (congrFun h 7) (by decide)
  · exact fun h => absurd (congrFun h 6) (by decide)

/-- The recovery of the ground truth on scenario E2: the context
`hash_init(6, 14, 0, 2^15)` and the ground truth `[6, 10]`, `[7, 11, 13]`, whose
parts on the bits `[6, 10]` are `[6, 10]` and `[7]`. -/
theorem ground_truth_recovered_on_E2 :
    ∃ ctx', hash_find_solutions2 e2_ctx
        (ground_truth_oracle [⟨[6, 10]⟩, ⟨[7, 11, 13]⟩]) enough_memory = some (0, ctx', []) ∧
      ∀ s, in_xor_span ctx'.solutions s ↔ in_xor_span [⟨[6, 10]⟩, ⟨[7, 11, 13]⟩] s :=
  ground_truth_recovered 6 14 0 32768 [⟨[6, 10]⟩, ⟨[7, 11, 13]⟩] e2_ctx
    e2_init (by decide) (by decide) (by decide) (by decide) (by decide) e2_independent

/-- C1 fails in the code: on contexts that `hash_init` accepts the solver
returns 0, without a diagnostic, with solutions that do not span the ground
truth.  On scenario E4 itself, `hash_init(6, 8, 0, 2^9)` with the ground truth
`[6]`, `[7]`, `[8]`, `hash_find_solutions2` returns 0 with the two solutions
`[6]` and `[7]`, not a basis of three: their XOR combinations are `[6]`, `[7]`,
`[6, 7]`, the ground truth's also have `[8]`, `[6, 8]`, `[7, 8]`, `[6, 7, 8]`.
`hash_init(6, 8, 0, 447)` is accepted (447 >= 2^8); on the oracle of the ground
truth `[6, 8]`, `[7, 8]` the only test address that tells bit 8, 448, is above
`end_addr`, and `hash_find_solutions2` returns 0 with the solutions `[6]` and
`[7]`, whose XOR combinations are `[6]`, `[7]`, `[6, 7]`, while the ground
truth's are `[6, 8]`, `[7, 8]`, `[6, 7]`.  `hash_init(6, 8, 64, 1024)` is
accepted too; on the oracle of the ground truth `[7]` the test addresses of
step 1 start at 64 and stop below `2^8`, and `hash_find_solutions2` returns 0
with the solutions `[6]` and `[7]`. -/
theorem ground_truth_missed :
    (hash_init 6 8 0 (2 ^ 9)).isSome = true ∧
    (init_and_find 6 8 0 (2 ^ 9) (ground_truth_oracle [⟨[6]⟩, ⟨[7]⟩, ⟨[8]⟩])
        enough_memory).map
        (fun x => (x.1, x.2.1.solutions, x.2.2)) = some (0, [⟨[6]⟩, ⟨[7]⟩], []) ∧
    xor_span [⟨[6]⟩, ⟨[7]⟩] = some [⟨[6]⟩, ⟨[7]⟩, ⟨[6, 7]⟩] ∧
    xor_span [⟨[6]⟩, ⟨[7]⟩, ⟨[8]⟩] =
      some [⟨[6]⟩, ⟨[7]⟩, ⟨[6, 7]⟩, ⟨[8]⟩, ⟨[6, 8]⟩, ⟨[7, 8]⟩, ⟨[6, 7, 8]⟩] ∧
    (hash_init 6 8 0 447).isSome = true ∧
    (init_and_find 6 8 0 447 (ground_truth_oracle [⟨[6, 8]⟩, ⟨[7, 8]⟩]) enough_memory).map
        (fun x => (x.1, x.2.1.solutions, x.2.2)) = some (0, [⟨[6]⟩, ⟨[7]⟩], []) ∧
    xor_span [⟨[6, 8]⟩, ⟨[7, 8]⟩] = some [⟨[6, 8]⟩, ⟨[7, 8]⟩, ⟨[6, 7]⟩] ∧
    (hash_init 6 8 64 1024).isSome = true ∧
    (init_and_find 6 8 64 1024 (ground_truth_oracle [⟨[7]⟩]) enough_memory).map
        (fun x => (x.1, x.2.1.solutions, x.2.2)) = some (0, [⟨[6]⟩, ⟨[7]⟩], []) ∧
    xor_span [⟨[7]⟩] = some [⟨[7]⟩] := by
  decide!

/-! ## Claims on the enumeration, the reduction and the extension step -/

theorem permute_hypothesis_all_rest (lo hi : Int) (d : Nat) (hd : 1 ≤ d)
    (hb : 1 < d → hi < INT_MAX) :
    ∀ (L : List (List Int)) (fuel : Nat) (arr : List Int) (produced : List (List Int)),
      List.Chain' (fun x y => next_combination hi x = some y) (arr :: L) →
      (∀ z ∈ (arr :: L).getLast?, next_combination hi z = none) →
      (∀ x ∈ arr :: L, x.length = d) →
      (∀ x ∈ arr :: L, x.Pairwise (· < ·) ∧ ∀ i ∈ x, i ≤ hi) →
      L.length + 1 ≤ fuel →
      permute_hypothesis_all d lo hi fuel arr 0 produced = some (produced ++ L) := by
  intro L
  induction L with
  | nil =>
    intro fuel arr produced _ hlast hlen hasc hfuel
    obtain ⟨f, rfl⟩ : ∃ f, fuel = f + 1 := ⟨fuel - 1, by simp at hfuel; omega⟩
    have hal : arr.length = d := hlen arr (List.mem_cons_self _ _)
    have hn := hlast arr (by simp)
    have harr := hasc arr (List.mem_cons_self _ _)
    obtain ⟨g, hg⟩ := (permute_hypothesis_spec arr lo hi (by omega)
      (fun h => hb (by omega))
      (fun j hj => by
        have := getD_lt_of_ascending harr.1 harr.2 j hj
        have := hb (by omega)
        omega)).2 hn
    rw [hal] at hg
    simp [permute_hypothesis_all, hg]
  | cons x L ih =>
    intro fuel arr produced hchain hlast hlen hasc hfuel
    obtain ⟨f, rfl⟩ : ∃ f, fuel = f + 1 := ⟨fuel - 1, by simp at hfuel; omega⟩
    have hal : arr.length = d := hlen arr (List.mem_cons_self _ _)
    rw [List.chain'_cons] at hchain
    have harr := hasc arr (List.mem_cons_self _ _)
    have hg := (permute_hypothesis_spec arr lo hi (by omega)
      (fun h => hb (by omega))
      (fun j hj => by
        have := getD_lt_of_ascending harr.1 harr.2 j hj
        have := hb (by omega)
        omega)).1 x hchain.1
    rw [hal] at hg
    have hrec := ih f x (produced ++ [x]) hchain.2
      (by intro z hz; exact hlast z (by rw [List.getLast?_cons_cons]; exact hz))
      (fun y hy => hlen y (List.mem_cons_of_mem _ hy))
      (fun y hy => hasc y (List.mem_cons_of_mem _ hy))
      (by simp at hfuel ⊢; omega)
    simp only [permute_hypothesis_all, hg, lt_self_iff_false, if_false]
    rw [hrec, List.append_assoc, List.singleton_append]

theorem permute_hypothesis_all_spec (lo : Int) (w d : Nat) (hd : 1 ≤ d) (hdw : d ≤ w)
    (hb : 1 < d → lo + w - 1 < INT_MAX)
    (array : List Int) (harr : array.length = d) (fuel : Nat)
    (hfuel : (combinations w lo d).length + 1 ≤ fuel) :
    permute_hypothesis_all d lo (lo + w - 1) fuel array 1 [] = some (combinations w lo d) := by
  obtain ⟨hchain, hlast, hhead, hlen⟩ := combinations_chain w lo d
  rw [if_pos hdw] at hhead
  obtain ⟨L, hL⟩ : ∃ L, combinations w lo d = ramp lo d :: L := by
    cases h : combinations w lo d with
    | nil => rw [h] at hhead; cases hhead
    | cons a L => rw [h] at hhead; simp at hhead; exact ⟨L, by rw [hhead]⟩
  have hasc : ∀ x ∈ combinations w lo d, x.Pairwise (· < ·) ∧ ∀ i ∈ x, i ≤ lo + w - 1 := by
    intro x hx
    obtain ⟨h1, -, h3⟩ := (combinations_mem w lo d x).mp hx
    exact ⟨h1, fun i hi' => by have := h3 i hi'; omega⟩
  rw [hL] at hchain hlast hlen hfuel hasc
  obtain ⟨f, rfl⟩ : ∃ f, fuel = f + 1 := ⟨fuel - 1, by omega⟩
  have hperm : permute_hypothesis array d lo (lo + w - 1) 1 = some (0, ramp lo d) := by
    unfold permute_hypothesis
    rw [if_neg (by omega), if_neg (by rw [harr]; simp), if_pos (by decide), if_pos (by omega)]
  have hrec := permute_hypothesis_all_rest lo (lo + w - 1) d hd hb L f (ramp lo d) [ramp lo d]
    hchain hlast hlen hasc (by simp at hfuel; omega)
  rw [hL]
  simp only [permute_hypothesis_all, hperm, lt_self_iff_false, if_false, List.nil_append]
  rw [hrec, List.singleton_append]

theorem combinations_length (w : Nat) :
    ∀ (lo : Int) (d : Nat), (combinations w lo d).length = Nat.choose w d := by
  induction w with
  | zero =>
    intro lo d
    cases d <;> simp [combinations]
  | succ w ih =>
    intro lo d
    cases d with
    | zero => simp [combinations]
    | succ d =>
      simp only [combinations, List.length_append, List.length_map, ih, Nat.choose_succ_succ]

theorem combinations_lex (w : Nat) :
    ∀ (lo : Int) (d : Nat), (combinations w lo d).Pairwise (List.Lex (· < ·)) := by
  induction w with
  | zero =>
    intro lo d
    cases d <;> simp [combinations]
  | succ w ih =>
    intro lo d
    cases d with
    | zero => simp [combinations]
    | succ d =>
      simp only [combinations]
      rw [List.pairwise_append]
      refine ⟨?_, ih (lo + 1) (d + 1), ?_⟩
      · rw [List.pairwise_map]
        exact (ih (lo + 1) d).imp (fun h => List.Lex.cons h)
      · intro x hx y hy
        obtain ⟨x', -, rfl⟩ := List.mem_map.mp hx
        obtain ⟨hp, hl, hr⟩ := (combinations_mem w (lo + 1) (d + 1) y).mp hy
        cases y with
        | nil => simp at hl
        | cons b y' =>
          have := (hr b (List.mem_cons_self _ _)).1
          exact List.Lex.rel (by omega)

theorem nodup_of_pairwise_lex {l : List (List Int)} (h : l.Pairwise (List.Lex (· < ·))) :
    l.Nodup :=
  h.imp (fun hxy => List.Lex.to_ne (List.Lex.imp (fun _ _ hab => ne_of_lt hab) _ _ hxy))

/-- C11, as stated, fails at `hi = INT_MAX`: for `lo = INT_MAX - 1`, `hi = INT_MAX`
and `d = 2` the first call produces `[INT_MAX - 1, INT_MAX]`, and the second call,
instead of reporting exhaustion, increments `array[0]` to `INT_MAX` and computes
`array[1] = array[0] + 1`, which overflows `int`: the call has no defined result,
and the sequence of calls reports no exhaustion. -/
theorem permute_hypothesis_overflow :
    (2147483646 : Int) ≤ INT_MAX ∧ ((2 : Nat) : Int) ≤ INT_MAX - 2147483646 + 1 ∧
    permute_hypothesis [0, 0] 2 2147483646 INT_MAX 1 = some (0, [2147483646, INT_MAX]) ∧
    permute_hypothesis [2147483646, INT_MAX] 2 2147483646 INT_MAX 0 = none ∧
    ∀ fuel, permute_hypothesis_all 2 2147483646 INT_MAX fuel [0, 0] 1 [] = none := by
  refine ⟨by decide, by decide, by decide, by decide, ?_⟩
  intro fuel
  match fuel with
  | 0 => rfl
  | 1 => decide
  | f + 2 =>
    have h1 : permute_hypothesis [0, 0] 2 2147483646 INT_MAX 1 =
        some (0, [2147483646, INT_MAX]) := by decide
    have h2 : permute_hypothesis [2147483646, INT_MAX] 2 2147483646 INT_MAX 0 = none := by
      decide
    simp only [permute_hypothesis_all, h1, lt_self_iff_false, if_false, h2]

/-- C11, amended: for every `lo <= hi` with `hi < INT_MAX` or `d = 1`, and every
size `d` with `1 <= d <= hi - lo + 1`, calling `permute_hypothesis` once with
`isfirst = 1` and then with `isfirst = 0` on the same array until it returns a
negative value ends (after one call more than there are tuples) and produces, in
order, the strictly ascending `d`-tuples of integers in `[lo, hi]` in
lexicographic order, starting at `[lo, lo+1, .., lo+d-1]`: every such tuple once,
`C(hi-lo+1, d)` tuples in all. -/
theorem permute_hypothesis_enumerates (lo hi : Int) (d : Nat) (array : List Int)
    (hle : lo ≤ hi) (hmax : hi < INT_MAX ∨ d = 1) (hd1 : 1 ≤ d) (hd : (d : Int) ≤ hi - lo + 1)
    (harr : array.length = d) :
    ∃ out : List (List Int),
      (∀ fuel, out.length + 1 ≤ fuel →
        permute_hypothesis_all d lo hi fuel array 1 [] = some out) ∧
      out.head? = some (ramp lo d) ∧
      (∀ x, x ∈ out ↔ (x.Pairwise (· < ·) ∧ x.length = d ∧ ∀ i ∈ x, lo ≤ i ∧ i ≤ hi)) ∧
      out.Pairwise (List.Lex (· < ·)) ∧ out.Nodup ∧
      out.length = Nat.choose (hi - lo + 1).toNat d := by
  have hhi : hi = lo + ((hi - lo + 1).toNat : Int) - 1 := by
    rw [Int.toNat_of_nonneg (by omega)]
    ring
  have hdw : d ≤ (hi - lo + 1).toNat := by omega
  refine ⟨combinations (hi - lo + 1).toNat lo d, ?_, ?_, ?_, combinations_lex _ _ _,
    nodup_of_pairwise_lex (combinations_lex _ _ _), combinations_length _ _ _⟩
  · intro fuel hfuel
    have := permute_hypothesis_all_spec lo (hi - lo + 1).toNat d hd1 hdw
      (fun h => by
        rw [← hhi]
        rcases hmax with h' | h'
        · exact h'
        · omega) array harr fuel hfuel
    rwa [← hhi] at this
  · rw [(combinations_chain _ lo d).2.2.1, if_pos hdw]
  · intro x
    rw [combinations_mem]
    constructor
    · rintro ⟨h1, h2, h3⟩
      exact ⟨h1, h2, fun i hi' => by have := h3 i hi'; omega⟩
    · rintro ⟨h1, h2, h3⟩
      exact ⟨h1, h2, fun i hi' => by have := h3 i hi'; omega⟩

/-- C11, amended, for the pairs in `[6, 8]`, on an array that holds `[0, 0]`. -/
theorem permute_hypothesis_enumerates_witness :
    (6 : Int) ≤ 8 ∧ ((8 : Int) < INT_MAX ∨ 2 = 1) ∧ 1 ≤ 2 ∧ ((2 : Nat) : Int) ≤ 8 - 6 + 1 ∧
    ([0, 0] : List Int).length = 2 ∧
    ∃ out : List (List Int),
      (∀ fuel, out.length + 1 ≤ fuel →
        permute_hypothesis_all 2 6 8 fuel [0, 0] 1 [] = some out) ∧
      out.head? = some (ramp 6 2) ∧
      (∀ x, x ∈ out ↔ (x.Pairwise (· < ·) ∧ x.length = 2 ∧ ∀ i ∈ x, (6 : Int) ≤ i ∧ i ≤ 8)) ∧
      out.Pairwise (List.Lex (· < ·)) ∧ out.Nodup ∧
      out.length = Nat.choose ((8 : Int) - 6 + 1).toNat 2 :=
  ⟨by decide, by decide, by decide, by decide, rfl,
    permute_hypothesis_enumerates 6 8 2 [0, 0] (by decide) (by decide) (by decide) (by decide)
      rfl⟩

/-- C12: for every solution `s` with strictly ascending indexes and
`1 <= s.depth` (a solution holds at most 64 indexes; the bound is not used) and
every bit `b`, `insert_bit_in_solutions(s, b)` returns a
negative value if and only if `s.depth = 64` or `b` is at most the last index
of `s`, and then leaves `s` unchanged; otherwise it returns 0 and `s` has its
depth increased by one, `b` as its new last index, its earlier indexes
unchanged, and strictly ascending indexes. -/
theorem insert_bit_in_solutions_contract (s : solution_t) (b : Int)
    (hasc : strictly_ascending s) (hd1 : 1 ≤ s.depth) :
    ∃ (last ret : Int) (s' : solution_t), s.indexes.getLast? = some last ∧
      insert_bit_in_solutions s b = some (ret, s') ∧
      (ret < 0 ↔ (s.depth = 64 ∨ b ≤ last)) ∧
      (ret < 0 → s' = s) ∧
      (¬ ret < 0 → ret = 0 ∧ s'.depth = s.depth + 1 ∧ s'.indexes.getLast? = some b ∧
        s'.indexes.take s.depth = s.indexes ∧ strictly_ascending s') := by
  have hne : s.indexes ≠ [] := by
    intro h
    unfold solution_t.depth at hd1
    rw [h] at hd1
    simp at hd1
  obtain ⟨last, hlast⟩ : ∃ last, s.indexes.getLast? = some last :=
    ⟨s.indexes.getLast hne, List.getLast?_eq_getLast _ hne⟩
  by_cases h64 : s.depth = MAX_NUM_INDEX
  · refine ⟨last, -1, s, hlast, ?_, ?_, fun _ => rfl, fun h => absurd (by decide) h⟩
    · unfold insert_bit_in_solutions
      rw [if_pos h64]
    · exact ⟨fun _ => Or.inl h64, fun _ => by decide⟩
  · by_cases hb : last ≥ b
    · refine ⟨last, -1, s, hlast, ?_, ?_, fun _ => rfl, fun h => absurd (by decide) h⟩
      · unfold insert_bit_in_solutions
        rw [if_neg h64, hlast]
        simp only [if_pos hb]
      · exact ⟨fun _ => Or.inr hb, fun _ => by decide⟩
    · refine ⟨last, 0, ⟨s.indexes ++ [b]⟩, hlast, ?_, ?_, fun h => absurd h (by decide), ?_⟩
      · unfold insert_bit_in_solutions
        rw [if_neg h64, hlast]
        simp only [if_neg hb]
      · constructor
        · intro h
          exact absurd h (by decide)
        · rintro (h | h)
          · exact absurd h h64
          · exact absurd h hb
      · intro _
        refine ⟨rfl, ?_, ?_, ?_, ?_⟩
        · unfold solution_t.depth
          simp
        · simp
        · unfold solution_t.depth
          simp
        · unfold strictly_ascending
          rw [List.pairwise_append]
          refine ⟨hasc, List.pairwise_singleton _ _, ?_⟩
          intro a ha c hc
          rw [List.mem_singleton] at hc
          subst hc
          have hsorted : ∀ x ∈ s.indexes, x ≤ last := by
            intro x hx
            have hl : s.indexes.getLast hne = last := by
              have := List.getLast?_eq_getLast _ hne
              rw [hlast] at this
              exact (Option.some.inj this).symm
            rw [← hl]
            obtain ⟨init, hinit⟩ : ∃ init, s.indexes = init ++ [s.indexes.getLast hne] :=
              ⟨s.indexes.dropLast, (List.dropLast_append_getLast hne).symm⟩
            unfold strictly_ascending at hasc
            rw [hinit, List.pairwise_append] at hasc
            rw [hinit] at hx
            rcases List.mem_append.mp hx with h | h
            · exact le_of_lt (hasc.2.2 x h _ (List.mem_singleton_self _))
            · rw [List.mem_singleton] at h
              rw [h]
          have := hsorted a ha
          omega

/-- C12, on the solution `[6, 10]` and the bit 13. -/
theorem insert_bit_in_solutions_contract_witness :
    strictly_ascending ⟨[6, 10]⟩ ∧ 1 ≤ (⟨[6, 10]⟩ : solution_t).depth ∧
    ∃ (last ret : Int) (s' : solution_t),
      (⟨[6, 10]⟩ : solution_t).indexes.getLast? = some last ∧
      insert_bit_in_solutions ⟨[6, 10]⟩ 13 = some (ret, s') ∧
      (ret < 0 ↔ ((⟨[6, 10]⟩ : solution_t).depth = 64 ∨ 13 ≤ last)) ∧
      (ret < 0 → s' = ⟨[6, 10]⟩) ∧
      (¬ ret < 0 → ret = 0 ∧ s'.depth = (⟨[6, 10]⟩ : solution_t).depth + 1 ∧
        s'.indexes.getLast? = some 13 ∧
        s'.indexes.take (⟨[6, 10]⟩ : solution_t).depth = (⟨[6, 10]⟩ : solution_t).indexes ∧
        strictly_ascending s') :=
  ⟨by decide, by decide,
    insert_bit_in_solutions_contract ⟨[6, 10]⟩ 13 (by decide) (by decide)⟩

theorem exists_sublist_insert : ∀ (l : List solution_t) (r : solution_t), r ∈ l →
    ∀ sub : List solution_t, sub.Sublist l → r ∉ sub →
      ∃ sub2 : List solution_t, sub2.Sublist l ∧ sub2 ≠ [] ∧
        xor_sum sub2 = solution_vec r + xor_sum sub := by
  intro l
  induction l with
  | nil =>
    intro r hr
    cases hr
  | cons a l ih =>
    intro r hr sub hsub hnot
    cases hsub with
    | cons _ h =>
      by_cases hra : r = a
      · subst hra
        exact ⟨r :: sub, h.cons₂ r, by simp, xor_sum_cons r sub⟩
      · have hrl : r ∈ l := by
          rcases List.mem_cons.mp hr with h' | h'
          · exact absurd h' hra
          · exact h'
        obtain ⟨sub2, h2, hne, hsum⟩ := ih r hrl sub h hnot
        exact ⟨sub2, h2.cons a, hne, hsum⟩
    | cons₂ _ h =>
      rename_i sub'
      have hra : r ≠ a := fun e => hnot (by rw [e]; exact List.mem_cons_self _ _)
      have hrl : r ∈ l := by
        rcases List.mem_cons.mp hr with h' | h'
        · exact absurd h' hra
        · exact h'
      obtain ⟨sub2, h2, -, hsum⟩ := ih r hrl sub' h
        (fun hm => hnot (List.mem_cons_of_mem _ hm))
      refine ⟨a :: sub2, h2.cons₂ a, by simp, ?_⟩
      rw [xor_sum_cons, xor_sum_cons, hsum]
      abel

/-- In a linearly independent list no solution is the XOR combination of
others. -/
theorem not_xor_sum_of_others {l : List solution_t} (h : xor_independent l) {r : solution_t}
    (hr : r ∈ l) {sub : List solution_t} (hsub : sub.Sublist l) (hnot : r ∉ sub) :
    solution_vec r ≠ xor_sum sub := by
  intro hv
  obtain ⟨sub2, h2, hne, hsum⟩ := exists_sublist_insert l r hr sub hsub hnot
  apply h sub2 h2 hne
  rw [hsum, hv, vec_add_self]

theorem nodup_of_xor_independent {l : List solution_t} (h : xor_independent l) : l.Nodup := by
  induction l with
  | nil => exact List.nodup_nil
  | cons a l ih =>
    rw [List.nodup_cons]
    refine ⟨?_, ih (xor_independent_tail h)⟩
    intro ha
    apply h [a, a] ((List.singleton_sublist.mpr ha).cons₂ a) (by simp)
    rw [xor_sum_cons, xor_sum_singleton, vec_add_self]

theorem xor_solutions_wf {lo hi : Int} {s1 s2 r : solution_t} (h1 : wf_solution lo hi s1)
    (h2 : wf_solution lo hi s2) (h : xor_solutions s1 s2 = some r) : wf_solution lo hi r := by
  obtain ⟨hr, hmem, -⟩ := xor_solutions_some h1.1 h2.1 h
  refine ⟨hr, fun i hi' => ?_⟩
  rcases (hmem i).mp hi' with h' | h'
  · exact h1.2 i h'.1
  · exact h2.2 i h'.1

theorem solution_vec_support {lo hi : Int} {s : solution_t} (h : indexes_within lo hi s)
    (i : Int) (hi' : solution_vec s i ≠ 0) : lo ≤ i ∧ i ≤ hi := by
  unfold solution_vec at hi'
  by_cases hm : i ∈ s.indexes
  · exact h i hm
  · rw [if_neg hm] at hi'
    exact absurd rfl hi'

/-- One admitted solution more keeps the relation between `perm_sarray` and the
admitted solutions, for a window of any width, whenever
`add_solution_with_permuations` completes. -/
theorem perm_inv_step_of_some {lo hi : Int} {alloc : Nat → Bool}
    {K perm perm' : List solution_t} {s : solution_t} (hinv : perm_inv lo hi K perm)
    (hs : wf_solution lo hi s) (hd : 1 ≤ s.depth) (hnot : s ∉ perm)
    (hadd : add_solution_with_permuations alloc perm s = some (some perm')) :
    perm_inv lo hi (K ++ [s]) perm' := by
  have hmem := add_solution_with_permuations_mem hadd
  have hcalls := add_solution_with_permuations_calls hadd
  have hs0 := solution_vec_ne_zero hd
  constructor
  · intro p hp
    rcases (hmem p).mp hp with h | rfl | ⟨q, hq, hx⟩
    · exact hinv.1 p h
    · exact hs
    · exact xor_solutions_wf (hinv.1 q hq) hs hx
  · intro p hp
    rw [hmem p, in_xor_span_append_singleton]
    constructor
    · rintro (h | rfl | ⟨q, hq, hx⟩)
      · obtain ⟨h1, h2⟩ := (hinv.2 p hp).mp h
        exact ⟨h1, Or.inl h2⟩
      · exact ⟨hs0, Or.inr ⟨[], List.nil_sublist _, by simp [xor_sum]⟩⟩
      · have hq' := hinv.1 q hq
        have hv := xor_solutions_vec hq'.1 hs.1 hx
        obtain ⟨-, sub, hsub, hqv⟩ := (hinv.2 q hq').mp hq
        refine ⟨?_, Or.inr ⟨sub, hsub, by rw [hv, hqv]⟩⟩
        intro h0
        rw [h0] at hv
        have := vec_add_cancel hv
        rw [zero_add] at this
        exact hnot (by rw [← solution_vec_inj hq'.1 hs.1 this]; exact hq)
    · rintro ⟨hne, h | ⟨sub, hsub, hv⟩⟩
      · exact Or.inl ((hinv.2 p hp).mpr ⟨hne, h⟩)
      · have hqs : xor_sum sub = solution_vec p + solution_vec s := by
          rw [hv, add_assoc, vec_add_self, add_zero]
        obtain ⟨q, hqwf, hqv⟩ := exists_solution_of_vec lo hi (xor_sum sub) (by
          intro i hi'
          rw [hqs, Pi.add_apply] at hi'
          by_cases hp0 : solution_vec p i = 0
          · rw [hp0, zero_add] at hi'
            exact solution_vec_support hs.2 i hi'
          · exact solution_vec_support hp.2 i hp0)
        by_cases hq0 : solution_vec q = 0
        · right; left
          rw [hqv] at hq0
          rw [hq0, zero_add] at hv
          exact solution_vec_inj hp.1 hs.1 hv
        · right; right
          have hqm : q ∈ perm := (hinv.2 q hqwf).mpr ⟨hq0, sub, hsub, hqv⟩
          obtain ⟨r, hr⟩ := hcalls q hqm
          have hrwf := xor_solutions_wf hqwf hs hr
          have hrv := xor_solutions_vec hqwf.1 hs.1 hr
          refine ⟨q, hqm, ?_⟩
          rw [hr]
          congr 1
          apply solution_vec_inj hrwf.1 hp.1
          rw [hrv, hqv, hv]

/-- Whenever the loop of `hash_reduce` returns, what it leaves is a sublist of
its input; when no exception was caught the sublist is linearly independent and
spans every input solution.  The window `[lo, hi]` can have any width. -/
theorem hash_reduce_loop_partial (alloc : Nat → Bool) {lo hi : Int} :
    ∀ (rest K perm kept : List solution_t) (caught : Bool), perm_inv lo hi K perm →
      xor_independent K → (∀ s ∈ rest, wf_solution lo hi s ∧ 1 ≤ s.depth) →
      hash_reduce_loop alloc rest perm = some (kept, caught) →
      kept.Sublist rest ∧
        (caught = false →
          xor_independent (K ++ kept) ∧ ∀ s ∈ rest, in_xor_span (K ++ kept) s) := by
  intro rest
  induction rest with
  | nil =>
    intro K perm kept caught _ hK _ hrun
    simp only [hash_reduce_loop, Option.some.injEq, Prod.mk.injEq] at hrun
    obtain ⟨rfl, rfl⟩ := hrun
    exact ⟨List.Sublist.refl _, fun _ => ⟨by simpa using hK, fun s hs => (by cases hs)⟩⟩
  | cons s rest ih =>
    intro K perm kept caught hinv hK hall hrun
    obtain ⟨hs, hd⟩ := hall s (List.mem_cons_self _ _)
    have hrest : ∀ t ∈ rest, wf_solution lo hi t ∧ 1 ≤ t.depth :=
      fun t ht => hall t (List.mem_cons_of_mem _ ht)
    by_cases hmem : s ∈ perm
    · have hu : hash_reduce_is_unique s perm = false := by
        cases h : hash_reduce_is_unique s perm
        · rfl
        · exact absurd hmem ((hash_reduce_is_unique_iff s perm).mp h)
      simp only [hash_reduce_loop, hu] at hrun
      obtain ⟨hsub, hgood⟩ := ih K perm kept caught hinv hK hrest hrun
      refine ⟨hsub.cons s, fun hc => ⟨(hgood hc).1, ?_⟩⟩
      intro t ht
      rcases List.mem_cons.mp ht with rfl | ht
      · exact in_xor_span_mono (List.sublist_append_left K kept) ((hinv.2 t hs).mp hmem).2
      · exact (hgood hc).2 t ht
    · have hu : hash_reduce_is_unique s perm = true := (hash_reduce_is_unique_iff s perm).mpr hmem
      simp only [hash_reduce_loop, hu, if_true] at hrun
      cases hadd : add_solution_with_permuations alloc perm s with
      | none => rw [hadd] at hrun; cases hrun
      | some res =>
        cases res with
        | none =>
          rw [hadd] at hrun
          simp only [Option.some.injEq, Prod.mk.injEq] at hrun
          obtain ⟨rfl, rfl⟩ := hrun
          exact ⟨List.Sublist.refl _, fun hc => (by cases hc)⟩
        | some perm' =>
          rw [hadd] at hrun
          simp only at hrun
          cases hloop : hash_reduce_loop alloc rest perm' with
          | none => rw [hloop] at hrun; cases hrun
          | some res' =>
            obtain ⟨kept', caught'⟩ := res'
            rw [hloop] at hrun
            simp only [Option.some.injEq, Prod.mk.injEq] at hrun
            obtain ⟨rfl, rfl⟩ := hrun
            have hinv' := perm_inv_step_of_some hinv hs hd hmem hadd
            have hnspan : ¬ in_xor_span K s := fun h =>
              hmem ((hinv.2 s hs).mpr ⟨solution_vec_ne_zero hd, h⟩)
            have hK' := xor_independent_append_singleton hK hnspan
            obtain ⟨hsub, hgood⟩ := ih (K ++ [s]) perm' kept' caught' hinv' hK' hrest hloop
            refine ⟨hsub.cons₂ s, fun hc => ?_⟩
            obtain ⟨hind, hspan⟩ := hgood hc
            rw [List.append_assoc, List.singleton_append] at hind hspan
            refine ⟨hind, ?_⟩
            intro t ht
            rcases List.mem_cons.mp ht with rfl | ht
            · refine ⟨[t], ?_, by rw [xor_sum_singleton]⟩
              exact (List.singleton_sublist.mpr (List.mem_cons_self _ _)).trans
                (List.sublist_append_right K _)
            · exact hspan t ht

/-- The loop of `hash_reduce` on the list it has left, from the same
`perm_sarray`, leaves it unchanged: the solutions it dropped have not changed
`perm_sarray`, and an exception is thrown at the same `push_back`. -/
theorem hash_reduce_loop_idempotent (alloc : Nat → Bool) :
    ∀ (rest perm kept : List solution_t) (caught : Bool),
      hash_reduce_loop alloc rest perm = some (kept, caught) →
      hash_reduce_loop alloc kept perm = some (kept, caught) := by
  intro rest
  induction rest with
  | nil =>
    intro perm kept caught hrun
    simp only [hash_reduce_loop, Option.some.injEq, Prod.mk.injEq] at hrun
    rw [← hrun.1, ← hrun.2]
    rfl
  | cons s rest ih =>
    intro perm kept caught hrun
    by_cases hu : hash_reduce_is_unique s perm = true
    · simp only [hash_reduce_loop, hu, if_true] at hrun
      cases hadd : add_solution_with_permuations alloc perm s with
      | none => rw [hadd] at hrun; cases hrun
      | some res =>
        cases res with
        | none =>
          rw [hadd] at hrun
          simp only [Option.some.injEq, Prod.mk.injEq] at hrun
          obtain ⟨rfl, rfl⟩ := hrun
          simp only [hash_reduce_loop, hu, if_true, hadd]
        | some perm' =>
          rw [hadd] at hrun
          simp only at hrun
          cases hloop : hash_reduce_loop alloc rest perm' with
          | none => rw [hloop] at hrun; cases hrun
          | some res' =>
            obtain ⟨kept', caught'⟩ := res'
            rw [hloop] at hrun
            simp only [Option.some.injEq, Prod.mk.injEq] at hrun
            obtain ⟨rfl, rfl⟩ := hrun
            have := ih perm' kept' caught' hloop
            simp only [hash_reduce_loop, hu, if_true, hadd, this]
    · have hu' : hash_reduce_is_unique s perm = false := by
        cases h : hash_reduce_is_unique s perm
        · rfl
        · exact absurd h hu
      simp only [hash_reduce_loop, hu'] at hrun
      exact ih perm kept caught hrun

/-- Independence of a list passes to its initial segments. -/
theorem xor_independent_of_append {l1 l2 : List solution_t} (h : xor_independent (l1 ++ l2)) :
    xor_independent l1 :=
  fun sub hsub hne => h sub (hsub.trans (List.sublist_append_left l1 l2)) hne

/-- On a linearly independent list the loop of `hash_reduce`, when it ends, has
dropped nothing, whether an exception was caught or not. -/
theorem hash_reduce_loop_of_independent (alloc : Nat → Bool) {lo hi : Int} :
    ∀ (rest K perm kept : List solution_t) (caught : Bool), perm_inv lo hi K perm →
      xor_independent (K ++ rest) → (∀ s ∈ rest, wf_solution lo hi s ∧ 1 ≤ s.depth) →
      hash_reduce_loop alloc rest perm = some (kept, caught) → kept = rest := by
  intro rest
  induction rest with
  | nil =>
    intro K perm kept caught _ _ _ hrun
    simp only [hash_reduce_loop, Option.some.injEq, Prod.mk.injEq] at hrun
    exact hrun.1.symm
  | cons s rest ih =>
    intro K perm kept caught hinv hind hall hrun
    obtain ⟨hs, hd⟩ := hall s (List.mem_cons_self _ _)
    have hrest : ∀ t ∈ rest, wf_solution lo hi t ∧ 1 ≤ t.depth :=
      fun t ht => hall t (List.mem_cons_of_mem _ ht)
    have hnodup := nodup_of_xor_independent hind
    have hsK : s ∉ K := fun hm =>
      (List.nodup_append.mp hnodup).2.2 hm (List.mem_cons_self _ _)
    have hnspan : ¬ in_xor_span K s := by
      rintro ⟨sub, hsub, hv⟩
      exact not_xor_sum_of_others hind (List.mem_append_right K (List.mem_cons_self _ _))
        (hsub.trans (List.sublist_append_left K _)) (fun hm => hsK (hsub.subset hm)) hv
    have hmem : s ∉ perm := fun hm => hnspan ((hinv.2 s hs).mp hm).2
    have hu : hash_reduce_is_unique s perm = true := (hash_reduce_is_unique_iff s perm).mpr hmem
    simp only [hash_reduce_loop, hu, if_true] at hrun
    cases hadd : add_solution_with_permuations alloc perm s with
    | none => rw [hadd] at hrun; cases hrun
    | some res =>
      cases res with
      | none =>
        rw [hadd] at hrun
        simp only [Option.some.injEq, Prod.mk.injEq] at hrun
        exact hrun.1.symm
      | some perm' =>
        rw [hadd] at hrun
        simp only at hrun
        cases hloop : hash_reduce_loop alloc rest perm' with
        | none => rw [hloop] at hrun; cases hrun
        | some res' =>
          obtain ⟨kept', caught'⟩ := res'
          rw [hloop] at hrun
          simp only [Option.some.injEq, Prod.mk.injEq] at hrun
          obtain ⟨rfl, rfl⟩ := hrun
          have hinv' := perm_inv_step_of_some hinv hs hd hmem hadd
          have hind' : xor_independent ((K ++ [s]) ++ rest) := by
            rw [List.append_assoc, List.singleton_append]
            exact hind
          rw [ih (K ++ [s]) perm' kept' caught' hinv' hind' hrest hloop]

/-- What `hash_reduce` returns, in terms of its loop. -/
theorem hash_reduce_some {alloc : Nat → Bool} {ctx ctx' : hash_context_t}
    {err : List diagnostic} (h : hash_reduce alloc ctx = some (ctx', err)) :
    ∃ kept caught, hash_reduce_loop alloc ctx.solutions [] = some (kept, caught) ∧
      ctx' = { ctx with solutions := kept } ∧
      err = (if caught then [diagnostic.out_of_memory] else []) := by
  unfold hash_reduce at h
  cases hloop : hash_reduce_loop alloc ctx.solutions [] with
  | none => rw [hloop] at h; cases h
  | some r =>
    rw [hloop] at h
    simp only [Option.map_some', Option.some.injEq, Prod.mk.injEq] at h
    exact ⟨r.1, r.2, rfl, h.1.symm, h.2.symm⟩

/-- The indexes of the solutions of a list lie in some range `[lo, hi]`. -/
theorem exists_window : ∀ l : List solution_t, ∃ lo hi : Int, ∀ s ∈ l, indexes_within lo hi s := by
  have hlist : ∀ xs : List Int, ∃ lo hi : Int, ∀ i ∈ xs, lo ≤ i ∧ i ≤ hi := by
    intro xs
    induction xs with
    | nil => exact ⟨0, 0, fun i hi => (by cases hi)⟩
    | cons x xs ih =>
      obtain ⟨lo, hi, h⟩ := ih
      refine ⟨min lo x, max hi x, fun i hi' => ?_⟩
      rcases List.mem_cons.mp hi' with rfl | hi'
      · exact ⟨min_le_right _ _, le_max_right _ _⟩
      · exact ⟨le_trans (min_le_left _ _) (h i hi').1, le_trans (h i hi').2 (le_max_left _ _)⟩
  intro l
  induction l with
  | nil => exact ⟨0, 0, fun s hs => (by cases hs)⟩
  | cons t l ih =>
    obtain ⟨lo, hi, h⟩ := ih
    obtain ⟨a, b, hab⟩ := hlist t.indexes
    refine ⟨min lo a, max hi b, fun s hs => ?_⟩
    rcases List.mem_cons.mp hs with rfl | hs
    · intro i hi'
      exact ⟨le_trans (min_le_right _ _) (hab i hi').1, le_trans (hab i hi').2 (le_max_right _ _)⟩
    · intro i hi'
      exact ⟨le_trans (min_le_left _ _) (h s hs i hi').1,
        le_trans (h s hs i hi').2 (le_max_left _ _)⟩

/-- C13 fails in the code: the solutions `[0, .., 31]` and `[32, .., 63]` have
depth 32 and strictly ascending indexes in `[0, 64)`, and `hash_reduce` on the
list of the two, with no allocation failing, leaves no result: after admitting
the first it combines it with the second, and `xor_solutions` stops at
`assert(k < MAX_NUM_INDEX)` on the 64 indexes of the combination.  Apart from
that, when a `push_back` throws, `hash_reduce` reports it and returns with the
list as it is then: on `[6]`, `[7]`, `[6, 7]`, when the `push_back`s on a
non-empty `perm_sarray` throw, all three are left.  Whenever `hash_reduce`
returns without reporting an exception, on solutions of depth at least 1 with
strictly ascending indexes, it leaves a subsequence of the input that is a
basis of its XOR-span. -/
theorem hash_reduce_aborts :
    (∀ s ∈ ([⟨ramp 0 32⟩, ⟨ramp 32 32⟩] : List solution_t),
      strictly_ascending s ∧ indexes_within 0 63 s ∧ 1 ≤ s.depth) ∧
    hash_reduce enough_memory
      { example_ctx with solutions := [⟨ramp 0 32⟩, ⟨ramp 32 32⟩] } = none ∧
    hash_reduce (fun n => decide (1 ≤ n))
        { example_ctx with solutions := [⟨[6]⟩, ⟨[7]⟩, ⟨[6, 7]⟩] } =
      some ({ example_ctx with solutions := [⟨[6]⟩, ⟨[7]⟩, ⟨[6, 7]⟩] },
        [diagnostic.out_of_memory]) ∧
    ∀ (alloc : Nat → Bool) (ctx ctx' : hash_context_t) (err : List diagnostic),
      (∀ s ∈ ctx.solutions, strictly_ascending s ∧ 1 ≤ s.depth) →
      hash_reduce alloc ctx = some (ctx', err) → diagnostic.out_of_memory ∉ err →
      ctx' = { ctx with solutions := ctx'.solutions } ∧
      ctx'.solutions.Sublist ctx.solutions ∧
      (∀ r ∈ ctx'.solutions, ∀ sub : List solution_t, sub.Sublist ctx'.solutions → r ∉ sub →
        solution_vec r ≠ xor_sum sub) ∧
      xor_independent ctx'.solutions ∧
      (∀ s ∈ ctx.solutions, in_xor_span ctx'.solutions s) := by
  refine ⟨by decide!, by decide!, by decide!, ?_⟩
  intro alloc ctx ctx' err hs hrun hno
  obtain ⟨lo, hi, hwin⟩ := exists_window ctx.solutions
  obtain ⟨kept, caught, hloop, rfl, rfl⟩ := hash_reduce_some hrun
  have hc : caught = false := by
    cases caught
    · rfl
    · exact absurd (List.mem_singleton.mpr rfl) hno
  subst hc
  have hs' : ∀ s ∈ ctx.solutions, wf_solution lo hi s ∧ 1 ≤ s.depth :=
    fun s h => ⟨⟨(hs s h).1, hwin s h⟩, (hs s h).2⟩
  obtain ⟨hsub, hgood⟩ := hash_reduce_loop_partial alloc ctx.solutions [] [] kept false
    (perm_inv_nil lo hi) xor_independent_nil hs' hloop
  obtain ⟨hind, hspan⟩ := hgood rfl
  simp only [List.nil_append] at hind hspan
  exact ⟨rfl, hsub, fun r hr sub hsub' hnot => not_xor_sum_of_others hind hr hsub' hnot,
    hind, hspan⟩

/-- C14 fails in the code: the solutions `[0, .., 62]` and `[63]` have strictly
ascending indexes in `[0, 64)` and are linearly independent under XOR, and
`hash_reduce` on the list of the two, with no allocation failing, leaves no
result instead of the list: `xor_solutions` stops at `assert(k < MAX_NUM_INDEX)`
on the 64 indexes of their combination.  Whenever `hash_reduce` returns, with
or without an exception caught, applying it to its result leaves the result
unchanged, and on a linearly independent list of solutions of depth at least 1
with strictly ascending indexes it removes nothing. -/
theorem hash_reduce_fixed_point_aborts :
    (∀ s ∈ ([⟨ramp 0 63⟩, ⟨[63]⟩] : List solution_t),
      strictly_ascending s ∧ indexes_within 0 63 s ∧ 1 ≤ s.depth) ∧
    xor_independent [⟨ramp 0 63⟩, ⟨[63]⟩] ∧
    hash_reduce enough_memory { example_ctx with solutions := [⟨ramp 0 63⟩, ⟨[63]⟩] } = none ∧
    (∀ (alloc : Nat → Bool) (ctx ctx' : hash_context_t) (err : List diagnostic),
      hash_reduce alloc ctx = some (ctx', err) →
      hash_reduce alloc ctx' = some (ctx', err)) ∧
    ∀ (alloc : Nat → Bool) (ctx ctx' : hash_context_t) (err : List diagnostic),
      (∀ s ∈ ctx.solutions, strictly_ascending s ∧ 1 ≤ s.depth) →
      xor_independent ctx.solutions →
      hash_reduce alloc ctx = some (ctx', err) → ctx' = ctx := by
  refine ⟨by decide!, ?_, by decide!, ?_, ?_⟩
  · apply xor_independent_pair
    · exact fun h => absurd (congrFun h 0) (by decide)
    · exact fun h => absurd (congrFun h 63) (by decide)
    · exact fun h => absurd (congrFun h 63) (by decide)
  · intro alloc ctx ctx' err hrun
    obtain ⟨kept, caught, hloop, rfl, rfl⟩ := hash_reduce_some hrun
    have := hash_reduce_loop_idempotent alloc ctx.solutions [] kept caught hloop
    unfold hash_reduce
    simp only [this, Option.map_some']
  · intro alloc ctx ctx' err hs hind hrun
    obtain ⟨lo, hi, hwin⟩ := exists_window ctx.solutions
    obtain ⟨kept, caught, hloop, rfl, rfl⟩ := hash_reduce_some hrun
    have hs' : ∀ s ∈ ctx.solutions, wf_solution lo hi s ∧ 1 ≤ s.depth :=
      fun s h => ⟨⟨(hs s h).1, hwin s h⟩, (hs s h).2⟩
    rw [hash_reduce_loop_of_independent alloc ctx.solutions [] [] kept caught
      (perm_inv_nil lo hi) (by simpa using hind) hs' hloop]

theorem addr_bit_xor (a b : Nat) (i : Int) :
    addr_bit (a ^^^ b) i = addr_bit a i + addr_bit b i := by
  rw [addr_bit_eq_testBit, addr_bit_eq_testBit, addr_bit_eq_testBit, Nat.testBit_xor]
  cases a.testBit i.toNat <;> cases b.testBit i.toNat <;> decide

theorem eval_indexes_xor (a b : Nat) (l : List Int) :
    eval_indexes (a ^^^ b) l = eval_indexes a l + eval_indexes b l := by
  induction l with
  | nil => simp [eval_indexes]
  | cons i l ih =>
    unfold eval_indexes at ih ⊢
    rw [List.map_cons, List.sum_cons, List.map_cons, List.sum_cons, List.map_cons,
      List.sum_cons, ih, addr_bit_xor]
    abel

theorem zmod2_add_eq_zero_iff (x y : ZMod 2) : x + y = 0 ↔ x = y := by
  constructor
  · intro h
    have := congrArg (· + y) h
    simp only [add_assoc, zmod2_add_self, add_zero, zero_add] at this
    exact this
  · rintro rfl
    exact zmod2_add_self x

/-- C15: for every list of address pairs `keys` and every solution `s` of depth
at least 1 (with indexes in `[0, 64)`, the shift counts that C defines),
`is_solution_correct(keys, s)` returns true if and only if
`get_partition_num(a XOR b, s) = 0` for every pair `(a, b)` of `keys`, if and
only if `get_partition_num(a, s) = get_partition_num(b, s)` for every pair; it
returns true on an empty key list. -/
theorem is_solution_correct_iff (keys : List (Nat × Nat)) (s : solution_t)
    (hd : 1 ≤ s.depth) (hr : indexes_within 0 63 s) :
    ∃ r : Bool, is_solution_correct keys s = some r ∧
      (r = true ↔ ∀ p ∈ keys, get_partition_num (p.1 ^^^ p.2) s = some 0) ∧
      (r = true ↔ ∀ p ∈ keys, get_partition_num p.1 s = get_partition_num p.2 s) ∧
      is_solution_correct [] s = some true := by
  refine ⟨decide (consistent keys s), is_solution_correct_spec keys s hd hr, ?_, ?_, ?_⟩
  · rw [decide_eq_true_iff]
    unfold consistent
    apply forall_congr'
    intro p
    apply imp_congr_right
    intro _
    obtain ⟨q, hq, hgp, hcast⟩ := get_partition_num_spec (p.1 ^^^ p.2) s hd hr
    rw [hgp, ← zmod2_add_eq_zero_iff, ← eval_indexes_xor, ← hcast]
    have h0 := bit_cast_inj q 0 hq (by omega)
    simp only [Nat.cast_zero] at h0
    rw [h0]
    exact ⟨fun h => by rw [h], fun h => Option.some.inj h⟩
  · rw [decide_eq_true_iff]
    unfold consistent
    apply forall_congr'
    intro p
    apply imp_congr_right
    intro _
    obtain ⟨qa, hqa, hga, hca⟩ := get_partition_num_spec p.1 s hd hr
    obtain ⟨qb, hqb, hgb, hcb⟩ := get_partition_num_spec p.2 s hd hr
    rw [hga, hgb, ← hca, ← hcb, bit_cast_inj qa qb hqa hqb]
    exact ⟨fun h => by rw [h], fun h => Option.some.inj h⟩
  · rw [is_solution_correct_spec [] s hd hr]
    simp [consistent]

/-- C15, on the pairs `(0, 320)`, `(0, 64)` and the solution `[6, 8]`. -/
theorem is_solution_correct_iff_witness :
    1 ≤ (⟨[6, 8]⟩ : solution_t).depth ∧ indexes_within 0 63 ⟨[6, 8]⟩ ∧
    ∃ r : Bool, is_solution_correct [(0, 320), (0, 64)] ⟨[6, 8]⟩ = some r ∧
      (r = true ↔ ∀ p ∈ ([(0, 320), (0, 64)] : List (Nat × Nat)),
        get_partition_num (p.1 ^^^ p.2) ⟨[6, 8]⟩ = some 0) ∧
      (r = true ↔ ∀ p ∈ ([(0, 320), (0, 64)] : List (Nat × Nat)),
        get_partition_num p.1 ⟨[6, 8]⟩ = get_partition_num p.2 ⟨[6, 8]⟩) ∧
      is_solution_correct [] ⟨[6, 8]⟩ = some true :=
  ⟨by decide, by decide, is_solution_correct_iff [(0, 320), (0, 64)] ⟨[6, 8]⟩
    (by decide) (by decide)⟩

/-- The pairs that the probing loop of `try_accomodate_new_bit` records are
pairs of the base address that the oracle confirms; the loop changes nothing
else of the setup. -/
theorem try_accomodate_new_bit_probe_keys (check : Nat → Nat → Bool) (end_addr stride : Nat) :
    ∀ (fuel : Nat) (ctx : hash_context_t) (all : List (List solution_t))
      (ctx' : hash_context_t) (all' : List (List solution_t)),
      try_accomodate_new_bit_probe check end_addr stride fuel ctx all = some (ctx', all') →
      same_setup ctx ctx' ∧
        ∃ new, ctx'.keys = ctx.keys ++ new ∧
          ∀ p ∈ new, p.1 = ctx.base_addr ∧ check p.1 p.2 = true := by
  intro fuel
  induction fuel with
  | zero =>
    intro ctx all ctx' all' h
    rw [try_accomodate_new_bit_probe] at h
    split at h
    · cases h
    · simp only [Option.some.injEq, Prod.mk.injEq] at h
      obtain ⟨rfl, rfl⟩ := h
      exact ⟨same_setup_refl _, [], by simp, by simp⟩
  | succ fuel ih =>
    intro ctx all ctx' all' h
    rw [try_accomodate_new_bit_probe] at h
    split at h
    · simp only at h
      split at h
      · rename_i hchk
        split at h
        · cases h
        · rename_i all1 herase
          split at h
          · simp only [Option.some.injEq, Prod.mk.injEq] at h
            obtain ⟨rfl, rfl⟩ := h
            refine ⟨⟨rfl, rfl, rfl, rfl, rfl, rfl⟩, [(ctx.base_addr, ctx.test_addr)], rfl, ?_⟩
            intro p hp
            rw [List.mem_singleton] at hp
            subst hp
            exact ⟨rfl, hchk⟩
          · obtain ⟨hsetup, new, hk, hnew⟩ := ih _ _ _ _ h
            refine ⟨same_setup_trans ⟨rfl, rfl, rfl, rfl, rfl, rfl⟩ hsetup,
              (ctx.base_addr, ctx.test_addr) :: new, ?_, ?_⟩
            · rw [hk]
              simp [hash_confirm_pair]
            · intro p hp
              rcases List.mem_cons.mp hp with rfl | hp
              · exact ⟨rfl, hchk⟩
              · exact hnew p hp
      · split at h
        · simp only [Option.some.injEq, Prod.mk.injEq] at h
          obtain ⟨rfl, rfl⟩ := h
          exact ⟨same_setup_refl _, [], by simp, by simp⟩
        · obtain ⟨hsetup, new, hk, hnew⟩ := ih _ _ _ _ h
          exact ⟨same_setup_trans ⟨rfl, rfl, rfl, rfl, rfl, rfl⟩ hsetup, new, hk, hnew⟩
    · simp only [Option.some.injEq, Prod.mk.injEq] at h
      obtain ⟨rfl, rfl⟩ := h
      exact ⟨same_setup_refl _, [], by simp, by simp⟩

/-- What a call of `try_accomodate_new_bit` that returns has done: with no
candidate left it reports and keeps the solutions, otherwise it takes the first
candidate that is left; the pairs it records are pairs of `start_addr` that the
oracle confirms. -/
theorem try_accomodate_new_bit_result (ctx : hash_context_t) (new_bit : Int)
    (check : Nat → Nat → Bool) (ctx' : hash_context_t) (err : List diagnostic)
    (h : try_accomodate_new_bit ctx new_bit check = some (ctx', err)) :
    ∃ left, try_accomodate_new_bit_candidates ctx new_bit check = some left ∧
      (left = [] → err = [diagnostic.something_went_wrong] ∧ ctx'.solutions = ctx.solutions) ∧
      (∀ c rest, left = c :: rest → err = [] ∧ ctx'.solutions = c) ∧
      ctx'.min_bit = ctx.min_bit ∧ ctx'.max_bit = ctx.max_bit ∧
      ctx'.start_addr = ctx.start_addr ∧ ctx'.end_addr = ctx.end_addr ∧
      ∃ new, ctx'.keys = ctx.keys ++ new ∧
        ∀ p ∈ new, p.1 = ctx.start_addr ∧ check p.1 p.2 = true := by
  unfold try_accomodate_new_bit at h
  unfold try_accomodate_new_bit_candidates
  split at h
  · cases h
  · rename_i hlen
    rw [if_neg hlen]
    split at h
    · rename_i all0 span first stride hperm hs1 hs2 hs3
      try simp only [hperm, hs1, hs2, hs3]
      split at h
      · cases h
      · rename_i ctx1 hprobe
        simp only [Option.some.injEq, Prod.mk.injEq] at h
        obtain ⟨rfl, rfl⟩ := h
        obtain ⟨⟨e1, e2, e3, e4, -, e6⟩, new, hk, hnew⟩ :=
          try_accomodate_new_bit_probe_keys check _ _ _ _ _ _ _ hprobe
        simp only at e1 e2 e3 e4 e6 hk hnew
        refine ⟨[], (by rw [hprobe]; rfl), fun _ => ⟨rfl, e6⟩, fun c rest hc => (by cases hc),
          e1, e2, e3, e4, new, hk, hnew⟩
      · rename_i ctx1 c rest hprobe
        simp only [Option.some.injEq, Prod.mk.injEq] at h
        obtain ⟨rfl, rfl⟩ := h
        obtain ⟨⟨e1, e2, e3, e4, -, -⟩, new, hk, hnew⟩ :=
          try_accomodate_new_bit_probe_keys check _ _ _ _ _ _ _ hprobe
        simp only at e1 e2 e3 e4 hk hnew
        refine ⟨c :: rest, (by rw [hprobe]; rfl), fun hc => (by cases hc), ?_,
          e1, e2, e3, e4, new, hk, hnew⟩
        intro c' rest' hc
        cases hc
        exact ⟨rfl, rfl⟩
    · cases h

theorem hash_find_solutions2_step2_succ (check : Nat → Nat → Bool) (n : Nat) (i : Int)
    (ctx ctx' : hash_context_t) (err err' : List diagnostic)
    (h : try_accomodate_new_bit ctx i check = some (ctx', err')) :
    hash_find_solutions2_step2 check (n + 1) i ctx err =
      hash_find_solutions2_step2 check n (i + 1) ctx' (err ++ err') := by
  rw [hash_find_solutions2_step2, h]

/-- The pairs that step 2 records are pairs of `start_addr` that the oracle
confirms. -/
theorem hash_find_solutions2_step2_keys (check : Nat → Nat → Bool) :
    ∀ (n : Nat) (i : Int) (ctx : hash_context_t) (err : List diagnostic)
      (ctx' : hash_context_t) (err' : List diagnostic),
      hash_find_solutions2_step2 check n i ctx err = some (ctx', err') →
      ctx'.start_addr = ctx.start_addr ∧
        ∃ new, ctx'.keys = ctx.keys ++ new ∧
          ∀ p ∈ new, p.1 = ctx.start_addr ∧ check p.1 p.2 = true := by
  intro n
  induction n with
  | zero =>
    intro i ctx err ctx' err' h
    simp only [hash_find_solutions2_step2, Option.some.injEq, Prod.mk.injEq] at h
    obtain ⟨rfl, rfl⟩ := h
    exact ⟨rfl, [], by simp, by simp⟩
  | succ n ih =>
    intro i ctx err ctx' err' h
    rw [hash_find_solutions2_step2] at h
    split at h
    · cases h
    · rename_i ctx1 e1 hrun
      obtain ⟨-, -, -, -, -, -, hst, -, new1, hk1, hnew1⟩ :=
        try_accomodate_new_bit_result ctx i check ctx1 e1 hrun
      obtain ⟨hst2, new2, hk2, hnew2⟩ := ih _ _ _ _ _ h
      refine ⟨hst2.trans hst, new1 ++ new2, by rw [hk2, hk1, List.append_assoc], ?_⟩
      intro p hp
      rcases List.mem_append.mp hp with hp | hp
      · exact hnew1 p hp
      · rw [← hst]
        exact hnew2 p hp

/-- The test addresses of a sweep are not below its first address. -/
theorem probes_ge (stride last : Nat) :
    ∀ (n t x : Nat), x ∈ probes stride last n t → t ≤ x := by
  intro n
  induction n with
  | zero => intro t x h; cases h
  | succ n ih =>
    intro t x h
    unfold probes at h
    split at h
    · rcases List.mem_cons.mp h with rfl | h
      · exact le_refl _
      · have := ih _ _ h
        omega
    · cases h

/-- The pairs of step 1: the pair `(start_addr, start_addr)` when the first
test address is within the sweep and the oracle confirms it, then pairs
`(start_addr, b)` with `start_addr < b`. -/
theorem phase1_keys_shape (ctx : hash_context_t) (check : Nat → Nat → Bool) :
    ∃ rest, phase1_keys ctx check =
        (if ctx.start_addr ≤ phase1_end_addr ctx ∧ check ctx.start_addr ctx.start_addr = true
          then [(ctx.start_addr, ctx.start_addr)] else []) ++ rest ∧
      ∀ p ∈ rest, p.1 = ctx.start_addr ∧ p.1 < p.2 ∧ check p.1 p.2 = true := by
  have hpos : 0 < 2 ^ ctx.min_bit.toNat := Nat.two_pow_pos _
  unfold phase1_keys confirmed_pairs phase1_probes loop_fuel
  rw [probes]
  by_cases hle : ctx.start_addr ≤ phase1_end_addr ctx
  · rw [if_pos hle, List.filter_cons]
    have hrest : ∀ p ∈ ((probes (2 ^ ctx.min_bit.toNat) (phase1_end_addr ctx)
        ((phase1_end_addr ctx - ctx.start_addr) / 2 ^ ctx.min_bit.toNat)
        (ctx.start_addr + 2 ^ ctx.min_bit.toNat)).filter
          (fun t => check ctx.start_addr t)).map (fun t => (ctx.start_addr, t)),
        p.1 = ctx.start_addr ∧ p.1 < p.2 ∧ check p.1 p.2 = true := by
      intro p hp
      obtain ⟨t, ht, rfl⟩ := List.mem_map.mp hp
      obtain ⟨ht, hc⟩ := List.mem_filter.mp ht
      have := probes_ge _ _ _ _ _ ht
      exact ⟨rfl, by simp only; omega, hc⟩
    by_cases hc : check ctx.start_addr ctx.start_addr = true
    · rw [if_pos hc, if_pos ⟨hle, hc⟩]
      exact ⟨_, rfl, hrest⟩
    · rw [if_neg hc, if_neg (fun h => hc h.2)]
      exact ⟨_, rfl, hrest⟩
  · rw [if_neg hle, if_neg (fun h => hle h.1)]
    exact ⟨[], rfl, fun p hp => (by cases hp)⟩

/-- The pairs that the probing loop of `try_accomodate_new_bit` records are
pairs of the base address with a test address that is not below the first one
of the loop. -/
theorem try_accomodate_new_bit_probe_tests (check : Nat → Nat → Bool) (end_addr stride : Nat)
    (hwrap : end_addr + stride < WORD) :
    ∀ (fuel : Nat) (ctx : hash_context_t) (all : List (List solution_t))
      (ctx' : hash_context_t) (all' : List (List solution_t)),
      try_accomodate_new_bit_probe check end_addr stride fuel ctx all = some (ctx', all') →
      ∃ new, ctx'.keys = ctx.keys ++ new ∧
        ∀ p ∈ new, p.1 = ctx.base_addr ∧ ctx.test_addr ≤ p.2 ∧ check p.1 p.2 = true := by
  intro fuel
  induction fuel with
  | zero =>
    intro ctx all ctx' all' h
    rw [try_accomodate_new_bit_probe] at h
    split at h
    · cases h
    · simp only [Option.some.injEq, Prod.mk.injEq] at h
      obtain ⟨rfl, rfl⟩ := h
      exact ⟨[], by simp, by simp⟩
  | succ fuel ih =>
    intro ctx all ctx' all' h
    rw [try_accomodate_new_bit_probe] at h
    split at h
    · rename_i hle
      have hmod : (ctx.test_addr + stride) % WORD = ctx.test_addr + stride :=
        Nat.mod_eq_of_lt (by omega)
      simp only at h
      split at h
      · rename_i hchk
        split at h
        · cases h
        · rename_i all1 herase
          split at h
          · simp only [Option.some.injEq, Prod.mk.injEq] at h
            obtain ⟨rfl, rfl⟩ := h
            refine ⟨[(ctx.base_addr, ctx.test_addr)], rfl, ?_⟩
            intro p hp
            rw [List.mem_singleton] at hp
            subst hp
            exact ⟨rfl, le_refl _, hchk⟩
          · obtain ⟨new, hk, hnew⟩ := ih _ _ _ _ h
            refine ⟨(ctx.base_addr, ctx.test_addr) :: new, ?_, ?_⟩
            · rw [hk]
              simp [hash_confirm_pair]
            · intro p hp
              rcases List.mem_cons.mp hp with rfl | hp
              · exact ⟨rfl, le_refl _, hchk⟩
              · obtain ⟨e1, e2, e3⟩ := hnew p hp
                simp only [hmod] at e2
                exact ⟨e1, by omega, e3⟩
      · split at h
        · simp only [Option.some.injEq, Prod.mk.injEq] at h
          obtain ⟨rfl, rfl⟩ := h
          exact ⟨[], by simp, by simp⟩
        · obtain ⟨new, hk, hnew⟩ := ih _ _ _ _ h
          refine ⟨new, hk, ?_⟩
          intro p hp
          obtain ⟨e1, e2, e3⟩ := hnew p hp
          simp only [hmod] at e2
          exact ⟨e1, by omega, e3⟩
    · simp only [Option.some.injEq, Prod.mk.injEq] at h
      obtain ⟨rfl, rfl⟩ := h
      exact ⟨[], by simp, by simp⟩

/-- The pairs that a call of `try_accomodate_new_bit` records, on a context with
`start_addr < 2 ^ new_bit`, are pairs `(start_addr, b)` with `start_addr < b`
that the oracle confirms. -/
theorem try_accomodate_new_bit_tests (ctx : hash_context_t) (new_bit : Int)
    (check : Nat → Nat → Bool) (h0 : 0 ≤ ctx.min_bit) (hmk : ctx.min_bit < new_bit)
    (hstart : ctx.start_addr < 2 ^ new_bit.toNat)
    (ctx' : hash_context_t) (err : List diagnostic)
    (h : try_accomodate_new_bit ctx new_bit check = some (ctx', err)) :
    new_bit ≤ 62 ∧ ctx'.min_bit = ctx.min_bit ∧ ctx'.start_addr = ctx.start_addr ∧
      ∃ new, ctx'.keys = ctx.keys ++ new ∧
        ∀ p ∈ new, p.1 = ctx.start_addr ∧ p.1 < p.2 ∧ check p.1 p.2 = true := by
  have hk : new_bit ≤ 62 := by
    by_contra hk
    rw [try_accomodate_new_bit_none ctx new_bit check hk] at h
    cases h
  obtain ⟨-, -, -, -, hmin, -, hst, -, -⟩ :=
    try_accomodate_new_bit_result ctx new_bit check ctx' err h
  refine ⟨hk, hmin, hst, ?_⟩
  have hs1 := shl1_eq (n := new_bit + 1) (by omega) (by omega)
  have hs2 := shl1_eq (n := new_bit) (by omega) (by omega)
  have hs3 := shl1_eq (n := ctx.min_bit) h0 (by omega)
  have p1 : 2 ^ (new_bit + 1).toNat ≤ 2 ^ 63 := two_pow_le_of_le (by omega)
  have p2 : 2 ^ new_bit.toNat ≤ 2 ^ 62 := two_pow_le_of_le (by omega)
  have p3 : 2 ^ ctx.min_bit.toNat ≤ 2 ^ 61 := two_pow_le_of_le (by omega)
  have p4 : 0 < 2 ^ new_bit.toNat := Nat.two_pow_pos _
  have hW : WORD = 2 ^ 64 := rfl
  norm_num at p1 p2 p3 hW
  have hm1 : (ctx.start_addr + 2 ^ (new_bit + 1).toNat) % WORD =
      ctx.start_addr + 2 ^ (new_bit + 1).toNat := Nat.mod_eq_of_lt (by omega)
  have hm2 : (ctx.start_addr + 2 ^ new_bit.toNat) % WORD =
      ctx.start_addr + 2 ^ new_bit.toNat := Nat.mod_eq_of_lt (by omega)
  unfold try_accomodate_new_bit at h
  split at h
  · cases h
  · rw [hs1, hs2, hs3] at h
    cases hperm : try_accomodate_new_bit_permute ctx.solutions new_bit with
    | none => rw [hperm] at h; cases h
    | some all0 =>
      rw [hperm] at h
      simp only [hm1, hm2] at h
      cases hprobe : try_accomodate_new_bit_probe check
          (min ctx.end_addr (ctx.start_addr + 2 ^ (new_bit + 1).toNat)) (2 ^ ctx.min_bit.toNat)
          (loop_fuel (ctx.start_addr + 2 ^ new_bit.toNat)
            (min ctx.end_addr (ctx.start_addr + 2 ^ (new_bit + 1).toNat))
            (2 ^ ctx.min_bit.toNat))
          { ctx with base_addr := ctx.start_addr,
                     test_addr := ctx.start_addr + 2 ^ new_bit.toNat } all0 with
      | none => rw [hprobe] at h; cases h
      | some res =>
        obtain ⟨ctx1, left⟩ := res
        obtain ⟨new, hkeys, hnew⟩ := try_accomodate_new_bit_probe_tests check _ _
          (by
            have : min ctx.end_addr (ctx.start_addr + 2 ^ (new_bit + 1).toNat) ≤
              ctx.start_addr + 2 ^ (new_bit + 1).toNat := Nat.min_le_right _ _
            omega) _ _ _ _ _ hprobe
        simp only at hkeys hnew
        have hnew' : ∀ p ∈ new, p.1 = ctx.start_addr ∧ p.1 < p.2 ∧ check p.1 p.2 = true := by
          intro p hp
          obtain ⟨e1, e2, e3⟩ := hnew p hp
          exact ⟨e1, by omega, e3⟩
        rw [hprobe] at h
        cases left with
        | nil =>
          simp only [Option.some.injEq, Prod.mk.injEq] at h
          obtain ⟨rfl, -⟩ := h
          exact ⟨new, hkeys, hnew'⟩
        | cons c rest =>
          simp only [Option.some.injEq, Prod.mk.injEq] at h
          obtain ⟨rfl, -⟩ := h
          exact ⟨new, hkeys, hnew'⟩

/-- The pairs that step 2 records, started at a bit `i` with
`start_addr < 2 ^ i`, are pairs `(start_addr, b)` with `start_addr < b` that
the oracle confirms. -/
theorem hash_find_solutions2_step2_tests (check : Nat → Nat → Bool) :
    ∀ (n : Nat) (i : Int) (ctx : hash_context_t) (err : List diagnostic)
      (ctx' : hash_context_t) (err' : List diagnostic),
      0 ≤ ctx.min_bit → ctx.min_bit < i → ctx.start_addr < 2 ^ i.toNat →
      hash_find_solutions2_step2 check n i ctx err = some (ctx', err') →
      ∃ new, ctx'.keys = ctx.keys ++ new ∧
        ∀ p ∈ new, p.1 = ctx.start_addr ∧ p.1 < p.2 ∧ check p.1 p.2 = true := by
  intro n
  induction n with
  | zero =>
    intro i ctx err ctx' err' _ _ _ h
    simp only [hash_find_solutions2_step2, Option.some.injEq, Prod.mk.injEq] at h
    obtain ⟨rfl, rfl⟩ := h
    exact ⟨[], by simp, by simp⟩
  | succ n ih =>
    intro i ctx err ctx' err' h0 hmi hstart h
    rw [hash_find_solutions2_step2] at h
    split at h
    · cases h
    · rename_i ctx1 e1 hrun
      obtain ⟨hk, hmin, hst, new1, hk1, hnew1⟩ :=
        try_accomodate_new_bit_tests ctx i check h0 hmi hstart ctx1 e1 hrun
      have hstart1 : ctx1.start_addr < 2 ^ (i + 1).toNat := by
        rw [hst]
        have : (i + 1).toNat = i.toNat + 1 := by omega
        rw [this, Nat.pow_succ]
        omega
      obtain ⟨new2, hk2, hnew2⟩ := ih (i + 1) ctx1 _ ctx' err' (by rw [hmin]; exact h0)
        (by rw [hmin]; omega) hstart1 h
      refine ⟨new1 ++ new2, by rw [hk2, hk1, List.append_assoc], ?_⟩
      intro p hp
      rcases List.mem_append.mp hp with hp | hp
      · exact hnew1 p hp
      · rw [← hst]
        exact hnew2 p hp

/-- The pairs that `hash_find_solutions2` leaves in `ctx.keys`: the pair
`(start_addr, start_addr)` when the first test address is within the sweep of
step 1 and the oracle confirms it, then pairs `(start_addr, b)` with
`start_addr < b` that the oracle confirms. -/
theorem hash_find_solutions2_keys (ctx : hash_context_t) (check : Nat → Nat → Bool)
    (alloc : Nat → Bool) (hf : fresh ctx) (ret : Int) (ctx' : hash_context_t)
    (err : List diagnostic) (h : hash_find_solutions2 ctx check alloc = some (ret, ctx', err)) :
    ∃ rest, ctx'.keys =
        (if ctx.start_addr ≤ phase1_end_addr ctx ∧ check ctx.start_addr ctx.start_addr = true
          then [(ctx.start_addr, ctx.start_addr)] else []) ++ rest ∧
      ∀ p ∈ rest, p.1 = ctx.start_addr ∧ p.1 < p.2 ∧ check p.1 p.2 = true := by
  by_cases hE : hash_find_solutions2_end_bit ctx ≤ 62
  · obtain ⟨ctx1, R, caught, e1, -, e3, -, -, hk1, -, -, -, -, hrun⟩ :=
      hash_find_solutions2_unfold ctx check alloc hf hE
    have hmE := end_bit_gt_min_bit ctx hf
    obtain ⟨rest1, hshape, hrest1⟩ := phase1_keys_shape ctx check
    rw [hrun] at h
    split at h
    · simp only [Option.some.injEq, Prod.mk.injEq] at h
      obtain ⟨-, rfl, -⟩ := h
      exact ⟨rest1, by rw [hk1, hshape], hrest1⟩
    rename_i hK
    split at h
    · simp only [Option.some.injEq, Prod.mk.injEq] at h
      obtain ⟨-, rfl, -⟩ := h
      exact ⟨rest1, by rw [hk1, hshape], hrest1⟩
    split at h
    · simp only [Option.some.injEq, Prod.mk.injEq] at h
      obtain ⟨-, rfl, -⟩ := h
      exact ⟨rest1, by rw [hk1, hshape], hrest1⟩
    cases hstep : hash_find_solutions2_step2 check
        (ctx.max_bit - hash_find_solutions2_end_bit ctx).toNat
        (hash_find_solutions2_end_bit ctx + 1) { ctx1 with solutions := R }
        (if caught then [diagnostic.out_of_memory] else []) with
    | none => rw [hstep] at h; simp at h
    | some res =>
      obtain ⟨ctx3, err3⟩ := res
      rw [hstep] at h
      simp only [Option.map_some', Option.some.injEq, Prod.mk.injEq] at h
      obtain ⟨-, rfl, -⟩ := h
      have hstart : ctx1.start_addr < 2 ^ (hash_find_solutions2_end_bit ctx + 1).toNat := by
        have := phase1_keys_ne_nil hK
        unfold phase1_end_addr at this
        have hp : 0 < 2 ^ (hash_find_solutions2_end_bit ctx + 1).toNat := Nat.two_pow_pos _
        rw [e3]
        omega
      obtain ⟨new, hk, hnew⟩ := hash_find_solutions2_step2_tests check _ _
        { ctx1 with solutions := R } _ _ _ (by simp only; rw [e1]; exact hf.1)
        (by simp only; rw [e1]; omega) hstart hstep
      simp only at hk hnew
      refine ⟨rest1 ++ new, by rw [hk, hk1, hshape, List.append_assoc], ?_⟩
      intro p hp
      rcases List.mem_append.mp hp with hp | hp
      · exact hrest1 p hp
      · rw [← e3]
        exact hnew p hp
  · rw [hash_find_solutions2_none ctx check alloc hE] at h
    cases h

/-- C16, as stated, fails: on the context `hash_init(6, 8, 0, 2^9)` and the
oracle of the ground truth `[6, 8]`, the first test address of step 1 is
`start_addr` itself, the oracle confirms the pair `(0, 0)`, and
`hash_find_solutions2` returns with `(0, 0)` in `ctx.keys`. -/
theorem first_pair_recorded :
    (init_and_find 6 8 0 512 (ground_truth_oracle [⟨[6, 8]⟩]) enough_memory).map
        (fun x => (x.1, x.2.1.keys)) = some (0, [(0, 0), (0, 128), (0, 320)]) := by
  decide!

/-- C16, amended: for every context accepted by `hash_init`, every oracle and
every run of `hash_find_solutions2` that returns, every pair `(a, b)` recorded
in `ctx.keys` has `a = start_addr` and is confirmed by the oracle, and every
recorded pair but the first has `a < b`, so `a != b`.  The first recorded pair
is `(start_addr, start_addr)` exactly when the oracle confirms that pair and
`start_addr` is within the sweep of step 1; otherwise it has `a < b` as well. -/
theorem recorded_pairs_distinct (min_bit max_bit : Int) (start_addr end_addr : Nat)
    (check : Nat → Nat → Bool) (alloc : Nat → Bool) (ctx ctx' : hash_context_t) (ret : Int)
    (err : List diagnostic)
    (hinit : hash_init min_bit max_bit start_addr end_addr = some ctx)
    (hrun : hash_find_solutions2 ctx check alloc = some (ret, ctx', err)) :
    (∀ p ∈ ctx'.keys, p.1 = start_addr ∧ check p.1 p.2 = true) ∧
    (∀ p ∈ ctx'.keys.tail, p.1 < p.2) ∧
    (ctx'.keys.head? = some (start_addr, start_addr) ↔
      (start_addr ≤ phase1_end_addr ctx ∧ check start_addr start_addr = true)) ∧
    (ctx'.keys.head? ≠ some (start_addr, start_addr) → ∀ p ∈ ctx'.keys, p.1 < p.2) := by
  obtain ⟨hf, -, -, e3, -⟩ := hash_init_fresh hinit
  obtain ⟨rest, hkeys, hrest⟩ := hash_find_solutions2_keys ctx check alloc hf ret ctx' err hrun
  rw [e3] at hkeys hrest
  by_cases hc : start_addr ≤ phase1_end_addr ctx ∧ check start_addr start_addr = true
  · rw [if_pos hc] at hkeys
    rw [hkeys]
    refine ⟨?_, ?_, ?_, ?_⟩
    · intro p hp
      rcases List.mem_cons.mp hp with rfl | hp
      · exact ⟨rfl, hc.2⟩
      · exact ⟨(hrest p hp).1, (hrest p hp).2.2⟩
    · intro p hp
      exact (hrest p hp).2.1
    · exact ⟨fun _ => hc, fun _ => rfl⟩
    · intro h
      exact absurd rfl h
  · rw [if_neg hc] at hkeys
    rw [hkeys, List.nil_append]
    have hall : ∀ p ∈ rest, p.1 < p.2 := fun p hp => (hrest p hp).2.1
    refine ⟨fun p hp => ⟨(hrest p hp).1, (hrest p hp).2.2⟩,
      fun p hp => hall p (List.mem_of_mem_tail hp), ?_, fun _ => hall⟩
    constructor
    · intro h
      have hm : (start_addr, start_addr) ∈ rest := List.mem_of_mem_head? h
      exact absurd (hall _ hm) (lt_irrefl _)
    · intro h
      exact absurd h hc

/-- C16, amended, on `hash_init(6, 10, 0, 2048)` and the oracle of the ground
truth `Bit(6)`, `Bit(7)`: the run returns 0 with the pairs `(0, 0)`, `(0, 256)`,
`(0, 512)`, `(0, 1024)`; the first is the pair of `start_addr` with itself, the
three others have `a < b`. -/
theorem recorded_pairs_distinct_witness :
    hash_init 6 10 0 2048 = some example2_ctx ∧
    hash_find_solutions2 example2_ctx (ground_truth_oracle [⟨[6]⟩, ⟨[7]⟩]) enough_memory =
      some (0, example2_final, []) ∧
    example2_final.keys = [(0, 0), (0, 256), (0, 512), (0, 1024)] ∧
    (∀ p ∈ example2_final.keys, p.1 = 0 ∧ ground_truth_oracle [⟨[6]⟩, ⟨[7]⟩] p.1 p.2 = true) ∧
    (∀ p ∈ example2_final.keys.tail, p.1 < p.2) ∧
    (example2_final.keys.head? = some (0, 0) ↔
      (0 ≤ phase1_end_addr example2_ctx ∧ ground_truth_oracle [⟨[6]⟩, ⟨[7]⟩] 0 0 = true)) ∧
    (example2_final.keys.head? ≠ some (0, 0) → ∀ p ∈ example2_final.keys, p.1 < p.2) :=
  ⟨example2_init, example2_run, rfl,
    recorded_pairs_distinct 6 10 0 2048 (ground_truth_oracle [⟨[6]⟩, ⟨[7]⟩]) enough_memory
      example2_ctx example2_final 0 [] example2_init example2_run⟩

/-- C17: for every context, new bit and oracle, a call of
`try_accomodate_new_bit` that returns with no candidate left after probing
reports `Something went wrong` and leaves `ctx.solutions` the list it was on
entry, and step 2 of `hash_find_solutions2` goes on with the next bit on the
context the call left; the call returns when `0 <= min_bit < k <= 62`,
`start_addr < 2^k`, and the solutions are fewer than 64, of depth at least 1,
strictly ascending, with indexes in `[min_bit, k - 1]`. -/
theorem try_accomodate_new_bit_no_candidate (ctx : hash_context_t) (k : Int)
    (check : Nat → Nat → Bool) :
    (∀ ctx' err, try_accomodate_new_bit ctx k check = some (ctx', err) →
      ∃ left, try_accomodate_new_bit_candidates ctx k check = some left ∧
        (left = [] →
          err = [diagnostic.something_went_wrong] ∧ ctx'.solutions = ctx.solutions) ∧
        ∀ (n : Nat) (e : List diagnostic),
          hash_find_solutions2_step2 check (n + 1) k ctx e =
            hash_find_solutions2_step2 check n (k + 1) ctx' (e ++ err)) ∧
    (0 ≤ ctx.min_bit → ctx.min_bit < k → k ≤ 62 → ctx.start_addr < 2 ^ k.toNat →
      ctx.solutions.length < 64 →
      (∀ s ∈ ctx.solutions, wf_solution ctx.min_bit (k - 1) s ∧ 1 ≤ s.depth) →
      ∃ ctx' err, try_accomodate_new_bit ctx k check = some (ctx', err)) := by
  constructor
  · intro ctx' err h
    obtain ⟨left, hleft, hnil, -⟩ := try_accomodate_new_bit_result ctx k check ctx' err h
    exact ⟨left, hleft, hnil, fun n e => hash_find_solutions2_step2_succ check n k ctx ctx' e err h⟩
  · intro h0 hmk hk hstart hn hsols
    obtain ⟨ctx', err, -, hrun, -⟩ :=
      try_accomodate_new_bit_spec ctx k check h0 hmk hk hstart hn hsols
    exact ⟨ctx', err, hrun⟩

/-- C17, on the context with `min_bit = 6`, `start_addr = 64`, `end_addr = 1024`,
the pair `(64, 64)` and the solutions `[6]`, `[7]`, the new bit 8 and the oracle
that confirms `(64, 64)` and `(64, 512)` only: the pair `(64, 512)` eliminates
the four candidates. -/
theorem try_accomodate_new_bit_no_candidate_witness :
    try_accomodate_new_bit_candidates
        { example_ctx with start_addr := 64, end_addr := 1024, keys := [(64, 64)]
                           solutions := [⟨[6]⟩, ⟨[7]⟩] } 8
        (pair_list_oracle [(64, 64), (64, 512)]) = some [] ∧
    (try_accomodate_new_bit
        { example_ctx with start_addr := 64, end_addr := 1024, keys := [(64, 64)]
                           solutions := [⟨[6]⟩, ⟨[7]⟩] } 8
        (pair_list_oracle [(64, 64), (64, 512)])).map (fun r => (r.1.solutions, r.2)) =
      some ([⟨[6]⟩, ⟨[7]⟩], [diagnostic.something_went_wrong]) ∧
    (∀ ctx' err, try_accomodate_new_bit
        { example_ctx with start_addr := 64, end_addr := 1024, keys := [(64, 64)]
                           solutions := [⟨[6]⟩, ⟨[7]⟩] } 8
        (pair_list_oracle [(64, 64), (64, 512)]) = some (ctx', err) →
      ∃ left, try_accomodate_new_bit_candidates
          { example_ctx with start_addr := 64, end_addr := 1024, keys := [(64, 64)]
                             solutions := [⟨[6]⟩, ⟨[7]⟩] } 8
          (pair_list_oracle [(64, 64), (64, 512)]) = some left ∧
        (left = [] →
          err = [diagnostic.something_went_wrong] ∧
            ctx'.solutions = ({ example_ctx with start_addr := 64, end_addr := 1024
                                                 keys := [(64, 64)]
                                                 solutions := [⟨[6]⟩, ⟨[7]⟩] } :
              hash_context_t).solutions) ∧
        ∀ (n : Nat) (e : List diagnostic),
          hash_find_solutions2_step2 (pair_list_oracle [(64, 64), (64, 512)]) (n + 1) 8
              { example_ctx with start_addr := 64, end_addr := 1024, keys := [(64, 64)]
                                 solutions := [⟨[6]⟩, ⟨[7]⟩] } e =
            hash_find_solutions2_step2 (pair_list_oracle [(64, 64), (64, 512)]) n (8 + 1)
              ctx' (e ++ err)) ∧
    ∃ ctx' err, try_accomodate_new_bit
        { example_ctx with start_addr := 64, end_addr := 1024, keys := [(64, 64)]
                           solutions := [⟨[6]⟩, ⟨[7]⟩] } 8
        (pair_list_oracle [(64, 64), (64, 512)]) = some (ctx', err) :=
  ⟨by decide!, by decide!,
    (try_accomodate_new_bit_no_candidate
      { example_ctx with start_addr := 64, end_addr := 1024, keys := [(64, 64)]
                         solutions := [⟨[6]⟩, ⟨[7]⟩] } 8
      (pair_list_oracle [(64, 64), (64, 512)])).1,
    (try_accomodate_new_bit_no_candidate
      { example_ctx with start_addr := 64, end_addr := 1024, keys := [(64, 64)]
                         solutions := [⟨[6]⟩, ⟨[7]⟩] } 8
      (pair_list_oracle [(64, 64), (64, 512)])).2
      (by decide) (by decide) (by decide) (by decide) (by decide) (by decide)⟩

theorem hypotheses_from_sorted (w : Nat) (lo : Int) :
    ∀ (n depth : Nat), (hypotheses_from w lo n depth).Pairwise
      (fun x y => x.length < y.length ∨ (x.length = y.length ∧ List.Lex (· < ·) x y)) := by
  intro n
  induction n with
  | zero =>
    intro depth
    exact List.Pairwise.nil
  | succ n ih =>
    intro depth
    simp only [hypotheses_from]
    rw [List.pairwise_append]
    refine ⟨?_, ih (depth + 1), ?_⟩
    · have hlen := (combinations_chain w lo depth).2.2.2
      have hlex := combinations_lex w lo depth
      rw [List.pairwise_iff_forall_sublist] at hlex ⊢
      intro a b hab
      have ha := hlen a (hab.subset (List.mem_cons_self _ _))
      have hb := hlen b (hab.subset (List.mem_cons_of_mem _ (List.mem_cons_self _ _)))
      exact Or.inr ⟨by rw [ha, hb], hlex hab⟩
    · intro x hx y hy
      have hxl := (combinations_chain w lo depth).2.2.2 x hx
      have hyl := ((mem_hypotheses_from w lo y n (depth + 1)).mp hy).1
      exact Or.inl (by omega)

/-- C18: for every key list and every `min_bit <= max_bit` (within `[0, 63]`,
the shift counts that C defines) and an empty output list,
`find_new_solutions` appends exactly the strictly ascending index tuples of
depth `1 .. max_bit - min_bit + 1` with all indexes in `[min_bit, max_bit]` that
pass `is_solution_correct` on the keys, each once, ordered by depth and then
lexicographically, and returns the number of solutions appended. -/
theorem find_new_solutions_complete (keys : List (Nat × Nat)) (min_bit max_bit : Int)
    (h0 : 0 ≤ min_bit) (hle : min_bit ≤ max_bit) (h63 : max_bit ≤ 63) :
    ∃ sols : List solution_t,
      find_new_solutions keys min_bit max_bit [] = some (sols, (sols.length : Int)) ∧
      (∀ s, s ∈ sols ↔ (strictly_ascending s ∧ 1 ≤ s.depth ∧
        (s.depth : Int) ≤ max_bit - min_bit + 1 ∧ indexes_within min_bit max_bit s ∧
        is_solution_correct keys s = some true)) ∧
      sols.Nodup ∧
      sols.Pairwise (fun a b => a.depth < b.depth ∨
        (a.depth = b.depth ∧ List.Lex (· < ·) a.indexes b.indexes)) := by
  have hsorted : (all_hypotheses min_bit max_bit).Pairwise (fun a b => a.depth < b.depth ∨
      (a.depth = b.depth ∧ List.Lex (· < ·) a.indexes b.indexes)) := by
    unfold all_hypotheses
    rw [List.pairwise_map]
    exact hypotheses_from_sorted _ _ _ _
  have hfil := hsorted.sublist (@List.filter_sublist _ (fun s => decide (consistent keys s))
    (all_hypotheses min_bit max_bit))
  refine ⟨_, find_new_solutions_spec keys min_bit max_bit h0 hle h63, ?_, ?_, hfil⟩
  · intro s
    rw [List.mem_filter, mem_all_hypotheses min_bit max_bit hle, decide_eq_true_iff]
    constructor
    · rintro ⟨⟨h1, h2, h3⟩, h4⟩
      have hr : indexes_within 0 63 s := fun i hi => by
        have := h3 i hi
        omega
      refine ⟨h1, h2, ascending_within_depth_le min_bit max_bit s h1 h3 (by omega), h3, ?_⟩
      rw [is_solution_correct_spec keys s h2 hr, decide_eq_true h4]
    · rintro ⟨h1, h2, -, h3, h4⟩
      have hr : indexes_within 0 63 s := fun i hi => by
        have := h3 i hi
        omega
      rw [is_solution_correct_spec keys s h2 hr] at h4
      exact ⟨⟨h1, h2, h3⟩, of_decide_eq_true (Option.some.inj h4)⟩
  · refine hfil.imp ?_
    rintro a b (h | ⟨-, h⟩) hab
    · rw [hab] at h
      exact lt_irrefl _ h
    · rw [hab] at h
      exact List.Lex.to_ne (List.Lex.imp (fun _ _ hxy => ne_of_lt hxy) _ _ h) rfl

/-- C18, on the pairs `(0, 0)`, `(0, 128)` and the bits `[6, 7]`. -/
theorem find_new_solutions_complete_witness :
    (0 : Int) ≤ 6 ∧ (6 : Int) ≤ 7 ∧ (7 : Int) ≤ 63 ∧
    ∃ sols : List solution_t,
      find_new_solutions [(0, 0), (0, 128)] 6 7 [] = some (sols, (sols.length : Int)) ∧
      (∀ s, s ∈ sols ↔ (strictly_ascending s ∧ 1 ≤ s.depth ∧
        (s.depth : Int) ≤ 7 - 6 + 1 ∧ indexes_within 6 7 s ∧
        is_solution_correct [(0, 0), (0, 128)] s = some true)) ∧
      sols.Nodup ∧
      sols.Pairwise (fun a b => a.depth < b.depth ∨
        (a.depth = b.depth ∧ List.Lex (· < ·) a.indexes b.indexes)) :=
  ⟨by decide, by decide, by decide,
    find_new_solutions_complete [(0, 0), (0, 128)] 6 7 (by decide) (by decide) (by decide)⟩

/-- What `are_unique_solutions_found` returns: the comparison with the width
`max_bit - min_bit + 1` when the width is not negative, and the comparison with
the width plus `2 ^ 64` when it is negative. -/
theorem are_unique_solutions_found_spec (n : Nat) (min_bit max_bit : Int)
    (hlo : -(2 ^ 31 : Int) ≤ max_bit - min_bit + 1) (hhi : max_bit - min_bit + 1 < 2 ^ 31) :
    are_unique_solutions_found n min_bit max_bit = true ↔
      ((0 ≤ max_bit - min_bit + 1 ∧ (n : Int) ≤ max_bit - min_bit + 1) ∨
        (max_bit - min_bit + 1 < 0 ∧ (n : Int) ≤ max_bit - min_bit + 1 + 2 ^ 64)) := by
  unfold are_unique_solutions_found
  rw [decide_eq_true_iff]
  have hW : (WORD : Int) = 18446744073709551616 := by norm_num [WORD]
  rw [hW]
  norm_num at hlo hhi ⊢
  omega

/-- C20 fails in the code: with `min_bit > max_bit + 1`, as at the call in
`try_find_all_solutions` that passes `ctx->max_bit` and `ctx->min_bit` in that
order, the negative width is converted to `size_t` for the comparison, and
`are_unique_solutions_found(3, 14, 6)` returns true although `3 <= 6 - 14 + 1`
is false; it returns true there for every count below `2 ^ 64 - 7`. -/
theorem are_unique_solutions_found_negative_width :
    are_unique_solutions_found 3 14 6 = true ∧ ¬ ((3 : Int) ≤ 6 - 14 + 1) ∧
    (∀ n : Nat, (n : Int) ≤ 2 ^ 64 - 7 → are_unique_solutions_found n 14 6 = true) ∧
    ∀ (n : Nat) (min_bit max_bit : Int), min_bit ≤ max_bit + 1 → max_bit - min_bit + 1 < 2 ^ 31 →
      (are_unique_solutions_found n min_bit max_bit = true ↔ (n : Int) ≤ max_bit - min_bit + 1) := by
  refine ⟨by decide, by decide, ?_, ?_⟩
  · intro n hn
    rw [are_unique_solutions_found_spec n 14 6 (by norm_num) (by norm_num)]
    right
    constructor
    · norm_num
    · norm_num at hn ⊢
      omega
  · intro n min_bit max_bit hle hhi
    rw [are_unique_solutions_found_spec n min_bit max_bit (by norm_num; omega) hhi]
    constructor
    · rintro (h | h)
      · exact h.2
      · omega
    · intro h
      exact Or.inl ⟨by omega, h⟩

/-! ## Claims on the base-solution check and the bounds of `xor_solutions` -/

/-- The diagnostics of step 2 are `Something went wrong` only. -/
theorem hash_find_solutions2_step2_diagnostics (check : Nat → Nat → Bool) :
    ∀ (n : Nat) (i : Int) (ctx : hash_context_t) (err : List diagnostic)
      (ctx' : hash_context_t) (err' : List diagnostic),
      hash_find_solutions2_step2 check n i ctx err = some (ctx', err') →
      ∀ d ∈ err', d ∈ err ∨ d = diagnostic.something_went_wrong := by
  intro n
  induction n with
  | zero =>
    intro i ctx err ctx' err' h
    simp only [hash_find_solutions2_step2, Option.some.injEq, Prod.mk.injEq] at h
    obtain ⟨-, rfl⟩ := h
    exact fun d hd => Or.inl hd
  | succ n ih =>
    intro i ctx err ctx' err' h
    cases hstep : try_accomodate_new_bit ctx i check with
    | none =>
      rw [hash_find_solutions2_step2, hstep] at h
      cases h
    | some r =>
      obtain ⟨ctx1, e1⟩ := r
      rw [hash_find_solutions2_step2_succ check n i ctx ctx1 err e1 hstep] at h
      obtain ⟨left, -, hnil, hcons, -⟩ := try_accomodate_new_bit_result ctx i check ctx1 e1 hstep
      intro d hd
      rcases ih _ _ _ _ _ h d hd with h' | h'
      · rcases List.mem_append.mp h' with h'' | h''
        · exact Or.inl h''
        · cases left with
          | nil =>
            rw [(hnil rfl).1] at h''
            exact Or.inr (List.mem_singleton.mp h'')
          | cons c rest =>
            rw [(hcons c rest rfl).1] at h''
            cases h''
      · exact Or.inr h'

/-- A count that is at most the width `max_bit - min_bit + 1` of a window within
the bits of an address passes `are_unique_solutions_found`. -/
theorem are_unique_solutions_found_of_le (n : Nat) (min_bit max_bit : Int)
    (h0 : 0 ≤ min_bit) (h63 : max_bit ≤ 63) (h : (n : Int) ≤ max_bit - min_bit + 1) :
    are_unique_solutions_found n min_bit max_bit = true := by
  rw [are_unique_solutions_found_spec n min_bit max_bit (by norm_num; omega) (by norm_num; omega)]
  exact Or.inl ⟨by omega, h⟩

/-- C21, as stated, fails: on `hash_init(6, 8, 0, 512)` and the oracle that
confirms the pair `(0, 0)` only, when the first `push_back` of `hash_reduce`
throws, `find_new_solutions` over `[6, 7]` leaves `[6]`, `[7]`, `[6, 7]`,
`hash_reduce` reports `Out of memory` and returns with the three of them, more
than the 2 bits of the window, `are_unique_solutions_found(3, 6, 7)` is false,
and `hash_find_solutions2` fails with `Too many base solutions`. -/
theorem too_many_base_solutions_after_exception :
    find_new_solutions [(0, 0)] 6 7 [] = some ([⟨[6]⟩, ⟨[7]⟩, ⟨[6, 7]⟩], 3) ∧
    hash_reduce no_memory { example_ctx with solutions := [⟨[6]⟩, ⟨[7]⟩, ⟨[6, 7]⟩] } =
      some ({ example_ctx with solutions := [⟨[6]⟩, ⟨[7]⟩, ⟨[6, 7]⟩] },
        [diagnostic.out_of_memory]) ∧
    are_unique_solutions_found 3 6 7 = false ∧
    hash_find_solutions2_end_bit example_ctx = 7 ∧
    (init_and_find 6 8 0 512 (pair_list_oracle [(0, 0)]) no_memory).map
        (fun x => (x.1, x.2.1.keys, x.2.1.solutions, x.2.2)) =
      some (-1, [(0, 0)], [⟨[6]⟩, ⟨[7]⟩, ⟨[6, 7]⟩],
        [diagnostic.out_of_memory, diagnostic.too_many_base_solutions]) := by
  decide!

/-- C21, amended: for every key list, every window
`0 <= min_bit <= end_bit <= 63` of address bits and every behaviour of the
allocator, `find_new_solutions` over `[min_bit, end_bit]` returns, and whenever
`hash_reduce` returns on its result without reporting `Out of memory` the list
it leaves has at most `end_bit - min_bit + 1` solutions and
`are_unique_solutions_found` is true on it (`hash_reduce` returns when the
window has fewer than 64 bits, with nothing reported when no allocation fails);
and a run of `hash_find_solutions2` on a context accepted by `hash_init` that
returns reports `Too many base solutions` only after `Out of memory`. -/
theorem too_many_base_solutions_only_after_exception (keys : List (Nat × Nat))
    (min_bit end_bit : Int) (ctx : hash_context_t)
    (h0 : 0 ≤ min_bit) (hle : min_bit ≤ end_bit) (h63 : end_bit ≤ 63) :
    (∃ sols : List solution_t,
      find_new_solutions keys min_bit end_bit [] = some (sols, (sols.length : Int)) ∧
      (∀ (alloc : Nat → Bool) ctx2 err,
        hash_reduce alloc { ctx with solutions := sols } = some (ctx2, err) →
        diagnostic.out_of_memory ∉ err →
        (ctx2.solutions.length : Int) ≤ end_bit - min_bit + 1 ∧
        are_unique_solutions_found ctx2.solutions.length min_bit end_bit = true) ∧
      (end_bit - min_bit + 1 < 64 → ∀ alloc : Nat → Bool,
        ∃ ctx2 err, hash_reduce alloc { ctx with solutions := sols } = some (ctx2, err) ∧
          ((∀ n, alloc n = false) → err = []))) ∧
    ∀ (lo hi : Int) (start_addr end_addr : Nat) (check : Nat → Nat → Bool) (alloc : Nat → Bool)
      (ctx0 ctx' : hash_context_t) (ret : Int) (err : List diagnostic),
      hash_init lo hi start_addr end_addr = some ctx0 →
      hash_find_solutions2 ctx0 check alloc = some (ret, ctx', err) →
      diagnostic.too_many_base_solutions ∈ err → diagnostic.out_of_memory ∈ err := by
  constructor
  · have hall : ∀ s ∈ (all_hypotheses min_bit end_bit).filter
        (fun s => decide (consistent keys s)), wf_solution min_bit end_bit s ∧ 1 ≤ s.depth := by
      intro s hs
      have hm := (mem_all_hypotheses min_bit end_bit hle s).mp (List.mem_of_mem_filter hs)
      exact ⟨⟨hm.1, hm.2.2⟩, hm.2.1⟩
    refine ⟨_, find_new_solutions_spec keys min_bit end_bit h0 hle h63, ?_, ?_⟩
    · intro alloc ctx2 err hrun hno
      obtain ⟨kept, caught, hloop, rfl, rfl⟩ := hash_reduce_some hrun
      have hc : caught = false := by
        cases caught
        · rfl
        · exact absurd (List.mem_singleton.mpr rfl) hno
      subst hc
      simp only at hloop ⊢
      obtain ⟨hsub, hgood⟩ := hash_reduce_loop_partial alloc _ [] [] kept false
        (perm_inv_nil min_bit end_bit) xor_independent_nil hall hloop
      obtain ⟨hind, -⟩ := hgood rfl
      rw [List.nil_append] at hind
      have hlen := xor_independent_length_le kept (by omega) hind
        (fun s hs => (hall s (hsub.subset hs)).1.2)
      exact ⟨hlen, are_unique_solutions_found_of_le _ _ _ h0 h63 hlen⟩
    · intro hw alloc
      obtain ⟨kept, caught, hrun, -, -, hnf⟩ := hash_reduce_loop_spec alloc (by omega) hw _ [] []
        (perm_inv_nil min_bit end_bit) xor_independent_nil hall
      refine ⟨_, _, by unfold hash_reduce; simp only; rw [hrun]; rfl, ?_⟩
      intro hno
      simp only [hnf hno, Bool.false_eq_true, if_false]
  · intro lo hi start_addr end_addr check alloc ctx0 ctx' ret err hinit hrun hmem
    have hf := (hash_init_fresh hinit).1
    by_cases hE : hash_find_solutions2_end_bit ctx0 ≤ 62
    · have hmE := end_bit_gt_min_bit ctx0 hf
      obtain ⟨ctx1, R, caught, -, -, -, -, -, -, -, hsub, hgood, -, hunf⟩ :=
        hash_find_solutions2_unfold ctx0 check alloc hf hE
      have hwfH := base_hypotheses_wf ctx0 check hf
      cases caught with
      | true =>
        simp only [if_true] at hunf
        rw [hunf] at hrun
        split at hrun
        · cases hrun
          simp at hmem
        · split at hrun
          · cases hrun
            simp at hmem
          · split at hrun
            · cases hrun
              simp
            · cases hstep : hash_find_solutions2_step2 check
                  (ctx0.max_bit - hash_find_solutions2_end_bit ctx0).toNat
                  (hash_find_solutions2_end_bit ctx0 + 1) { ctx1 with solutions := R }
                  [diagnostic.out_of_memory] with
              | none => rw [hstep] at hrun; cases hrun
              | some r =>
                rw [hstep] at hrun
                cases hrun
                rcases hash_find_solutions2_step2_diagnostics check _ _ _ _ _ _ hstep _ hmem
                  with h | h
                · rw [List.mem_singleton] at h
                  cases h
                · cases h
      | false =>
        obtain ⟨hind, -⟩ := hgood rfl
        have hlen := xor_independent_length_le R (by omega) hind
          (fun s hs => (hwfH s (hsub.subset hs)).1.2)
        have hU := are_unique_solutions_found_of_le _ _ _ hf.1 (by omega) hlen
        simp only [Bool.false_eq_true, if_false, List.nil_append] at hunf
        rw [hunf] at hrun
        split at hrun
        · cases hrun
          simp at hmem
        · split at hrun
          · cases hrun
            simp at hmem
          · rw [if_neg (by rw [hU]; decide)] at hrun
            cases hstep : hash_find_solutions2_step2 check
                (ctx0.max_bit - hash_find_solutions2_end_bit ctx0).toNat
                (hash_find_solutions2_end_bit ctx0 + 1) { ctx1 with solutions := R } [] with
            | none => rw [hstep] at hrun; cases hrun
            | some r =>
              rw [hstep] at hrun
              cases hrun
              rcases hash_find_solutions2_step2_diagnostics check _ _ _ _ _ _ hstep _ hmem
                with h | h
              · cases h
              · cases h
    · rw [hash_find_solutions2_none ctx0 check alloc hE] at hrun
      cases hrun

/-- C21, amended, on the pair `(0, 0)` and the bits `[6, 7]`: `find_new_solutions`
leaves `[6]`, `[7]`, `[6, 7]`, and `hash_reduce`, when no allocation fails,
reduces them to `[6]`, `[7]`, as many as the window has bits. -/
theorem too_many_base_solutions_only_after_exception_witness :
    (0 : Int) ≤ 6 ∧ (6 : Int) ≤ 7 ∧ (7 : Int) ≤ 63 ∧
    find_new_solutions [(0, 0)] 6 7 [] = some ([⟨[6]⟩, ⟨[7]⟩, ⟨[6, 7]⟩], 3) ∧
    hash_reduce enough_memory { example_ctx with solutions := [⟨[6]⟩, ⟨[7]⟩, ⟨[6, 7]⟩] } =
      some ({ example_ctx with solutions := [⟨[6]⟩, ⟨[7]⟩] }, []) ∧
    are_unique_solutions_found 2 6 7 = true ∧
    ((∃ sols : List solution_t,
      find_new_solutions [(0, 0)] 6 7 [] = some (sols, (sols.length : Int)) ∧
      (∀ (alloc : Nat → Bool) ctx2 err,
        hash_reduce alloc { example_ctx with solutions := sols } = some (ctx2, err) →
        diagnostic.out_of_memory ∉ err →
        (ctx2.solutions.length : Int) ≤ 7 - 6 + 1 ∧
        are_unique_solutions_found ctx2.solutions.length 6 7 = true) ∧
      ((7 : Int) - 6 + 1 < 64 → ∀ alloc : Nat → Bool,
        ∃ ctx2 err, hash_reduce alloc { example_ctx with solutions := sols } =
            some (ctx2, err) ∧
          ((∀ n, alloc n = false) → err = []))) ∧
    ∀ (lo hi : Int) (start_addr end_addr : Nat) (check : Nat → Nat → Bool) (alloc : Nat → Bool)
      (ctx0 ctx' : hash_context_t) (ret : Int) (err : List diagnostic),
      hash_init lo hi start_addr end_addr = some ctx0 →
      hash_find_solutions2 ctx0 check alloc = some (ret, ctx', err) →
      diagnostic.too_many_base_solutions ∈ err → diagnostic.out_of_memory ∈ err) :=
  ⟨by decide, by decide, by decide, by decide!, by decide!, by decide!,
    too_many_base_solutions_only_after_exception [(0, 0)] 6 7 example_ctx
      (by decide) (by decide) (by decide)⟩

/-- The loop with the stores recorded computes what the loop of `xor_solutions`
computes. -/
theorem xor_solutions_stores_result (fuel : Nat) :
    ∀ (l1 l2 r : List Int) (w : List Nat),
      (xor_solutions_stores fuel l1 l2 r w).2 = xor_solutions_loop fuel l1 l2 r := by
  induction fuel with
  | zero =>
    intro l1 l2 r w
    cases l1 <;> cases l2 <;> simp [xor_solutions_stores, xor_solutions_loop]
  | succ fuel ih =>
    intro l1 l2 r w
    match l1, l2 with
    | [], [] => simp [xor_solutions_stores, xor_solutions_loop]
    | a :: t1, [] =>
      simp only [xor_solutions_stores, xor_solutions_loop]
      split
      · exact ih _ _ _ _
      · rfl
    | [], b :: t2 =>
      simp only [xor_solutions_stores, xor_solutions_loop]
      split
      · exact ih _ _ _ _
      · rfl
    | a :: t1, b :: t2 =>
      simp only [xor_solutions_stores, xor_solutions_loop]
      split
      · split
        · exact ih _ _ _ _
        · rfl
      · split
        · split
          · exact ih _ _ _ _
          · rfl
        · split
          · exact ih _ _ _ _
          · rfl

/-- Every store of the loop of `xor_solutions` is at a position below
`MAX_NUM_INDEX`, whatever the two solutions are: a round is entered with
`k < MAX_NUM_INDEX` only. -/
theorem xor_solutions_stores_in_bounds (fuel : Nat) :
    ∀ (l1 l2 r : List Int) (w : List Nat), r.length < MAX_NUM_INDEX →
      (∀ k ∈ w, k < MAX_NUM_INDEX) →
      ∀ k ∈ (xor_solutions_stores fuel l1 l2 r w).1, k < MAX_NUM_INDEX := by
  induction fuel with
  | zero =>
    intro l1 l2 r w _ hw
    cases l1 <;> cases l2 <;> simpa [xor_solutions_stores] using hw
  | succ fuel ih =>
    intro l1 l2 r w hr hw
    have hw' : ∀ k ∈ w ++ [r.length], k < MAX_NUM_INDEX := by
      intro k hk
      rcases List.mem_append.mp hk with h | h
      · exact hw k h
      · rw [List.mem_singleton.mp h]
        exact hr
    match l1, l2 with
    | [], [] => simpa [xor_solutions_stores] using hw
    | a :: t1, [] =>
      simp only [xor_solutions_stores]
      split
      · exact ih _ _ _ _ (by assumption) hw'
      · exact hw'
    | [], b :: t2 =>
      simp only [xor_solutions_stores]
      split
      · exact ih _ _ _ _ (by assumption) hw'
      · exact hw'
    | a :: t1, b :: t2 =>
      simp only [xor_solutions_stores]
      split
      · split
        · exact ih _ _ _ _ (by assumption) hw'
        · exact hw'
      · split
        · split
          · exact ih _ _ _ _ (by assumption) hw'
          · exact hw'
        · exact ih _ _ _ _ hr hw

/-- On two solutions with strictly ascending indexes in `[0, 64)`, the
assertion of `xor_solutions` fails exactly when each of the 64 indexes is in
exactly one of the two solutions. -/
theorem xor_solutions_none_iff (s1 s2 : solution_t) (h1 : strictly_ascending s1)
    (h2 : strictly_ascending s2) (r1 : indexes_within 0 63 s1) (r2 : indexes_within 0 63 s2) :
    xor_solutions s1 s2 = none ↔
      ∀ i : Int, 0 ≤ i → i ≤ 63 → in_symm_diff i s1.indexes s2.indexes := by
  obtain ⟨m, hm, hmem, hrun⟩ := xor_solutions_spec s1 s2 h1 h2
  have hwf : indexes_within 0 63 ⟨m⟩ := by
    intro i hi
    rcases (hmem i).mp hi with h | h
    · exact r1 i h.1
    · exact r2 i h.1
  have hlen := ascending_within_depth_le 0 63 ⟨m⟩ hm hwf (by norm_num)
  unfold solution_t.depth at hlen
  simp only at hlen
  have nm : m.Nodup := hm.imp (fun hab => ne_of_lt hab)
  have hsub : m.toFinset ⊆ Finset.Icc (0 : Int) 63 := by
    intro i hi
    exact Finset.mem_Icc.mpr (hwf i (List.mem_toFinset.mp hi))
  have hcard : (Finset.Icc (0 : Int) 63).card = 64 := by simp
  rw [hrun]
  constructor
  · intro h
    have hge : ¬ m.length < MAX_NUM_INDEX := by
      intro hlt
      rw [if_pos hlt] at h
      cases h
    unfold MAX_NUM_INDEX at hge
    have heq : m.toFinset = Finset.Icc (0 : Int) 63 :=
      Finset.eq_of_subset_of_card_le hsub (by rw [hcard, List.toFinset_card_of_nodup nm]; omega)
    intro i hi0 hi63
    rw [← hmem, ← List.mem_toFinset, heq]
    exact Finset.mem_Icc.mpr ⟨hi0, hi63⟩
  · intro h
    have hsup : Finset.Icc (0 : Int) 63 ⊆ m.toFinset := by
      intro i hi
      have := Finset.mem_Icc.mp hi
      exact List.mem_toFinset.mpr ((hmem i).mpr (h i this.1 this.2))
    have := Finset.card_le_card hsup
    rw [hcard, List.toFinset_card_of_nodup nm] at this
    rw [if_neg (by unfold MAX_NUM_INDEX; omega)]

/-- C22 fails in the code: the solutions `[0, 2, .., 62]` and `[1, 3, .., 63]`
have strictly ascending indexes in `[0, 64)`; `xor_solutions` stores to the
positions `0, .., 63` of `r.indexes`, all within the array, and after the last
store `k` is 64 and `assert(k < MAX_NUM_INDEX)` fails, so the call yields no
solution.  For all solutions every store is at a position below 64, and on
strictly ascending indexes in `[0, 64)` the assertion fails exactly when each of
the 64 indexes is in exactly one of the two solutions. -/
theorem xor_solutions_assert_fails :
    strictly_ascending ⟨(List.range 32).map (fun i => 2 * (i : Int))⟩ ∧
    strictly_ascending ⟨(List.range 32).map (fun i => 2 * (i : Int) + 1)⟩ ∧
    indexes_within 0 63 ⟨(List.range 32).map (fun i => 2 * (i : Int))⟩ ∧
    indexes_within 0 63 ⟨(List.range 32).map (fun i => 2 * (i : Int) + 1)⟩ ∧
    xor_solutions ⟨(List.range 32).map (fun i => 2 * (i : Int))⟩
      ⟨(List.range 32).map (fun i => 2 * (i : Int) + 1)⟩ = none ∧
    xor_solutions_store_positions ⟨(List.range 32).map (fun i => 2 * (i : Int))⟩
      ⟨(List.range 32).map (fun i => 2 * (i : Int) + 1)⟩ = List.range 64 ∧
    (∀ s1 s2 : solution_t, ∀ k ∈ xor_solutions_store_positions s1 s2, k < 64) ∧
    (∀ s1 s2 : solution_t, strictly_ascending s1 → strictly_ascending s2 →
      indexes_within 0 63 s1 → indexes_within 0 63 s2 →
      (xor_solutions s1 s2 = none ↔
        ∀ i : Int, 0 ≤ i → i ≤ 63 → in_symm_diff i s1.indexes s2.indexes)) := by
  refine ⟨by decide!, by decide!, by decide!, by decide!, by decide!, by decide!, ?_, ?_⟩
  · intro s1 s2 k hk
    exact xor_solutions_stores_in_bounds _ _ _ _ _ (by decide) (by simp) k hk
  · intro s1 s2 h1 h2 r1 r2
    exact xor_solutions_none_iff s1 s2 h1 h2 r1 r2

end HashFunction
